import Mathlib

/-!
# BEE: lowering of the syntax tree to IR (`codegen.cpp`, `codegen.h`, `node.h`)

A shallow embedding of the code generator.  The LLVM objects the generator
builds are records: every object made by a constructor or a `Create` call gets
a fresh number, instructions are appended to the end of the block they are
handed, and a null pointer handed to a constructor is kept as the operand.
Text written to `std::cerr` is the list `cerr` of the context; the `EXIT` and
`DEBUG` branches are compiled out (`#define EXIT false`, `#define DEBUG false`).
-/

namespace BEE

/-! ## IR objects -/

/-- An `llvm::Type*`. `null` is the null pointer, which `std::map::operator[]`
produces for a name `ltypes` does not hold. -/
inductive IRType where
  | null
  | void
  | int1
  | int8
  | int64
  | double
  | ptr (pointee : IRType)
  | array (elem : IRType) (n : Nat)
  deriving DecidableEq, Repr

/-- Linkage of a function or global (`GlobalValue::LinkageTypes`). -/
inductive Linkage where
  | ExternalLinkage
  | InternalLinkage
  | PrivateLinkage
  deriving DecidableEq, Repr

/-- An `llvm::Function*` that is not null: `id` is the identity of the object. -/
structure Function where
  id : Nat
  name : String
  retTy : IRType
  argTys : List IRType
  linkage : Linkage
  deriving DecidableEq, Repr

/-- An `llvm::BasicBlock*` that is not null: `id` is the identity of the object,
`parent` the function it was created in (`getParent()`). -/
structure BasicBlock where
  id : Nat
  name : String
  parent : Function
  deriving DecidableEq, Repr

/-- An `llvm::Value*`. An instruction used as a value is named by the number and
the type of the instruction. -/
inductive Value where
  | null
  | constInt (ty : IRType) (v : Int)
  | constFP (bits : Nat)
  | inst (id : Nat) (ty : IRType)
  | argument (fn : Nat) (idx : Nat) (ty : IRType)
  | function (f : Function)
  | bitcast (global : Nat) (ty : IRType)
  deriving DecidableEq, Repr

/-- The type of a value (`Value::getType()`), `IRType.null` for the null pointer. -/
def Value.getType : Value → IRType
  | .null => .null
  | .constInt ty _ => ty
  | .constFP _ => .double
  | .inst _ ty => ty
  | .argument _ _ ty => ty
  | .function _ => .ptr .void
  | .bitcast _ ty => ty

/-- The opcodes the generator hands to `BinaryOperator::Create`. -/
inductive BinaryOps where
  | Add
  | Sub
  | Mul
  | SDiv
  deriving DecidableEq, Repr

/-- The predicates the generator hands to `CmpInst::Create`. -/
inductive Predicate where
  | ICMP_EQ
  | ICMP_NE
  | ICMP_SLT
  | ICMP_SLE
  | ICMP_SGT
  | ICMP_SGE
  deriving DecidableEq, Repr

/-- The instruction constructors the generator calls, with their operands. -/
inductive InstKind where
  | alloca (ty : IRType) (name : String)
  | load (ty : IRType) (ptr : Value) (name : String)
  | store (val : Value) (ptr : Value)
  | gep (ty : IRType) (ptr : Value) (indices : List Value)
  | binop (op : BinaryOps) (lhs rhs : Value)
  | icmp (pred : Predicate) (lhs rhs : Value)
  | neg (v : Value)
  | not (v : Value)
  | call (callee : Option Function) (args : List Value)
  | br (dest : BasicBlock)
  | condBr (ifTrue ifFalse : BasicBlock) (cond : Value)
  | ret (val : Value)
  deriving DecidableEq, Repr

/-- One instruction: its number, what it is, and the block it was appended to. -/
structure Instruction where
  id : Nat
  kind : InstKind
  parent : BasicBlock
  deriving DecidableEq, Repr

/-- The type of the value an instruction yields. -/
def InstKind.resultType : InstKind → IRType
  | .alloca ty _ => .ptr ty
  | .load ty _ _ => ty
  | .store _ _ => .void
  | .gep ty _ _ => .ptr ty
  | .binop _ lhs _ => lhs.getType
  | .icmp _ _ _ => .int1
  | .neg v => v.getType
  | .not v => v.getType
  | .call (some f) _ => f.retTy
  | .call none _ => .null
  | .br _ => .void
  | .condBr _ _ _ => .void
  | .ret _ => .void

/-- A private constant global holding a byte array (`NString::codeGen`). -/
structure GlobalVariable where
  id : Nat
  name : String
  bytes : List Nat
  deriving DecidableEq, Repr

/-- The `llvm::Module` under construction. `insts` is every instruction created
so far, oldest first; the instructions of one block are those whose `parent` is
that block, in this order. `layout` is the order of the blocks. -/
structure Module where
  functions : List Function
  layout : List BasicBlock
  insts : List Instruction
  globals : List GlobalVariable
  deriving DecidableEq, Repr

/-- `Module::getFunction(name)`: the function registered under `name`. A later
function created with a name already taken is renamed by LLVM, so the first
one keeps the name. -/
def Module.getFunction (m : Module) (name : String) : Option Function :=
  m.functions.find? (fun f => f.name == name)

/-- The instructions of block `bb`, in the order they were appended. -/
def Module.instsOf (m : Module) (bb : BasicBlock) : List Instruction :=
  m.insts.filter (fun i => i.parent == bb)

/-! ## `std::map<std::string, T>` -/

/-- A `std::map` keyed by strings, as the list of its entries. The generator
never iterates over a map, so the order of the entries is not observable. -/
abbrev StdMap (β : Type) := List (String × β)

namespace StdMap

/-- `m.find(name)`: the value stored under `name`, if any. -/
def find {β : Type} : StdMap β → String → Option β
  | [], _ => none
  | (k, v) :: rest, name => if k = name then some v else find rest name

/-- `m.find(name) != m.end()`. -/
def contains {β : Type} (m : StdMap β) (name : String) : Bool :=
  (m.find name).isSome

/-- `m[name] = v`: overwrite the entry of `name`, or insert one. -/
def set {β : Type} : StdMap β → String → β → StdMap β
  | [], name, v => [(name, v)]
  | (k, w) :: rest, name, v =>
    if k = name then (k, v) :: rest else (k, w) :: set rest name v

/-- `m[name]` read as a value: the stored value, and the map afterwards. When
`name` is absent `operator[]` inserts a value-initialised entry (`dflt`). -/
def index {β : Type} (m : StdMap β) (name : String) (dflt : β) : β × StdMap β :=
  match m.find name with
  | some v => (v, m)
  | none => (dflt, m.set name dflt)

end StdMap

/-! ## `CodeGenBlock`, `CodeGenContext` (`codegen.h`) -/

/-- `class CodeGenBlock`. -/
structure CodeGenBlock where
  block : BasicBlock
  returnValue : Value
  locals : StdMap Value
  ltypes : StdMap IRType
  deriving DecidableEq, Repr

/-- The diagnostics the generator writes to `std::cerr`. -/
inductive Diag where
  | nonexistentType (name : String)
  | undeclaredVariable (name : String)
  | noSuchFunction (name : String)
  | variableAlreadyDeclared (name : String)
  | arrayAlreadyDeclared (name : String)
  deriving DecidableEq, Repr

/-- Undefined behaviour the generator can run into. -/
inductive Fault where
  | emptyStack
  | nullScope
  | nullValue
  | outOfBounds
  deriving DecidableEq, Repr

/-- `class CodeGenContext`, with the error stream and the counter that numbers
new objects. `blocks` is the `std::stack`, top first. -/
structure CodeGenContext where
  blocks : List CodeGenBlock
  module : Module
  mainFunction : Option Function
  cerr : List Diag
  fresh : Nat
  deriving DecidableEq, Repr

/-- Outcome of a piece of the generator run on a context: a fault, or a result
and the context afterwards. -/
abbrev Gen (α : Type) := CodeGenContext → Except Fault (α × CodeGenContext)

deriving instance DecidableEq for Except

/-- A `CodeGenBlock*` that is not null: the position of the scope counted from
the bottom of the stack, which pushes above it do not change. -/
abbrev ScopeRef := Nat

/-- The scope a `CodeGenBlock*` points to. -/
def scopeAt (blocks : List CodeGenBlock) (p : ScopeRef) : Option CodeGenBlock :=
  match blocks with
  | [] => none
  | b :: rest => if rest.length = p then some b else scopeAt rest p

/-- Replace the scope a `CodeGenBlock*` points to. -/
def setScopeAt (blocks : List CodeGenBlock) (p : ScopeRef) (s : CodeGenBlock) :
    List CodeGenBlock :=
  match blocks with
  | [] => []
  | b :: rest => if rest.length = p then s :: rest else b :: setScopeAt rest p s

/-- `findLocals` (codegen.cpp:20): test the top scope, else pop it, search the
rest, and push it back. Returns the pointer found (`none` is `NULL`) and the
stack as the call leaves it. -/
def findLocals (blocks : List CodeGenBlock) (name : String) :
    Option ScopeRef × List CodeGenBlock :=
  match blocks with
  | [] => (none, [])
  | b :: rest =>
    if b.locals.contains name then (some rest.length, b :: rest)
    else
      let r := findLocals rest name
      (r.1, b :: r.2)

namespace CodeGenContext

/-- `std::cerr << ...`: append one diagnostic. -/
def report (c : CodeGenContext) (d : Diag) : CodeGenContext :=
  { c with cerr := c.cerr ++ [d] }

/-- `currentBlock()`: `blocks.top()->block`. -/
def currentBlock : Gen BasicBlock := fun c =>
  match c.blocks with
  | [] => .error .emptyStack
  | b :: _ => .ok (b.block, c)

/-- `pushBlock(block)`. -/
def pushBlock (c : CodeGenContext) (block : BasicBlock) : CodeGenContext :=
  { c with blocks :=
      { block := block, returnValue := .null, locals := [], ltypes := [] } :: c.blocks }

/-- `popBlock()`. -/
def popBlock : Gen Unit := fun c =>
  match c.blocks with
  | [] => .error .emptyStack
  | _ :: rest => .ok ((), { c with blocks := rest })

/-- `setCurrentReturnValue(value)`. -/
def setCurrentReturnValue (value : Value) : Gen Unit := fun c =>
  match c.blocks with
  | [] => .error .emptyStack
  | b :: rest => .ok ((), { c with blocks := { b with returnValue := value } :: rest })

/-- `getCurrentReturnValue()`. -/
def getCurrentReturnValue : Gen Value := fun c =>
  match c.blocks with
  | [] => .error .emptyStack
  | b :: _ => .ok (b.returnValue, c)

/-- Append a new instruction to the end of block `bb` (the `InsertAtEnd`
constructors); the result is the instruction as a value. -/
def emit (c : CodeGenContext) (bb : BasicBlock) (kind : InstKind) : Value × CodeGenContext :=
  (.inst c.fresh kind.resultType,
   { c with
     module := { c.module with insts := c.module.insts ++ [⟨c.fresh, kind, bb⟩] }
     fresh := c.fresh + 1 })

/-- `BasicBlock::Create(MyContext, name, parent)`: a new block at the end of the
block list. -/
def createBlock (c : CodeGenContext) (name : String) (parent : Function) :
    BasicBlock × CodeGenContext :=
  (⟨c.fresh, name, parent⟩,
   { c with
     module := { c.module with layout := c.module.layout ++ [⟨c.fresh, name, parent⟩] }
     fresh := c.fresh + 1 })

/-- `Function::Create(ftype, linkage, name, module)`. -/
def createFunction (c : CodeGenContext) (retTy : IRType) (argTys : List IRType)
    (linkage : Linkage) (name : String) : Function × CodeGenContext :=
  (⟨c.fresh, name, retTy, argTys, linkage⟩,
   { c with
     module := { c.module with
                 functions := c.module.functions ++ [⟨c.fresh, name, retTy, argTys, linkage⟩] }
     fresh := c.fresh + 1 })

end CodeGenContext

/-- Place `x` right after the first occurrence of `pos` in a block list. -/
def insertAfter (pos x : BasicBlock) : List BasicBlock → List BasicBlock
  | [] => [x]
  | b :: rest => if b = pos then b :: x :: rest else b :: insertAfter pos x rest

/-- `x->moveAfter(pos)`: unlink `x` and link it right after `pos`. -/
def moveAfter (c : CodeGenContext) (x pos : BasicBlock) : CodeGenContext :=
  { c with module := { c.module with layout := insertAfter pos x (c.module.layout.erase x) } }

/-- `typeOf` (codegen.cpp:141): the type a name stands for, and what the call
writes to `std::cerr`. An unknown name is reported and mapped to `void`. -/
def typeOf (name : String) : IRType × List Diag :=
  if name = "void" then (.void, [])
  else if name = "int" then (.int64, [])
  else if name = "double" then (.double, [])
  else if name = "string" then (.ptr .int8, [])
  else if name = "bool" then (.int1, [])
  else (.void, [.nonexistentType name])

/-! ## The syntax tree (`node.h`) -/

/-- Modelled from the spec: the operator tags, which `parser.hpp` (not among
the sources) defines as integer constants. `CEQ … CGE` are the comparison tags
EQ … GE; `other` is every integer that is none of the named tags, the tag of a
plain assignment among them. -/
inductive Token where
  | PLUS
  | MINUS
  | MUL
  | DIV
  | CEQ
  | CNE
  | CLT
  | CLE
  | CGT
  | CGE
  | PLUSASN
  | MINUSASN
  | MULASN
  | DIVASN
  | NOT
  | other
  deriving DecidableEq, Repr

mutual
/-- The classes derived from `NExpression`. -/
inductive NExpression where
  | NInteger (value : Int)
  | NDouble (bits : Nat)
  | NString (value : List Nat)
  | NBool (value : Bool)
  | NIdentifier (name : String)
  | NMethodCall (id : String) (arguments : ExpressionList)
  | NArray (items : ExpressionList)
  | NArrayRead (arr : String) (index : NExpression)
  | NArrayWrite (arr : String) (index : NExpression) (op : Token) (assignment : NExpression)
  | NBinaryOperator (lhs : NExpression) (op : Token) (rhs : NExpression)
  | NUnaryOperator (op : Token) (expr : NExpression)
  | NAssignment (lhs : String) (op : Token) (rhs : NExpression)
  | NBlock (statements : StatementList)
/-- `ExpressionList`: `std::vector<NExpression*>`. -/
inductive ExpressionList where
  | nil
  | cons (head : NExpression) (tail : ExpressionList)
/-- The classes derived from `NStatement`. -/
inductive NStatement where
  | NExpressionStatement (expression : NExpression)
  | NReturnStatement (expression : NExpression)
  | NVariableDeclaration (type id : String) (assignmentExpr : OptExpression)
  | NArrayDeclaration (type id : String) (assignmentExpr : OptExpression)
  | NExternDeclaration (type id : String) (arguments : VariableList)
  | NFunctionDeclaration (type id : String) (arguments : VariableList) (block : StatementList)
  | NConditional (condition : NExpression) (thenblock elseblock : StatementList)
  | NLoop (condition : NExpression) (block : StatementList)
/-- `StatementList`: `std::vector<NStatement*>`. -/
inductive StatementList where
  | nil
  | cons (head : NStatement) (tail : StatementList)
/-- `VariableList`: `std::vector<NVariableDeclaration*>`. -/
inductive VariableList where
  | nil
  | cons (type id : String) (assignmentExpr : OptExpression) (tail : VariableList)
/-- An `NExpression*` that may be `NULL` (`assignmentExpr`). -/
inductive OptExpression where
  | null
  | ptr (e : NExpression)
end

/-- The type names of a parameter list (`(**it).type`), in order. -/
def VariableList.typeNames : VariableList → List String
  | .nil => []
  | .cons type _ _ tail => type :: typeNames tail

/-- The parameter names of a parameter list (`(*it)->id.name`), in order. -/
def VariableList.names : VariableList → List String
  | .nil => []
  | .cons _ id _ tail => id :: names tail

/-! ## What C++ leaves open -/

/-- Two things the lowering depends on that the language leaves to the compiler.
`rightToLeft`: the argument expressions of one call are evaluated last to first
(as GCC does) instead of first to last (as Clang does); C++ does not fix the
order, and these are the two orders compilers use. `indeterminate`: the value
read from the member `op` that the two-argument constructor of `NAssignment`
(node.h:124) leaves uninitialised, for the assignment made when the object
counter stands at the given number. -/
structure Cxx where
  rightToLeft : Bool
  indeterminate : Nat → Token

namespace Cxx

/-- Evaluate the argument expressions `a`, `b` of one call, in the compiler's
order; the values are returned in the order of the parameters. -/
def args2 {α β : Type} (cxx : Cxx) (a : Gen α) (b : Gen β) : Gen (α × β) := fun c =>
  if cxx.rightToLeft then
    match b c with
    | .error f => .error f
    | .ok (y, c1) =>
      match a c1 with
      | .error f => .error f
      | .ok (x, c2) => .ok ((x, y), c2)
  else
    match a c with
    | .error f => .error f
    | .ok (x, c1) =>
      match b c1 with
      | .error f => .error f
      | .ok (y, c2) => .ok ((x, y), c2)

/-- Evaluate the argument expressions `a`, `b`, `d` of one call, in the
compiler's order. -/
def args3 {α β γ : Type} (cxx : Cxx) (a : Gen α) (b : Gen β) (d : Gen γ) :
    Gen (α × β × γ) := fun c =>
  if cxx.rightToLeft then
    match d c with
    | .error f => .error f
    | .ok (z, c1) =>
      match b c1 with
      | .error f => .error f
      | .ok (y, c2) =>
        match a c2 with
        | .error f => .error f
        | .ok (x, c3) => .ok ((x, y, z), c3)
  else
    match a c with
    | .error f => .error f
    | .ok (x, c1) =>
      match b c1 with
      | .error f => .error f
      | .ok (y, c2) =>
        match d c2 with
        | .error f => .error f
        | .ok (z, c3) => .ok ((x, y, z), c3)

end Cxx

/-! ## Access to the symbol tables -/

/-- `b->locals[name]` read through a scope pointer. -/
def localsAt (p : ScopeRef) (name : String) : Gen Value := fun c =>
  match scopeAt c.blocks p with
  | none => .error .nullScope
  | some s =>
    .ok ((s.locals.index name .null).1,
         { c with blocks := setScopeAt c.blocks p { s with locals := (s.locals.index name .null).2 } })

/-- `b->ltypes[name]` read through a scope pointer. -/
def ltypesAt (p : ScopeRef) (name : String) : Gen IRType := fun c =>
  match scopeAt c.blocks p with
  | none => .error .nullScope
  | some s =>
    .ok ((s.ltypes.index name .null).1,
         { c with blocks := setScopeAt c.blocks p { s with ltypes := (s.ltypes.index name .null).2 } })

/-- `context.locals()[name]` read: the entry of the top scope. -/
def topLocals (name : String) : Gen Value := fun c =>
  match c.blocks with
  | [] => .error .emptyStack
  | b :: rest =>
    .ok ((b.locals.index name .null).1,
         { c with blocks := { b with locals := (b.locals.index name .null).2 } :: rest })

/-- `context.ltypes()[name]` read: the entry of the top scope. -/
def topLtypes (name : String) : Gen IRType := fun c =>
  match c.blocks with
  | [] => .error .emptyStack
  | b :: rest =>
    .ok ((b.ltypes.index name .null).1,
         { c with blocks := { b with ltypes := (b.ltypes.index name .null).2 } :: rest })

/-- The opcode of an arithmetic tag (`NBinaryOperator::codeGen`, label `math`). -/
def arithOf : Token → Option BinaryOps
  | .PLUS => some .Add
  | .MINUS => some .Sub
  | .MUL => some .Mul
  | .DIV => some .SDiv
  | _ => none

/-- The predicate of a comparison tag (`NBinaryOperator::codeGen`, label `comp`). -/
def predOf : Token → Option Predicate
  | .CEQ => some .ICMP_EQ
  | .CNE => some .ICMP_NE
  | .CLT => some .ICMP_SLT
  | .CLE => some .ICMP_SLE
  | .CGT => some .ICMP_SGT
  | .CGE => some .ICMP_SGE
  | _ => none

/-- The opcode of a compound-assignment tag (`NAssignment::codeGen` and
`NArrayWrite::codeGen`, label `math`); `none` is the `default` case. -/
def compoundOf : Token → Option BinaryOps
  | .PLUSASN => some .Add
  | .MINUSASN => some .Sub
  | .MULASN => some .Mul
  | .DIVASN => some .SDiv
  | _ => none

/-! ## `codeGen` of each class (`codegen.cpp`) -/

/-- `NInteger::codeGen` (codegen.cpp:168). -/
def NInteger.codeGen (value : Int) : Gen Value := fun context =>
  .ok (.constInt .int64 value, context)

/-- `NDouble::codeGen` (codegen.cpp:176). -/
def NDouble.codeGen (bits : Nat) : Gen Value := fun context =>
  .ok (.constFP bits, context)

/-- `NBool::codeGen` (codegen.cpp:279). -/
def NBool.codeGen (value : Bool) : Gen Value := fun context =>
  .ok (.constInt .int1 (if value then 1 else 0), context)

/-- The loop of `NString::codeGen` from index `i` on, given the bytes
`value[i], value[i+1], …` up to the end of the string: it runs while
`i < value.size() - 1`, so the last byte is looked at but never copied. The
byte 92 is the backslash, 110 is the letter `n`, 10 is the newline. -/
def NString.scan : List Nat → List Nat
  | [] => []
  | [_] => []
  | c :: d :: rest =>
    if c = 92 ∧ d = 110 then 10 :: scan rest
    else c :: scan (d :: rest)

/-- `NString::codeGen` (codegen.cpp:247). `value`, a `std::string`, is the
sequence of its bytes (`char`s), and every byte copied becomes a constant of
8 bits. On the empty string the unsigned `value.size() - 1` wraps and the loop
reads past the end. -/
def NString.codeGen (value : List Nat) : Gen Value := fun context =>
  match value with
  | [] => .error .outOfBounds
  | _ :: chars =>
    .ok (.bitcast context.fresh (.ptr .int8),
         { context with
           module := { context.module with
                       globals := context.module.globals ++
                         [⟨context.fresh, ".str",
                           (NString.scan chars).map (fun ch => ch % 256) ++ [0]⟩] }
           fresh := context.fresh + 1 })

/-- `NIdentifier::codeGen` (codegen.cpp:287). The arguments of the `LoadInst`
constructor read `b->ltypes`, `b->locals` and the current block, which do not
affect one another, so they are read in the order written. -/
def NIdentifier.codeGen (name : String) : Gen Value := fun context =>
  let found := findLocals context.blocks name
  let context := { context with blocks := found.2 }
  match found.1 with
  | none => .ok (.null, context.report (.undeclaredVariable name))
  | some b =>
    match ltypesAt b name context with
    | .error f => .error f
    | .ok (ty, c1) =>
      match localsAt b name c1 with
      | .error f => .error f
      | .ok (handle, c2) =>
        match CodeGenContext.currentBlock c2 with
        | .error f => .error f
        | .ok (bb, c3) => .ok (c3.emit bb (.load ty handle name))

/-- `NMethodCall::codeGen` (codegen.cpp:307); `arguments` is the loop that lowers
the argument list. -/
def NMethodCall.codeGen (id : String) (arguments : Gen (List Value)) : Gen Value :=
  fun context =>
  let function := context.module.getFunction id
  let context := if function = none then context.report (.noSuchFunction id) else context
  match arguments context with
  | .error f => .error f
  | .ok (args, c1) =>
    match CodeGenContext.currentBlock c1 with
    | .error f => .error f
    | .ok (bb, c2) => .ok (c2.emit bb (.call function args))

/-- The element type `NArray::codeGen` picks: the type of the first value, `void`
for no values. -/
def NArray.itemType : List Value → Except Fault IRType
  | [] => .ok .void
  | .null :: _ => .error .nullValue
  | v :: _ => .ok v.getType

/-- The second loop of `NArray::codeGen`: store `arr[i], arr[i+1], …` through
element addresses computed from `alloc`. -/
def NArray.storeItems (itemType : IRType) (alloc : Value) : Nat → List Value → Gen Unit
  | _, [] => fun context => .ok ((), context)
  | i, v :: rest => fun context =>
    match CodeGenContext.currentBlock context with
    | .error f => .error f
    | .ok (bb, c1) =>
      let g := c1.emit bb (.gep itemType alloc [.constInt .int64 i])
      match CodeGenContext.currentBlock g.2 with
      | .error f => .error f
      | .ok (bb2, c2) => storeItems itemType alloc (i + 1) rest (c2.emit bb2 (.store v g.1)).2

/-- `NArray::codeGen` (codegen.cpp:184); `items` is the loop that lowers the
items. -/
def NArray.codeGen (items : Gen (List Value)) : Gen Value := fun context =>
  match items context with
  | .error f => .error f
  | .ok (arr, c1) =>
    match NArray.itemType arr with
    | .error f => .error f
    | .ok itemType =>
      match CodeGenContext.currentBlock c1 with
      | .error f => .error f
      | .ok (bb, c2) =>
        let a := c2.emit bb (.alloca (.array itemType arr.length) "")
        match NArray.storeItems itemType a.1 0 arr a.2 with
        | .error f => .error f
        | .ok (_, c3) => .ok (a.1, c3)

/-- The first two statements of `NArrayRead::codeGen` and `NArrayWrite::codeGen`
after the lookup: load the array pointer, lower the index, compute the element
address. Returns the address and the scope pointer. A null scope pointer is
dereferenced by the first statement. -/
def arrayElementAddress (b : Option ScopeRef) (arr : String) (index : Gen Value) :
    Gen (Value × ScopeRef) := fun context =>
  match b with
  | none => .error .nullScope
  | some b =>
    match ltypesAt b arr context with
    | .error f => .error f
    | .ok (ty, c1) =>
      match localsAt b arr c1 with
      | .error f => .error f
      | .ok (handle, c2) =>
        match CodeGenContext.currentBlock c2 with
        | .error f => .error f
        | .ok (bb, c3) =>
          let array := c3.emit bb (.load (.ptr ty) handle arr)
          match index array.2 with
          | .error f => .error f
          | .ok (idx, c4) =>
            match ltypesAt b arr c4 with
            | .error f => .error f
            | .ok (ty2, c5) =>
              match CodeGenContext.currentBlock c5 with
              | .error f => .error f
              | .ok (bb2, c6) =>
                let g := c6.emit bb2 (.gep ty2 array.1 [idx])
                .ok ((g.1, b), g.2)

/-- `NArrayRead::codeGen` (codegen.cpp:211). The result of `findLocals` is used
without a test. -/
def NArrayRead.codeGen (arr : String) (index : Gen Value) : Gen Value := fun context =>
  let found := findLocals context.blocks arr
  match arrayElementAddress found.1 arr index { context with blocks := found.2 } with
  | .error f => .error f
  | .ok ((getElementPtr, b), c1) =>
    match ltypesAt b arr c1 with
    | .error f => .error f
    | .ok (ty, c2) =>
      match CodeGenContext.currentBlock c2 with
      | .error f => .error f
      | .ok (bb, c3) => .ok (c3.emit bb (.load ty getElementPtr ""))

/-- `NArrayWrite::codeGen` (codegen.cpp:223). -/
def NArrayWrite.codeGen (cxx : Cxx) (arr : String) (index : Gen Value) (op : Token)
    (assignment : Gen Value) : Gen Value := fun context =>
  let found := findLocals context.blocks arr
  match arrayElementAddress found.1 arr index { context with blocks := found.2 } with
  | .error f => .error f
  | .ok ((getElementPtr, b), c1) =>
    match compoundOf op with
    | none =>
      match cxx.args2 assignment CodeGenContext.currentBlock c1 with
      | .error f => .error f
      | .ok ((v, bb), c2) => .ok (c2.emit bb (.store v getElementPtr))
    | some instr =>
      match ltypesAt b arr c1 with
      | .error f => .error f
      | .ok (ty, c2) =>
        match CodeGenContext.currentBlock c2 with
        | .error f => .error f
        | .ok (bb, c3) =>
          let current := c3.emit bb (.load ty getElementPtr "")
          let create : Gen Value := fun c =>
            match cxx.args2 assignment CodeGenContext.currentBlock c with
            | .error f => .error f
            | .ok ((v, bb2), c4) => .ok (c4.emit bb2 (.binop instr current.1 v))
          match cxx.args2 create CodeGenContext.currentBlock current.2 with
          | .error f => .error f
          | .ok ((r, bb3), c5) => .ok (c5.emit bb3 (.store r getElementPtr))

/-- `NBinaryOperator::codeGen` (codegen.cpp:329). -/
def NBinaryOperator.codeGen (cxx : Cxx) (lhs : Gen Value) (op : Token) (rhs : Gen Value) :
    Gen Value := fun context =>
  match arithOf op with
  | some instr =>
    match cxx.args3 lhs rhs CodeGenContext.currentBlock context with
    | .error f => .error f
    | .ok ((l, r, bb), c1) => .ok (c1.emit bb (.binop instr l r))
  | none =>
    match predOf op with
    | some pred =>
      match cxx.args3 lhs rhs CodeGenContext.currentBlock context with
      | .error f => .error f
      | .ok ((l, r, bb), c1) => .ok (c1.emit bb (.icmp pred l r))
    | none => .ok (.null, context)

/-- `NUnaryOperator::codeGen` (codegen.cpp:357). `CreateNeg` and `CreateNot` are
kept as one instruction each. -/
def NUnaryOperator.codeGen (cxx : Cxx) (op : Token) (expr : Gen Value) : Gen Value :=
  fun context =>
  match op with
  | .MINUS =>
    match cxx.args2 expr CodeGenContext.currentBlock context with
    | .error f => .error f
    | .ok ((v, bb), c1) => .ok (c1.emit bb (.neg v))
  | .NOT =>
    match cxx.args2 expr CodeGenContext.currentBlock context with
    | .error f => .error f
    | .ok ((v, bb), c1) => .ok (c1.emit bb (.not v))
  | _ => .ok (.null, context)

/-- `NAssignment::codeGen` (codegen.cpp:373). -/
def NAssignment.codeGen (cxx : Cxx) (lhs : String) (op : Token) (rhs : Gen Value) :
    Gen Value := fun context =>
  let found := findLocals context.blocks lhs
  let context := { context with blocks := found.2 }
  match found.1 with
  | none => .ok (.null, context.report (.undeclaredVariable lhs))
  | some b =>
    match compoundOf op with
    | none =>
      match cxx.args3 rhs (localsAt b lhs) CodeGenContext.currentBlock context with
      | .error f => .error f
      | .ok ((v, handle, bb), c1) => .ok (c1.emit bb (.store v handle))
    | some instr =>
      let create : Gen Value := fun c =>
        match cxx.args3 (NIdentifier.codeGen lhs) rhs CodeGenContext.currentBlock c with
        | .error f => .error f
        | .ok ((l, r, bb), c1) => .ok (c1.emit bb (.binop instr l r))
      match cxx.args3 create (localsAt b lhs) CodeGenContext.currentBlock context with
      | .error f => .error f
      | .ok ((v, handle, bb), c1) => .ok (c1.emit bb (.store v handle))

/-- `NReturnStatement::codeGen` (codegen.cpp:429). -/
def NReturnStatement.codeGen (expression : Gen Value) : Gen Value := fun context =>
  match expression context with
  | .error f => .error f
  | .ok (returnValue, c1) =>
    match CodeGenContext.setCurrentReturnValue returnValue c1 with
    | .error f => .error f
    | .ok (_, c2) => .ok (returnValue, c2)

/-- The part of `NVariableDeclaration::codeGen` and `NArrayDeclaration::codeGen`
after the test for an earlier declaration: record the type, allocate the slot
of type `slotTy` applied to the recorded type, record the slot, and run the
assignment of the initializer when there is one. -/
def declare (cxx : Cxx) (slotTy : IRType → IRType) (type id : String)
    (assignmentExpr : Option (Gen Value)) : Gen Value := fun context =>
  match context.blocks with
  | [] => .error .emptyStack
  | top :: rest =>
    let t := typeOf type
    let c1 : CodeGenContext :=
      { context with
        blocks := { top with ltypes := top.ltypes.set id t.1 } :: rest
        cerr := context.cerr ++ t.2 }
    match topLtypes id c1 with
    | .error f => .error f
    | .ok (ty, c2) =>
      match CodeGenContext.currentBlock c2 with
      | .error f => .error f
      | .ok (bb, c3) =>
        let alloc := c3.emit bb (.alloca (slotTy ty) id)
        match alloc.2.blocks with
        | [] => .error .emptyStack
        | top2 :: rest2 =>
          let c4 : CodeGenContext :=
            { alloc.2 with blocks := { top2 with locals := top2.locals.set id alloc.1 } :: rest2 }
          match assignmentExpr with
          | none => .ok (alloc.1, c4)
          | some rhs =>
            match NAssignment.codeGen cxx id (cxx.indeterminate c4.fresh) rhs c4 with
            | .error f => .error f
            | .ok (_, c5) => .ok (alloc.1, c5)

/-- `NVariableDeclaration::codeGen` (codegen.cpp:439). -/
def NVariableDeclaration.codeGen (cxx : Cxx) (type id : String)
    (assignmentExpr : Option (Gen Value)) : Gen Value := fun context =>
  match context.blocks with
  | [] => .error .emptyStack
  | top :: _ =>
    if top.locals.contains id then
      .ok (.null, context.report (.variableAlreadyDeclared id))
    else declare cxx (fun ty => ty) type id assignmentExpr context

/-- `NArrayDeclaration::codeGen` (codegen.cpp:464). -/
def NArrayDeclaration.codeGen (cxx : Cxx) (type id : String)
    (assignmentExpr : Option (Gen Value)) : Gen Value := fun context =>
  match context.blocks with
  | [] => .error .emptyStack
  | top :: _ =>
    if top.locals.contains id then
      .ok (.null, context.report (.arrayAlreadyDeclared id))
    else declare cxx (fun ty => .ptr ty) type id assignmentExpr context

/-- The loops of `NExternDeclaration::codeGen` and `NFunctionDeclaration::codeGen`
that map the parameter types: the types, and what `typeOf` reports. -/
def argTypesOf : List String → List IRType × List Diag
  | [] => ([], [])
  | t :: rest => ((typeOf t).1 :: (argTypesOf rest).1, (typeOf t).2 ++ (argTypesOf rest).2)

/-- `NExternDeclaration::codeGen` (codegen.cpp:489). -/
def NExternDeclaration.codeGen (type id : String) (argumentTypes : List String) :
    Gen Value := fun context =>
  let argTypes := argTypesOf argumentTypes
  let ret := typeOf type
  let c1 : CodeGenContext := { context with cerr := context.cerr ++ argTypes.2 ++ ret.2 }
  let function := c1.createFunction ret.1 argTypes.1 .ExternalLinkage id
  .ok (.function function.1, function.2)

/-- `NFunctionDeclaration::codeGen` (codegen.cpp:501). `arguments` is the loop
over the parameters, given the function and its entry block; `block` lowers
the body. -/
def NFunctionDeclaration.codeGen (type id : String) (argumentTypes : List String)
    (arguments : Function → BasicBlock → Gen Unit) (block : Gen Value) : Gen Value :=
  fun context =>
  let argTypes := argTypesOf argumentTypes
  let ret := typeOf type
  let c1 : CodeGenContext := { context with cerr := context.cerr ++ argTypes.2 ++ ret.2 }
  let function := c1.createFunction ret.1 argTypes.1 .InternalLinkage id
  let bblock := function.2.createBlock "entry" function.1
  match arguments function.1 bblock.1 (bblock.2.pushBlock bblock.1) with
  | .error f => .error f
  | .ok (_, c2) =>
    match block c2 with
    | .error f => .error f
    | .ok (_, c3) =>
      match CodeGenContext.getCurrentReturnValue c3 with
      | .error f => .error f
      | .ok (rv, c4) =>
        match CodeGenContext.popBlock (c4.emit bblock.1 (.ret rv)).2 with
        | .error f => .error f
        | .ok (_, c5) => .ok (.function function.1, c5)

/-- One round of the parameter loop of `NFunctionDeclaration::codeGen` after the
declaration of the parameter has been lowered: store argument `i` of `function`
into `context.locals()[id]`, in the entry block. -/
def storeArgument (function : Function) (bblock : BasicBlock) (i : Nat) (id : String) :
    Gen Unit := fun context =>
  match topLocals id context with
  | .error f => .error f
  | .ok (slot, c1) =>
    .ok ((), (c1.emit bblock
      (.store (.argument function.id i (function.argTys.getD i .null)) slot)).2)

/-- `currentBlock()->getParent()`. -/
def currentFunction : Gen Function := fun context =>
  match CodeGenContext.currentBlock context with
  | .error f => .error f
  | .ok (bb, c1) => .ok (bb.parent, c1)

/-- `BasicBlock::Create(MyContext, name, context.currentBlock()->getParent())`. -/
def createBlockHere (name : String) : Gen BasicBlock := fun context =>
  match currentFunction context with
  | .error f => .error f
  | .ok (fn, c1) => .ok (c1.createBlock name fn)

/-- `BranchInst::Create(dest, context.currentBlock())`. -/
def branchTo (dest : BasicBlock) : Gen Unit := fun context =>
  match CodeGenContext.currentBlock context with
  | .error f => .error f
  | .ok (bb, c1) => .ok ((), (c1.emit bb (.br dest)).2)

/-- `BranchInst::Create(ifTrue, ifFalse, condition.codeGen(context),
context.currentBlock())`. -/
def branchOn (cxx : Cxx) (ifTrue ifFalse : BasicBlock) (condition : Gen Value) : Gen Unit :=
  fun context =>
  match cxx.args2 condition CodeGenContext.currentBlock context with
  | .error f => .error f
  | .ok ((v, bb), c1) => .ok ((), (c1.emit bb (.condBr ifTrue ifFalse v)).2)

/-- `x->moveAfter(context.currentBlock()); context.pushBlock(x)`. -/
def moveAndPush (x : BasicBlock) : Gen Unit := fun context =>
  match CodeGenContext.currentBlock context with
  | .error f => .error f
  | .ok (bb, c1) => .ok ((), (moveAfter c1 x bb).pushBlock x)

/-- `NConditional::codeGen` (codegen.cpp:535). -/
def NConditional.codeGen (cxx : Cxx) (condition thenblock elseblock : Gen Value) :
    Gen Value := fun context =>
  match createBlockHere "then" context with
  | .error f => .error f
  | .ok (Then, c1) =>
    match createBlockHere "else" c1 with
    | .error f => .error f
    | .ok (Else, c2) =>
      match createBlockHere "continue" c2 with
      | .error f => .error f
      | .ok (Continue, c3) =>
        match branchOn cxx Then Else condition c3 with
        | .error f => .error f
        | .ok (_, c4) =>
          match thenblock (c4.pushBlock Then) with
          | .error f => .error f
          | .ok (_, c5) =>
            match branchTo Continue c5 with
            | .error f => .error f
            | .ok (_, c6) =>
              match moveAndPush Else c6 with
              | .error f => .error f
              | .ok (_, c7) =>
                match elseblock c7 with
                | .error f => .error f
                | .ok (_, c8) =>
                  match branchTo Continue c8 with
                  | .error f => .error f
                  | .ok (_, c9) =>
                    match moveAndPush Continue c9 with
                    | .error f => .error f
                    | .ok (_, c10) => .ok (.null, c10)

/-- `NLoop::codeGen` (codegen.cpp:558). -/
def NLoop.codeGen (cxx : Cxx) (condition block : Gen Value) : Gen Value := fun context =>
  match createBlockHere "loop" context with
  | .error f => .error f
  | .ok (Loop, c1) =>
    match createBlockHere "continue" c1 with
    | .error f => .error f
    | .ok (Continue, c2) =>
      match branchOn cxx Loop Continue condition c2 with
      | .error f => .error f
      | .ok (_, c3) =>
        match block (c3.pushBlock Loop) with
        | .error f => .error f
        | .ok (_, c4) =>
          match branchOn cxx Loop Continue condition c4 with
          | .error f => .error f
          | .ok (_, c5) =>
            match moveAndPush Continue c5 with
            | .error f => .error f
            | .ok (_, c6) => .ok (.null, c6)

/-! ## Virtual dispatch over the tree -/

mutual
/-- `NExpression::codeGen`: the `codeGen` of the class of the node. -/
def NExpression.codeGen (cxx : Cxx) : NExpression → Gen Value
  | .NInteger value => NInteger.codeGen value
  | .NDouble bits => NDouble.codeGen bits
  | .NString value => NString.codeGen value
  | .NBool value => NBool.codeGen value
  | .NIdentifier name => NIdentifier.codeGen name
  | .NMethodCall id arguments => NMethodCall.codeGen id (ExpressionList.codeGen cxx arguments)
  | .NArray items => NArray.codeGen (ExpressionList.codeGen cxx items)
  | .NArrayRead arr index => NArrayRead.codeGen arr (NExpression.codeGen cxx index)
  | .NArrayWrite arr index op assignment =>
    NArrayWrite.codeGen cxx arr (NExpression.codeGen cxx index) op
      (NExpression.codeGen cxx assignment)
  | .NBinaryOperator lhs op rhs =>
    NBinaryOperator.codeGen cxx (NExpression.codeGen cxx lhs) op (NExpression.codeGen cxx rhs)
  | .NUnaryOperator op expr => NUnaryOperator.codeGen cxx op (NExpression.codeGen cxx expr)
  | .NAssignment lhs op rhs => NAssignment.codeGen cxx lhs op (NExpression.codeGen cxx rhs)
  | .NBlock statements => StatementList.codeGen cxx .null statements
/-- The loops `for (it = …) args.push_back((**it).codeGen(context))` of
`NMethodCall::codeGen` and `NArray::codeGen`. -/
def ExpressionList.codeGen (cxx : Cxx) : ExpressionList → Gen (List Value)
  | .nil => fun context => .ok ([], context)
  | .cons head tail => fun context =>
    match NExpression.codeGen cxx head context with
    | .error f => .error f
    | .ok (v, c1) =>
      match ExpressionList.codeGen cxx tail c1 with
      | .error f => .error f
      | .ok (vs, c2) => .ok (v :: vs, c2)
/-- `NStatement::codeGen`: the `codeGen` of the class of the node. -/
def NStatement.codeGen (cxx : Cxx) : NStatement → Gen Value
  | .NExpressionStatement expression => NExpression.codeGen cxx expression
  | .NReturnStatement expression => NReturnStatement.codeGen (NExpression.codeGen cxx expression)
  | .NVariableDeclaration type id assignmentExpr =>
    NVariableDeclaration.codeGen cxx type id (OptExpression.codeGen cxx assignmentExpr)
  | .NArrayDeclaration type id assignmentExpr =>
    NArrayDeclaration.codeGen cxx type id (OptExpression.codeGen cxx assignmentExpr)
  | .NExternDeclaration type id arguments =>
    NExternDeclaration.codeGen type id arguments.typeNames
  | .NFunctionDeclaration type id arguments block =>
    NFunctionDeclaration.codeGen type id arguments.typeNames
      (fun function bblock => VariableList.codeGen cxx function bblock 0 arguments)
      (StatementList.codeGen cxx .null block)
  | .NConditional condition thenblock elseblock =>
    NConditional.codeGen cxx (NExpression.codeGen cxx condition)
      (StatementList.codeGen cxx .null thenblock) (StatementList.codeGen cxx .null elseblock)
  | .NLoop condition block =>
    NLoop.codeGen cxx (NExpression.codeGen cxx condition) (StatementList.codeGen cxx .null block)
/-- `NBlock::codeGen` (codegen.cpp:404) from some statement on; `last` is the
value of the statement before it (`NULL` at the start). -/
def StatementList.codeGen (cxx : Cxx) (last : Value) : StatementList → Gen Value
  | .nil => fun context => .ok (last, context)
  | .cons head tail => fun context =>
    match NStatement.codeGen cxx head context with
    | .error f => .error f
    | .ok (v, c1) => StatementList.codeGen cxx v tail c1
/-- The parameter loop of `NFunctionDeclaration::codeGen` from parameter `i` on:
lower the declaration of the parameter, then store the argument into its slot. -/
def VariableList.codeGen (cxx : Cxx) (function : Function) (bblock : BasicBlock) (i : Nat) :
    VariableList → Gen Unit
  | .nil => fun context => .ok ((), context)
  | .cons type id assignmentExpr tail => fun context =>
    match NVariableDeclaration.codeGen cxx type id (OptExpression.codeGen cxx assignmentExpr)
        context with
    | .error f => .error f
    | .ok (_, c1) =>
      match storeArgument function bblock i id c1 with
      | .error f => .error f
      | .ok (_, c2) => VariableList.codeGen cxx function bblock (i + 1) tail c2
/-- The lowering of `*assignmentExpr`, when the pointer is not `NULL`. -/
def OptExpression.codeGen (cxx : Cxx) : OptExpression → Option (Gen Value)
  | .null => none
  | .ptr e => some (NExpression.codeGen cxx e)
end

/-- `CodeGenContext::generateCode` (codegen.cpp:33) up to the `popBlock()`; the
pass manager and the output file that follow are not part of the lowering. -/
def CodeGenContext.generateCode (cxx : Cxx) (root : StatementList) : Gen Unit := fun context =>
  let main := context.createFunction .void [] .ExternalLinkage "main"
  let c1 : CodeGenContext := { main.2 with mainFunction := some main.1 }
  let bblock := c1.createBlock "entry" main.1
  match StatementList.codeGen cxx .null root (bblock.2.pushBlock bblock.1) with
  | .error f => .error f
  | .ok (_, c2) =>
    match CodeGenContext.currentBlock c2 with
    | .error f => .error f
    | .ok (bb, c3) => CodeGenContext.popBlock (c3.emit bb (.ret .null)).2

/-- The context a fresh `CodeGenContext` starts from: an empty module and stack. -/
def CodeGenContext.initial : CodeGenContext :=
  { blocks := [], module := ⟨[], [], [], []⟩, mainFunction := none, cerr := [], fresh := 0 }

/-! ## Reference definitions and sample inputs -/

/-- The type names the type mapper recognises. -/
def typeNames : List String := ["void", "int", "double", "string", "bool"]

/-- The lookup as a scan that changes nothing: walk the stack from the top
down; the first scope whose symbol table holds the name wins. -/
def lookupScan (blocks : List CodeGenBlock) (name : String) : Option CodeGenBlock :=
  blocks.find? (fun s => s.locals.contains name)

/-- A compiler that evaluates call arguments first to last and leaves a tag
that is no compound-assignment tag in the uninitialised `op`. -/
def firstToLast : Cxx := ⟨false, fun _ => .other⟩

/-- A compiler that evaluates call arguments last to first and leaves a tag
that is no compound-assignment tag in the uninitialised `op`. -/
def lastToFirst : Cxx := ⟨true, fun _ => .other⟩

/-- The function `main` that `generateCode` creates in an empty module. -/
def sampleMain : Function := ⟨0, "main", .void, [], .ExternalLinkage⟩

/-- The entry block of `sampleMain`. -/
def sampleEntry : BasicBlock := ⟨1, "entry", sampleMain⟩

/-- The context in which `generateCode` lowers the top-level block of a program
when no function has been registered before: one empty scope on `entry`. -/
def sampleContext : CodeGenContext :=
  { blocks := [⟨sampleEntry, .null, [], []⟩]
    module := ⟨[sampleMain], [sampleEntry], [], []⟩
    mainFunction := some sampleMain
    cerr := []
    fresh := 2 }

mutual
/-- No `NBlock` node occurs in the expression. -/
def NExpression.blockFree : NExpression → Bool
  | .NInteger _ => true
  | .NDouble _ => true
  | .NString _ => true
  | .NBool _ => true
  | .NIdentifier _ => true
  | .NMethodCall _ arguments => arguments.blockFree
  | .NArray items => items.blockFree
  | .NArrayRead _ index => index.blockFree
  | .NArrayWrite _ index _ assignment => index.blockFree && assignment.blockFree
  | .NBinaryOperator lhs _ rhs => lhs.blockFree && rhs.blockFree
  | .NUnaryOperator _ expr => expr.blockFree
  | .NAssignment _ _ rhs => rhs.blockFree
  | .NBlock _ => false
/-- No `NBlock` node occurs in the expressions of the list. -/
def ExpressionList.blockFree : ExpressionList → Bool
  | .nil => true
  | .cons head tail => head.blockFree && tail.blockFree
end

/-- No `NBlock` node occurs in the initializer, if there is one. -/
def OptExpression.blockFree : OptExpression → Bool
  | .null => true
  | .ptr e => e.blockFree

/-- What a scope holds apart from the recorded types: its block, its return
slot and its table of storage handles. -/
def CodeGenBlock.key (s : CodeGenBlock) : BasicBlock × Value × StdMap Value :=
  (s.block, s.returnValue, s.locals)

/-- Two stacks have the same scopes up to the recorded types. -/
def sameLocals (bs bs' : List CodeGenBlock) : Prop :=
  bs.map CodeGenBlock.key = bs'.map CodeGenBlock.key

/-- On contexts whose stack satisfies `P`, a successful run of `g` leaves the
scopes the same up to the recorded types. -/
def FrameOn {α : Type} (P : List CodeGenBlock → Prop) (g : Gen α) : Prop :=
  ∀ c v c', P c.blocks → g c = .ok (v, c') → sameLocals c.blocks c'.blocks

/-- A property of stacks that does not depend on the recorded types. -/
def Stable (P : List CodeGenBlock → Prop) : Prop :=
  ∀ bs bs', sameLocals bs bs' → P bs → P bs'

/-- The scope a pointer refers to holds a handle for the name. -/
def Declares (p : ScopeRef) (name : String) (bs : List CodeGenBlock) : Prop :=
  ∃ s, scopeAt bs p = some s ∧ s.locals.contains name = true

/-- The context right after the declaration part of `NVariableDeclaration::codeGen`
or `NArrayDeclaration::codeGen` has run on a stack `top :: rest`: the type is
recorded, the slot allocated in the block of `top`, the slot recorded. -/
def registered (slotTy : IRType → IRType) (type id : String) (context : CodeGenContext)
    (top : CodeGenBlock) (rest : List CodeGenBlock) : CodeGenContext :=
  { context with
    blocks :=
      { top with
        ltypes := top.ltypes.set id (typeOf type).1
        locals := top.locals.set id (.inst context.fresh (.ptr (slotTy (typeOf type).1))) } :: rest
    module := { context.module with
                insts := context.module.insts ++
                  [⟨context.fresh, .alloca (slotTy (typeOf type).1) id, top.block⟩] }
    cerr := context.cerr ++ (typeOf type).2
    fresh := context.fresh + 1 }

/-- The sample context after `int x = 1;` has been lowered in it. -/
def sampleDeclaredX : CodeGenContext :=
  { blocks := [⟨sampleEntry, .null, [("x", .inst 2 (.ptr .int64))], [("x", .int64)]⟩]
    module := ⟨[sampleMain], [sampleEntry],
      [⟨2, .alloca .int64 "x", sampleEntry⟩,
       ⟨3, .store (.constInt .int64 1) (.inst 2 (.ptr .int64)), sampleEntry⟩], []⟩
    mainFunction := some sampleMain
    cerr := []
    fresh := 4 }

/-- A stack of two scopes: the outer one declares `x` and `y`, the inner one
(the top) declares `x` again. -/
def sampleStack : List CodeGenBlock :=
  [⟨sampleEntry, .null, [("x", .inst 4 (.ptr .int64))], [("x", .int64)]⟩,
   ⟨sampleEntry, .null, [("x", .inst 2 (.ptr .int64)), ("y", .inst 3 (.ptr .int1))],
     [("x", .int64), ("y", .int1)]⟩]

/-- A context on `sampleStack`. -/
def sampleNested : CodeGenContext :=
  { blocks := sampleStack
    module := ⟨[sampleMain], [sampleEntry],
      [⟨2, .alloca .int64 "x", sampleEntry⟩, ⟨3, .alloca .int1 "y", sampleEntry⟩,
       ⟨4, .alloca .int64 "x", sampleEntry⟩], []⟩
    mainFunction := some sampleMain
    cerr := []
    fresh := 5 }

/-! ## Arithmetic: the meaning of expressions and of instructions -/

/-- The value of an integer as a signed 64-bit number (two's complement). -/
def wrap64 (z : Int) : Int := (z + 2 ^ 63) % 2 ^ 64 - 2 ^ 63

/-- The arithmetic operator tags. -/
inductive ArithTag where
  | PLUS
  | MINUS
  | MUL
  | DIV
  deriving DecidableEq, Repr

/-- The tag as the parser passes it. -/
def ArithTag.toToken : ArithTag → Token
  | .PLUS => .PLUS
  | .MINUS => .MINUS
  | .MUL => .MUL
  | .DIV => .DIV

/-- The compound-assignment tag of the operator: `+=`, `-=`, `*=`, `/=`. -/
def ArithTag.toCompound : ArithTag → Token
  | .PLUS => .PLUSASN
  | .MINUS => .MINUSASN
  | .MUL => .MULASN
  | .DIV => .DIVASN

/-- The instruction that stands for the tag: add, sub, mul, signed division. -/
def ArithTag.opcode : ArithTag → BinaryOps
  | .PLUS => .Add
  | .MINUS => .Sub
  | .MUL => .Mul
  | .DIV => .SDiv

/-- The operator applied to two signed 64-bit numbers; the quotient is rounded
toward zero and there is no result for a zero divisor. -/
def ArithTag.apply : ArithTag → Int → Int → Option Int
  | .PLUS, a, b => some (wrap64 (a + b))
  | .MINUS, a, b => some (wrap64 (a - b))
  | .MUL, a, b => some (wrap64 (a * b))
  | .DIV, a, b => if b = 0 then none else some (wrap64 (a.tdiv b))

/-- The expressions built only from integer literals and binary operators with
an arithmetic tag. -/
inductive ArithExpr where
  | lit (value : Int)
  | bin (lhs : ArithExpr) (op : ArithTag) (rhs : ArithExpr)
  deriving DecidableEq, Repr

/-- The syntax tree of such an expression. -/
def ArithExpr.toExpression : ArithExpr → NExpression
  | .lit value => .NInteger value
  | .bin lhs op rhs => .NBinaryOperator lhs.toExpression op.toToken rhs.toExpression

/-- The value of such an expression in signed 64-bit arithmetic; none when a
division by zero occurs in it. -/
def ArithExpr.value : ArithExpr → Option Int
  | .lit value => some (wrap64 value)
  | .bin lhs op rhs =>
    match lhs.value, rhs.value with
    | some a, some b => op.apply a b
    | _, _ => none

/-- The comparison tags. -/
inductive CmpTag where
  | EQ
  | NE
  | LT
  | LE
  | GT
  | GE
  deriving DecidableEq, Repr

/-- The tag as the parser passes it. -/
def CmpTag.toToken : CmpTag → Token
  | .EQ => .CEQ
  | .NE => .CNE
  | .LT => .CLT
  | .LE => .CLE
  | .GT => .CGT
  | .GE => .CGE

/-- The signed compare predicate that matches the tag. -/
def CmpTag.predicate : CmpTag → Predicate
  | .EQ => .ICMP_EQ
  | .NE => .ICMP_NE
  | .LT => .ICMP_SLT
  | .LE => .ICMP_SLE
  | .GT => .ICMP_SGT
  | .GE => .ICMP_SGE

/-- Whether the comparison holds of two numbers. -/
def CmpTag.holds : CmpTag → Int → Int → Bool
  | .EQ, a, b => decide (a = b)
  | .NE, a, b => decide (a ≠ b)
  | .LT, a, b => decide (a < b)
  | .LE, a, b => decide (a ≤ b)
  | .GT, a, b => decide (b < a)
  | .GE, a, b => decide (b ≤ a)

/-- What a binary instruction computes on signed 64-bit operands; `sdiv` has no
result for a zero divisor. -/
def BinaryOps.eval : BinaryOps → Int → Int → Option Int
  | .Add, a, b => some (wrap64 (a + b))
  | .Sub, a, b => some (wrap64 (a - b))
  | .Mul, a, b => some (wrap64 (a * b))
  | .SDiv, a, b => if b = 0 then none else some (wrap64 (a.tdiv b))

/-- What a signed compare decides. -/
def Predicate.eval : Predicate → Int → Int → Bool
  | .ICMP_EQ, a, b => decide (a = b)
  | .ICMP_NE, a, b => decide (a ≠ b)
  | .ICMP_SLT, a, b => decide (a < b)
  | .ICMP_SLE, a, b => decide (a ≤ b)
  | .ICMP_SGT, a, b => decide (b < a)
  | .ICMP_SGE, a, b => decide (b ≤ a)

/-- The values of the instructions executed so far, newest first, by number. -/
abbrev Registers := List (Nat × Int)

/-- The number an operand stands for: a 64-bit constant, or the value of an
executed instruction. -/
def Value.eval (regs : Registers) : Value → Option Int
  | .constInt .int64 v => some (wrap64 v)
  | .inst id _ => regs.lookup id
  | _ => none

/-- Execute one arithmetic or compare instruction. -/
def Instruction.exec (regs : Registers) (i : Instruction) : Option Registers :=
  match i.kind with
  | .binop op l r =>
    match l.eval regs, r.eval regs with
    | some a, some b => (op.eval a b).map (fun z => (i.id, z) :: regs)
    | _, _ => none
  | .icmp pred l r =>
    match l.eval regs, r.eval regs with
    | some a, some b => some ((i.id, if pred.eval a b then 1 else 0) :: regs)
    | _, _ => none
  | _ => none

/-- Execute a sequence of such instructions, first to last. -/
def execInsts (regs : Registers) : List Instruction → Option Registers
  | [] => some regs
  | i :: rest =>
    match i.exec regs with
    | some regs' => execInsts regs' rest
    | none => none

/-- Run on `context`, whose top scope is `top`, the generator `g` returns a
value after appending to the block of `top` instructions that compute `n` as
that value, numbered from the counter on, and changes neither the stack nor
the error stream. -/
def ComputesAt (g : Gen Value) (n : Int) (context : CodeGenContext) (top : CodeGenBlock) :
    Prop :=
  ∃ v c' new, g context = .ok (v, c') ∧ c'.blocks = context.blocks ∧
    c'.cerr = context.cerr ∧ c'.module.insts = context.module.insts ++ new ∧
    context.fresh ≤ c'.fresh ∧ (∀ i ∈ new, i.parent = top.block) ∧
    ∀ regs : Registers, ∃ added : Registers, execInsts regs new = some (added ++ regs) ∧
      (∀ p ∈ added, context.fresh ≤ p.1 ∧ p.1 < c'.fresh) ∧
      ∀ later : Registers, (∀ p ∈ later, c'.fresh ≤ p.1) →
        v.eval (later ++ (added ++ regs)) = some n

/-- `ComputesAt` on every context with a scope on the stack. -/
def Computes (g : Gen Value) (n : Int) : Prop :=
  ∀ (context : CodeGenContext) (top : CodeGenBlock) (rest : List CodeGenBlock),
    context.blocks = top :: rest → ComputesAt g n context top

/-- The tree of `2 + 3 * 4`. -/
def sampleSum : ArithExpr := .bin (.lit 2) .PLUS (.bin (.lit 3) .MUL (.lit 4))

/-- An extern function `int f()`. -/
def sampleF : Function := ⟨2, "f", .int64, [], .ExternalLinkage⟩

/-- An extern function `int g()`. -/
def sampleG : Function := ⟨3, "g", .int64, [], .ExternalLinkage⟩

/-- The context after `extern int f(); extern int g(); int x;` at top level. -/
def sampleCalls : CodeGenContext :=
  { blocks := [⟨sampleEntry, .null, [("x", .inst 4 (.ptr .int64))], [("x", .int64)]⟩]
    module := ⟨[sampleMain, sampleF, sampleG], [sampleEntry],
      [⟨4, .alloca .int64 "x", sampleEntry⟩], []⟩
    mainFunction := some sampleMain
    cerr := []
    fresh := 5 }

/-- A compiler that evaluates call arguments first to last and leaves the tag
`PLUSASN` in the uninitialised `op`. -/
def leavesPlusAsn : Cxx := ⟨false, fun _ => .PLUSASN⟩

/-- The tree of `int h() { if (1 == 1) { return 7; } else { return 9; } }`. -/
def sampleBranchFunction : NStatement :=
  .NFunctionDeclaration "int" "h" .nil
    (.cons
      (.NConditional (.NBinaryOperator (.NInteger 1) .CEQ (.NInteger 1))
        (.cons (.NReturnStatement (.NInteger 7)) .nil)
        (.cons (.NReturnStatement (.NInteger 9)) .nil))
      .nil)

/-- The function `h` that lowering `sampleBranchFunction` in the sample context
creates. -/
def sampleH : Function := ⟨2, "h", .int64, [], .InternalLinkage⟩

/-- The entry block of `sampleH`. -/
def sampleHEntry : BasicBlock := ⟨3, "entry", sampleH⟩

/-- The `then` block of the conditional in `sampleH`. -/
def sampleHThen : BasicBlock := ⟨4, "then", sampleH⟩

/-- The `else` block of the conditional in `sampleH`. -/
def sampleHElse : BasicBlock := ⟨5, "else", sampleH⟩

/-- The `continue` block of the conditional in `sampleH`. -/
def sampleHContinue : BasicBlock := ⟨6, "continue", sampleH⟩

/-- Whether an instruction is a terminator: a branch or a return. -/
def InstKind.isTerminator : InstKind → Bool
  | .br _ => true
  | .condBr _ _ _ => true
  | .ret _ => true
  | _ => false

/-- The unescaping of the contents of a string literal as the spec words it,
on the bytes of the contents: scanning left to right, every backslash (92)
directly followed by `n` (110) becomes one newline (10) and every other byte is
copied as it is. -/
def unescape : List Nat → List Nat
  | [] => []
  | [c] => [c]
  | c :: d :: rest =>
    if c = 92 ∧ d = 110 then 10 :: unescape rest
    else c :: unescape (d :: rest)

/-- The bytes of the global that holds a string: the bytes of the string, each
as a number of 8 bits, then one NUL byte. -/
def stringBytes (chars : List Nat) : List Nat :=
  chars.map (fun ch => ch % 256) ++ [0]

/-- The condition `x < 3`. -/
def sampleCondition : NExpression :=
  .NBinaryOperator (.NIdentifier "x") .CLT (.NInteger 3)

/-- The body `{ x = x + 1; }`, the assignment carrying a tag that is no compound
tag. -/
def sampleBody : StatementList :=
  .cons (.NExpressionStatement
    (.NAssignment "x" .other (.NBinaryOperator (.NIdentifier "x") .PLUS (.NInteger 1)))) .nil

/-- The `loop` block that lowering a loop in `sampleDeclaredX` creates. -/
def sampleLoop : BasicBlock := ⟨4, "loop", sampleMain⟩

/-- The `continue` block that lowering a loop in `sampleDeclaredX` creates. -/
def sampleLoopContinue : BasicBlock := ⟨5, "continue", sampleMain⟩

/-- The context an outcome ends in; the initial context stands in for a fault. -/
def contextOf {α : Type} (r : Except Fault (α × CodeGenContext)) : CodeGenContext :=
  match r with
  | .ok (_, c) => c
  | .error _ => CodeGenContext.initial

/-- The value of an outcome; null stands in for a fault. -/
def valueOf (r : Except Fault (Value × CodeGenContext)) : Value :=
  match r with
  | .ok (v, _) => v
  | .error _ => .null

/-- The outcome of lowering `sampleCondition` for the first time, after the two
blocks of the loop have been created in `sampleDeclaredX`. -/
def sampleLoopFirst : Except Fault (Value × CodeGenContext) :=
  NExpression.codeGen firstToLast sampleCondition
    ((sampleDeclaredX.createBlock "loop" sampleMain).2.createBlock "continue" sampleMain).2

/-- The outcome of lowering `sampleBody` in its scope on `loop`. -/
def sampleLoopBody : Except Fault (Value × CodeGenContext) :=
  StatementList.codeGen firstToLast .null sampleBody
    (((contextOf sampleLoopFirst).emit sampleEntry
      (.condBr sampleLoop sampleLoopContinue (valueOf sampleLoopFirst))).2.pushBlock sampleLoop)

/-- The outcome of lowering `sampleCondition` for the second time. -/
def sampleLoopSecond : Except Fault (Value × CodeGenContext) :=
  NExpression.codeGen firstToLast sampleCondition (contextOf sampleLoopBody)

/-- The `then` block that lowering a conditional in `sampleDeclaredX` creates. -/
def sampleThen : BasicBlock := ⟨4, "then", sampleMain⟩

/-- The `else` block that lowering a conditional in `sampleDeclaredX` creates. -/
def sampleElse : BasicBlock := ⟨5, "else", sampleMain⟩

/-- The `continue` block that lowering a conditional in `sampleDeclaredX`
creates. -/
def sampleContinue : BasicBlock := ⟨6, "continue", sampleMain⟩

/-- The outcome of lowering `sampleCondition` after the three blocks of the
conditional have been created in `sampleDeclaredX`. -/
def sampleIfCondition : Except Fault (Value × CodeGenContext) :=
  NExpression.codeGen firstToLast sampleCondition
    (((sampleDeclaredX.createBlock "then" sampleMain).2.createBlock "else"
      sampleMain).2.createBlock "continue" sampleMain).2

/-- The outcome of lowering `sampleBody` as the then-branch, in its scope on
`then`. -/
def sampleIfThen : Except Fault (Value × CodeGenContext) :=
  StatementList.codeGen firstToLast .null sampleBody
    (((contextOf sampleIfCondition).emit sampleEntry
      (.condBr sampleThen sampleElse (valueOf sampleIfCondition))).2.pushBlock sampleThen)

/-- The outcome of lowering an empty else-branch, in its scope on `else`. -/
def sampleIfElse : Except Fault (Value × CodeGenContext) :=
  StatementList.codeGen firstToLast .null .nil
    ((moveAfter ((contextOf sampleIfThen).emit sampleThen (.br sampleContinue)).2
      sampleElse sampleThen).pushBlock sampleElse)

/-! ## What a run of the lowering leaves of the state it started in -/

/-- Scope `s'` is scope `s` later on: on the same block, and every name `s`
holds a handle for is still held, with the same handle. -/
def ScopeGrows (s s' : CodeGenBlock) : Prop :=
  s'.block = s.block ∧ ∀ n v, s.locals.find n = some v → s'.locals.find n = some v

/-- The instruction stream, the error stream and the function table have only
been appended to, and the object counter has not gone back. -/
def Mono (c c' : CodeGenContext) : Prop :=
  (∃ new, c'.module.insts = c.module.insts ++ new) ∧
  (∃ ds, c'.cerr = c.cerr ++ ds) ∧
  (∃ fs, c'.module.functions = c.module.functions ++ fs) ∧
  c.fresh ≤ c'.fresh

/-- Context `c'` extends `c` by at most `k` scopes: the stack is deeper by some
`j ≤ k`, with `j = k` when nothing was reported in between; every scope of `c`
is still at its place, grown; and the streams have only been appended to. -/
def Extends (k : Nat) (c c' : CodeGenContext) : Prop :=
  (∃ j, c'.blocks.length = c.blocks.length + j ∧ j ≤ k ∧ (c'.cerr = c.cerr → j = k)) ∧
  (∀ p s, scopeAt c.blocks p = some s → ∃ s', scopeAt c'.blocks p = some s' ∧ ScopeGrows s s') ∧
  Mono c c'

/-- Every run of `g` that returns extends the context it started in by at most
`k` scopes. -/
def Tracks {α : Type} (k : Nat) (g : Gen α) : Prop :=
  ∀ c v c', g c = .ok (v, c') → Extends k c c'

mutual
/-- The number of scopes the lowering of an expression pushes when it reports
nothing: three for each conditional and two for each loop it lowers. Operands
of an operator with an unrecognised tag are not lowered, and the condition of a
loop is lowered twice. -/
def NExpression.pushes : NExpression → Nat
  | .NInteger _ => 0
  | .NDouble _ => 0
  | .NString _ => 0
  | .NBool _ => 0
  | .NIdentifier _ => 0
  | .NMethodCall _ arguments => arguments.pushes
  | .NArray items => items.pushes
  | .NArrayRead _ index => index.pushes
  | .NArrayWrite _ index _ assignment => index.pushes + assignment.pushes
  | .NBinaryOperator lhs op rhs =>
    if (arithOf op).isSome || (predOf op).isSome then lhs.pushes + rhs.pushes else 0
  | .NUnaryOperator op expr => if op = .MINUS ∨ op = .NOT then expr.pushes else 0
  | .NAssignment _ _ rhs => rhs.pushes
  | .NBlock statements => statements.pushes
/-- The pushes of the expressions of a list. -/
def ExpressionList.pushes : ExpressionList → Nat
  | .nil => 0
  | .cons head tail => head.pushes + tail.pushes
/-- The pushes of a statement. -/
def NStatement.pushes : NStatement → Nat
  | .NExpressionStatement expression => expression.pushes
  | .NReturnStatement expression => expression.pushes
  | .NVariableDeclaration _ _ assignmentExpr => assignmentExpr.pushes
  | .NArrayDeclaration _ _ assignmentExpr => assignmentExpr.pushes
  | .NExternDeclaration _ _ _ => 0
  | .NFunctionDeclaration _ _ arguments block => arguments.pushes + block.pushes
  | .NConditional condition thenblock elseblock =>
    3 + condition.pushes + thenblock.pushes + elseblock.pushes
  | .NLoop condition block => 2 + 2 * condition.pushes + block.pushes
/-- The pushes of the statements of a list. -/
def StatementList.pushes : StatementList → Nat
  | .nil => 0
  | .cons head tail => head.pushes + tail.pushes
/-- The pushes of the initializers of a parameter list. -/
def VariableList.pushes : VariableList → Nat
  | .nil => 0
  | .cons _ _ assignmentExpr tail => assignmentExpr.pushes + tail.pushes
/-- The pushes of an initializer, if there is one. -/
def OptExpression.pushes : OptExpression → Nat
  | .null => 0
  | .ptr e => e.pushes
end

/-- The tree of the program `if (1 == 1) { } else { }`. -/
def sampleTopLevelIf : StatementList :=
  .cons (.NConditional (.NBinaryOperator (.NInteger 1) .CEQ (.NInteger 1)) .nil .nil) .nil

/-- The tree of the program `if (1 == 1) { int z; } else { }`. -/
def sampleNestedDeclaration : StatementList :=
  .cons (.NConditional (.NBinaryOperator (.NInteger 1) .CEQ (.NInteger 1))
    (.cons (.NVariableDeclaration "int" "z" .null) .nil) .nil) .nil

/-- In context `c`, the scope at position `p` of the stack is on block `block`
and holds for `id` the handle of instruction `k`, and instruction `k` is the
allocation of a slot of type `ty` named `id` located in `block`. -/
def Allocated (c : CodeGenContext) (p : ScopeRef) (block : BasicBlock) (id : String) (k : Nat)
    (ty : IRType) : Prop :=
  (⟨k, .alloca ty id, block⟩ : Instruction) ∈ c.module.insts ∧
  ∃ s, scopeAt c.blocks p = some s ∧ s.block = block ∧
    s.locals.find id = some (.inst k (.ptr ty))

/-! ## Memory: what the instructions on arrays do when they run -/

/-- The tree of an array literal whose items are integer literals. -/
def literals : List Int → ExpressionList
  | [] => .nil
  | x :: rest => .cons (.NInteger x) (literals rest)

/-- The tree of `int[] a = [items]; a[k] op e; return a[k];`. -/
def arrayProgram (a : String) (items : List Int) (k : Nat) (op : Token) (e : Int) :
    StatementList :=
  .cons (.NArrayDeclaration "int" a (.ptr (.NArray (literals items))))
    (.cons (.NExpressionStatement (.NArrayWrite a (.NInteger k) op (.NInteger e)))
      (.cons (.NReturnStatement (.NArrayRead a (.NInteger k))) .nil))

/-- The instructions of the second loop of `NArray::codeGen` for integer items,
from index `i` on: for each item the address of element `i` of `alloc`, then
the store of the item through it. They are numbered from `fresh` on. -/
def itemStores (block : BasicBlock) (alloc : Value) : Nat → Nat → List Int → List Instruction
  | _, _, [] => []
  | fresh, i, x :: rest =>
    ⟨fresh, .gep .int64 alloc [.constInt .int64 i], block⟩ ::
    ⟨fresh + 1, .store (.constInt .int64 x) (.inst fresh (.ptr .int64)), block⟩ ::
    itemStores block alloc (fresh + 2) (i + 1) rest

/-- What a register or a memory cell of 8 bytes holds: a signed 64-bit number,
or the address of the cell at offset `offset` (counted in cells) of the
allocation made by instruction `alloc`. -/
inductive Word where
  | int (n : Int)
  | addr (alloc : Nat) (offset : Int)
  deriving DecidableEq, Repr

/-- The values of the instructions executed so far, newest first, and the
cells written so far, newest first. -/
structure Machine where
  regs : List (Nat × Word)
  memory : List ((Nat × Int) × Word)
  deriving DecidableEq, Repr

/-- The size of a type in cells of 8 bytes, for the types made of such cells. -/
def IRType.stride : IRType → Option Int
  | .int64 => some 1
  | .double => some 1
  | .ptr _ => some 1
  | .array elem n => elem.stride.map (fun s => s * n)
  | _ => none

/-- What an operand stands for: a 64-bit constant, or the value of an executed
instruction. -/
def Machine.operand (m : Machine) : Value → Option Word
  | .constInt .int64 v => some (.int (wrap64 v))
  | .inst id _ => m.regs.lookup id
  | _ => none

/-- Execute one instruction. An allocation yields the address of its first
cell; an element address is the pointer moved by the index times the size of
the element type; a store writes a cell and a load reads the last value
written to it; the arithmetic is that of `BinaryOps.eval`. -/
def Machine.step (m : Machine) (i : Instruction) : Option Machine :=
  match i.kind with
  | .alloca _ _ => some { m with regs := (i.id, .addr i.id 0) :: m.regs }
  | .gep ty ptr [idx] =>
    match m.operand ptr, m.operand idx, ty.stride with
    | some (.addr a o), some (.int n), some s =>
      some { m with regs := (i.id, .addr a (o + n * s)) :: m.regs }
    | _, _, _ => none
  | .store val ptr =>
    match m.operand val, m.operand ptr with
    | some w, some (.addr a o) => some { m with memory := ((a, o), w) :: m.memory }
    | _, _ => none
  | .load _ ptr _ =>
    match m.operand ptr with
    | some (.addr a o) =>
      (m.memory.lookup (a, o)).map (fun w => { m with regs := (i.id, w) :: m.regs })
    | _ => none
  | .binop op l r =>
    match m.operand l, m.operand r with
    | some (.int a), some (.int b) =>
      (op.eval a b).map (fun z => { m with regs := (i.id, .int z) :: m.regs })
    | _, _ => none
  | _ => none

/-- Execute a sequence of instructions, first to last. -/
def Machine.run (m : Machine) : List Instruction → Option Machine
  | [] => some m
  | i :: rest =>
    match m.step i with
    | some m' => m'.run rest
    | none => none

/-- The instructions of `a[k] op= e; a[k]` as `NArrayWrite::codeGen` (label
`math`) and `NArrayRead::codeGen` create them for an array of 64-bit integers
whose slot is `slot`, numbered from `g` on: the write loads the array pointer
from the slot, takes the address of element `k`, loads the element, combines
it with `e` by `instr` and stores the result through the same address; the
read loads the pointer and takes the address again, and loads the element. -/
def writeThenRead (block : BasicBlock) (slot : Value) (a : String) (g k : Nat)
    (instr : BinaryOps) (e : Int) : List Instruction :=
  [⟨g, .load (.ptr .int64) slot a, block⟩,
   ⟨g + 1, .gep .int64 (.inst g (.ptr .int64)) [.constInt .int64 k], block⟩,
   ⟨g + 2, .load .int64 (.inst (g + 1) (.ptr .int64)) "", block⟩,
   ⟨g + 3, .binop instr (.inst (g + 2) .int64) (.constInt .int64 e), block⟩,
   ⟨g + 4, .store (.inst (g + 3) .int64) (.inst (g + 1) (.ptr .int64)), block⟩,
   ⟨g + 5, .load (.ptr .int64) slot a, block⟩,
   ⟨g + 6, .gep .int64 (.inst (g + 5) (.ptr .int64)) [.constInt .int64 k], block⟩,
   ⟨g + 7, .load .int64 (.inst (g + 6) (.ptr .int64)) "", block⟩]

/-! ## Parameter lists and counts of nodes -/

/-- The tree of a parameter list without default values, from the type name
and the name of each parameter. -/
def parameters : List (String × String) → VariableList
  | [] => .nil
  | (type, id) :: rest => .cons type id .null (parameters rest)

/-- For each parameter of such a list, from parameter `i` on: the allocation of
its slot in block `current`, then the store of argument `i` of `function` into
that slot in block `bblock`. They are numbered from `fresh` on. -/
def parameterInsts (function : Function) (bblock current : BasicBlock) :
    Nat → Nat → List (String × String) → List Instruction
  | _, _, [] => []
  | fresh, i, (type, id) :: rest =>
    ⟨fresh, .alloca (typeOf type).1 id, current⟩ ::
    ⟨fresh + 1, .store (.argument function.id i (function.argTys.getD i .null))
      (.inst fresh (.ptr (typeOf type).1)), bblock⟩ ::
    parameterInsts function bblock current (fresh + 2) (i + 1) rest

/-- The tree of `int f(int a, int a) { }`. -/
def sampleTwiceA : NStatement :=
  .NFunctionDeclaration "int" "f" (.cons "int" "a" .null (.cons "int" "a" .null .nil)) .nil

/-- The function `f` that lowering `int f(int a, int b) { … }` in the sample
context creates. -/
def sampleTwoParameters : Function := ⟨2, "f", .int64, [.int64, .int64], .InternalLinkage⟩

/-- The context in which `NFunctionDeclaration::codeGen` lowers the parameters
of `int f(int a, int b) { … }` declared in the sample context: the function
and its entry block are created, and the scope on that block is pushed. -/
def sampleInsideF : CodeGenContext :=
  ((sampleContext.createFunction .int64 [.int64, .int64] .InternalLinkage "f").2.createBlock
    "entry" sampleTwoParameters).2.pushBlock ⟨3, "entry", sampleTwoParameters⟩

mutual
/-- The If and Loop nodes anywhere in the expression, counted `perIf` for each
If and `perLoop` for each Loop. -/
def NExpression.count (perIf perLoop : Nat) : NExpression → Nat
  | .NInteger _ => 0
  | .NDouble _ => 0
  | .NString _ => 0
  | .NBool _ => 0
  | .NIdentifier _ => 0
  | .NMethodCall _ arguments => arguments.count perIf perLoop
  | .NArray items => items.count perIf perLoop
  | .NArrayRead _ index => index.count perIf perLoop
  | .NArrayWrite _ index _ assignment =>
    index.count perIf perLoop + assignment.count perIf perLoop
  | .NBinaryOperator lhs _ rhs => lhs.count perIf perLoop + rhs.count perIf perLoop
  | .NUnaryOperator _ expr => expr.count perIf perLoop
  | .NAssignment _ _ rhs => rhs.count perIf perLoop
  | .NBlock statements => statements.count perIf perLoop
/-- The If and Loop nodes in the expressions of a list. -/
def ExpressionList.count (perIf perLoop : Nat) : ExpressionList → Nat
  | .nil => 0
  | .cons head tail => head.count perIf perLoop + tail.count perIf perLoop
/-- The If and Loop nodes anywhere in the statement, itself included. -/
def NStatement.count (perIf perLoop : Nat) : NStatement → Nat
  | .NExpressionStatement expression => expression.count perIf perLoop
  | .NReturnStatement expression => expression.count perIf perLoop
  | .NVariableDeclaration _ _ assignmentExpr => assignmentExpr.count perIf perLoop
  | .NArrayDeclaration _ _ assignmentExpr => assignmentExpr.count perIf perLoop
  | .NExternDeclaration _ _ arguments => arguments.count perIf perLoop
  | .NFunctionDeclaration _ _ arguments block =>
    arguments.count perIf perLoop + block.count perIf perLoop
  | .NConditional condition thenblock elseblock =>
    perIf + condition.count perIf perLoop + thenblock.count perIf perLoop +
      elseblock.count perIf perLoop
  | .NLoop condition block =>
    perLoop + condition.count perIf perLoop + block.count perIf perLoop
/-- The If and Loop nodes in the statements of a list. -/
def StatementList.count (perIf perLoop : Nat) : StatementList → Nat
  | .nil => 0
  | .cons head tail => head.count perIf perLoop + tail.count perIf perLoop
/-- The If and Loop nodes in the initializers of a parameter list. -/
def VariableList.count (perIf perLoop : Nat) : VariableList → Nat
  | .nil => 0
  | .cons _ _ assignmentExpr tail =>
    assignmentExpr.count perIf perLoop + tail.count perIf perLoop
/-- The If and Loop nodes in an initializer, if there is one. -/
def OptExpression.count (perIf perLoop : Nat) : OptExpression → Nat
  | .null => 0
  | .ptr e => e.count perIf perLoop
end

/-- The number of If nodes contained anywhere in the statement. -/
def NStatement.conditionals (s : NStatement) : Nat := s.count 1 0

/-- The number of Loop nodes contained anywhere in the statement. -/
def NStatement.loops (s : NStatement) : Nat := s.count 0 1

mutual
/-- No expression of the statement contains an `NBlock` node: blocks occur only
as the bodies of functions, conditionals and loops. -/
def NStatement.plain : NStatement → Bool
  | .NExpressionStatement expression => expression.blockFree
  | .NReturnStatement expression => expression.blockFree
  | .NVariableDeclaration _ _ assignmentExpr => assignmentExpr.blockFree
  | .NArrayDeclaration _ _ assignmentExpr => assignmentExpr.blockFree
  | .NExternDeclaration _ _ arguments => arguments.plain
  | .NFunctionDeclaration _ _ arguments block => arguments.plain && block.plain
  | .NConditional condition thenblock elseblock =>
    condition.blockFree && thenblock.plain && elseblock.plain
  | .NLoop condition block => condition.blockFree && block.plain
/-- No expression of the statements of the list contains an `NBlock` node. -/
def StatementList.plain : StatementList → Bool
  | .nil => true
  | .cons head tail => head.plain && tail.plain
/-- No initializer of the parameter list contains an `NBlock` node. -/
def VariableList.plain : VariableList → Bool
  | .nil => true
  | .cons _ _ assignmentExpr tail => assignmentExpr.blockFree && tail.plain
end

/-- The tree of `int h() { if (1 == 1) { int t; } else { } int z; }`. -/
def sampleDeclaredAfterIf : NStatement :=
  .NFunctionDeclaration "int" "h" .nil
    (.cons (.NConditional (.NBinaryOperator (.NInteger 1) .CEQ (.NInteger 1))
        (.cons (.NVariableDeclaration "int" "t" .null) .nil) .nil)
      (.cons (.NVariableDeclaration "int" "z" .null) .nil))

/-- The tree of `if (1 == 1) { int t; } else { }`. -/
def sampleIfDeclaring : NStatement :=
  .NConditional (.NBinaryOperator (.NInteger 1) .CEQ (.NInteger 1))
    (.cons (.NVariableDeclaration "int" "t" .null) .nil) .nil

/-- The block expression `{ if (1 == 1) {} else {}; 1 == 2; }`: a conditional
with empty branches, then the comparison whose value is the value of the
block. -/
def sampleBlockCondition : NExpression :=
  .NBlock (.cons (.NConditional (.NBinaryOperator (.NInteger 1) .CEQ (.NInteger 1)) .nil .nil)
    (.cons (.NExpressionStatement (.NBinaryOperator (.NInteger 1) .CEQ (.NInteger 2))) .nil))

/-- The block expression `{ while (1 == 2) {}; 1 == 2; }`: a loop with an empty
body, then the comparison whose value is the value of the block. -/
def sampleLoopCondition : NExpression :=
  .NBlock (.cons (.NLoop (.NBinaryOperator (.NInteger 1) .CEQ (.NInteger 2)) .nil)
    (.cons (.NExpressionStatement (.NBinaryOperator (.NInteger 1) .CEQ (.NInteger 2))) .nil))

/-- The conditional branches of an instruction stream, in the order they were
appended. -/
def conditionalBranches (insts : List Instruction) : List Instruction :=
  insts.filter (fun i => match i.kind with
    | .condBr _ _ _ => true
    | _ => false)

/-- The tree of `float g(int a, int b = 2) { int t = a; return t; }`. -/
def sampleFloatFunction : NStatement :=
  .NFunctionDeclaration "float" "g"
    (.cons "int" "a" .null (.cons "int" "b" (.ptr (.NInteger 2)) .nil))
    (.cons (.NVariableDeclaration "int" "t" (.ptr (.NIdentifier "a")))
      (.cons (.NReturnStatement (.NIdentifier "t")) .nil))

/-- The tree of `float x = 1 + 2;`. -/
def sampleFloatX : NStatement :=
  .NVariableDeclaration "float" "x" (.ptr (.NBinaryOperator (.NInteger 1) .PLUS (.NInteger 2)))

/-- The tree of `float[] v = [1, 2];`. -/
def sampleFloatArray : NStatement :=
  .NArrayDeclaration "float" "v" (.ptr (.NArray (.cons (.NInteger 1) (.cons (.NInteger 2) .nil))))

/-- The default values of a parameter list (`assignmentExpr` of the parameters
that have one), in order. -/
def VariableList.defaults : VariableList → List NExpression
  | .nil => []
  | .cons _ _ assignmentExpr tail =>
    match assignmentExpr with
    | .null => tail.defaults
    | .ptr e => e :: tail.defaults

/-- The parameter list of `int f(int a = 5, int b) { }`. -/
def sampleDefaultFive : VariableList :=
  .cons "int" "a" (.ptr (.NInteger 5)) (.cons "int" "b" .null .nil)

/-- The outcome of the parameter loop on `sampleDefaultFive` for the function
`f` created in the sample context. -/
def sampleDefaultFiveRun : Except Fault (Unit × CodeGenContext) :=
  VariableList.codeGen firstToLast sampleTwoParameters ⟨3, "entry", sampleTwoParameters⟩ 0
    sampleDefaultFive sampleInsideF

/-- The tree of `int f(int a = { int b; 5; }, int b) { }`: the default value of
`a` is a block expression that declares `b`. -/
def sampleDeclaringDefault : NStatement :=
  .NFunctionDeclaration "int" "f"
    (.cons "int" "a"
      (.ptr (.NBlock (.cons (.NVariableDeclaration "int" "b" .null)
        (.cons (.NExpressionStatement (.NInteger 5)) .nil))))
      (.cons "int" "b" .null .nil)) .nil

/-- The outcome of lowering `sampleBlockCondition` for the first time, after the
two blocks of a loop have been created in the sample context. -/
def sampleBlockLoopFirst : Except Fault (Value × CodeGenContext) :=
  NExpression.codeGen firstToLast sampleBlockCondition
    ((sampleContext.createBlock "loop" sampleMain).2.createBlock "continue" sampleMain).2

/-- The outcome of lowering an empty loop body after it, in its scope on
`loop`; the branch before it is in the `continue` block of the inner
conditional. -/
def sampleBlockLoopBody : Except Fault (Value × CodeGenContext) :=
  StatementList.codeGen firstToLast .null .nil
    (((contextOf sampleBlockLoopFirst).emit ⟨6, "continue", sampleMain⟩
      (.condBr ⟨2, "loop", sampleMain⟩ ⟨3, "continue", sampleMain⟩
        (valueOf sampleBlockLoopFirst))).2.pushBlock ⟨2, "loop", sampleMain⟩)

/-- The outcome of lowering `sampleBlockCondition` for the second time. -/
def sampleBlockLoopSecond : Except Fault (Value × CodeGenContext) :=
  NExpression.codeGen firstToLast sampleBlockCondition (contextOf sampleBlockLoopBody)

/-- The outcome of lowering `sampleBlockCondition` after the three blocks of a
conditional have been created in the sample context. -/
def sampleBlockIfCondition : Except Fault (Value × CodeGenContext) :=
  NExpression.codeGen firstToLast sampleBlockCondition
    (((sampleContext.createBlock "then" sampleMain).2.createBlock "else"
      sampleMain).2.createBlock "continue" sampleMain).2

/-- The outcome of lowering an empty then-branch after it, in its scope on
`then`; the branch before it is in the `continue` block of the inner
conditional. -/
def sampleBlockIfThen : Except Fault (Value × CodeGenContext) :=
  StatementList.codeGen firstToLast .null .nil
    (((contextOf sampleBlockIfCondition).emit ⟨7, "continue", sampleMain⟩
      (.condBr ⟨2, "then", sampleMain⟩ ⟨3, "else", sampleMain⟩
        (valueOf sampleBlockIfCondition))).2.pushBlock ⟨2, "then", sampleMain⟩)

/-- The outcome of lowering an empty else-branch after it, in its scope on
`else`. -/
def sampleBlockIfElse : Except Fault (Value × CodeGenContext) :=
  StatementList.codeGen firstToLast .null .nil
    ((moveAfter ((contextOf sampleBlockIfThen).emit ⟨2, "then", sampleMain⟩
        (.br ⟨4, "continue", sampleMain⟩)).2
      ⟨3, "else", sampleMain⟩ ⟨2, "then", sampleMain⟩).pushBlock ⟨3, "else", sampleMain⟩)

/-! ## Properties -/

/-! ### Symbol tables and the scope stack -/

theorem StdMap.find_set_self {β : Type} (m : StdMap β) (k : String) (v : β) :
    (m.set k v).find k = some v := by
  induction m with
  | nil => simp [StdMap.set, StdMap.find]
  | cons p rest ih =>
    obtain ⟨k', w⟩ := p
    by_cases h : k' = k
    · simp [StdMap.set, StdMap.find, h]
    · simp [StdMap.set, StdMap.find, h, ih]

theorem findLocals_snd (blocks : List CodeGenBlock) (name : String) :
    (findLocals blocks name).2 = blocks := by
  induction blocks with
  | nil => rfl
  | cons b rest ih =>
    unfold findLocals
    split
    · rfl
    · simp [ih]

theorem findLocals_none_iff (blocks : List CodeGenBlock) (name : String) :
    (findLocals blocks name).1 = none ↔ ∀ s ∈ blocks, s.locals.contains name = false := by
  induction blocks with
  | nil => simp [findLocals]
  | cons b rest ih =>
    unfold findLocals
    by_cases h : b.locals.contains name = true
    · simp [h]
    · simp [h, ih]

theorem scopeAt_append (above : List CodeGenBlock) (s : CodeGenBlock)
    (below : List CodeGenBlock) : scopeAt (above ++ s :: below) below.length = some s := by
  induction above with
  | nil => simp [scopeAt]
  | cons a above ih =>
    have hne : (above ++ s :: below).length ≠ below.length := by simp; omega
    show scopeAt (a :: (above ++ s :: below)) below.length = some s
    rw [scopeAt, if_neg hne, ih]

theorem findLocals_some (blocks : List CodeGenBlock) (name : String) (p : ScopeRef)
    (h : (findLocals blocks name).1 = some p) :
    ∃ above s below, blocks = above ++ s :: below ∧ below.length = p ∧
      s.locals.contains name = true ∧ ∀ a ∈ above, a.locals.contains name = false := by
  induction blocks with
  | nil => simp [findLocals] at h
  | cons b rest ih =>
    unfold findLocals at h
    by_cases hb : b.locals.contains name = true
    · simp [hb] at h
      exact ⟨[], b, rest, rfl, h, hb, by simp⟩
    · simp [hb] at h
      obtain ⟨above, s, below, h1, h2, h3, h4⟩ := ih h
      refine ⟨b :: above, s, below, by simp [h1], h2, h3, ?_⟩
      intro a ha
      rcases List.mem_cons.mp ha with rfl | ha
      · simpa using hb
      · exact h4 a ha

theorem findLocals_append (above : List CodeGenBlock) (s : CodeGenBlock)
    (below : List CodeGenBlock) (name : String) (hs : s.locals.contains name = true)
    (ha : ∀ a ∈ above, a.locals.contains name = false) :
    (findLocals (above ++ s :: below) name).1 = some below.length := by
  induction above with
  | nil => simp [findLocals, hs]
  | cons a above ih =>
    have h1 := ha a (by simp)
    have h2 := ih (fun x hx => ha x (by simp [hx]))
    simp [findLocals, h1, h2]

theorem findLocals_scan (blocks : List CodeGenBlock) (name : String) :
    (findLocals blocks name).1.bind (scopeAt blocks) = lookupScan blocks name := by
  induction blocks with
  | nil => simp [findLocals, lookupScan]
  | cons b rest ih =>
    unfold findLocals lookupScan
    by_cases hb : b.locals.contains name = true
    · simp [hb, scopeAt]
    · simp only [hb]
      simp only [Bool.false_eq_true, ↓reduceIte, List.find?, hb]
      cases hr : (findLocals rest name).1 with
      | none =>
        rw [hr] at ih
        simpa [lookupScan] using ih
      | some p =>
        rw [hr] at ih
        obtain ⟨above, s, below, h1, h2, -, -⟩ := findLocals_some rest name p hr
        have hne : rest.length ≠ p := by subst h1; subst h2; simp; omega
        simp only [Option.bind, scopeAt, hne, ↓reduceIte]
        simpa [lookupScan] using ih

theorem typeOf_unknown (name : String) (h : name ∉ typeNames) :
    typeOf name = (.void, [.nonexistentType name]) := by
  simp only [typeNames, List.mem_cons, List.mem_singleton, not_or, List.not_mem_nil,
    or_false] at h
  simp [typeOf, h]

theorem declare_without_initializer (cxx : Cxx) (slotTy : IRType → IRType) (type id : String)
    (top : CodeGenBlock) (rest : List CodeGenBlock) (context : CodeGenContext)
    (hctx : context.blocks = top :: rest) :
    declare cxx slotTy type id none context =
      .ok (.inst context.fresh (.ptr (slotTy (typeOf type).1)),
        { context with
          blocks :=
            { top with
              ltypes := top.ltypes.set id (typeOf type).1
              locals := top.locals.set id
                (.inst context.fresh (.ptr (slotTy (typeOf type).1))) } :: rest
          module := { context.module with
                      insts := context.module.insts ++
                        [⟨context.fresh, .alloca (slotTy (typeOf type).1) id, top.block⟩] }
          cerr := context.cerr ++ (typeOf type).2
          fresh := context.fresh + 1 }) := by
  simp [declare, hctx, topLtypes, StdMap.index, StdMap.find_set_self,
    CodeGenContext.currentBlock, CodeGenContext.emit, InstKind.resultType]

/-! ### The type mapper -/

/-- C1: `typeOf` maps `void`, `int`, `double`, `string`, `bool` to void, the
64-bit integer, the 64-bit float, pointer to 8-bit integer and the 1-bit
integer, without a diagnostic; a name gets no diagnostic exactly when it is one
of these five strings as a whole, so a name differing in case (`Int`), a proper
prefix (`in`) and an extension (`integer`) are all reported. -/
theorem typeOf_recognized_names :
    typeOf "void" = (.void, []) ∧ typeOf "int" = (.int64, []) ∧
    typeOf "double" = (.double, []) ∧ typeOf "string" = (.ptr .int8, []) ∧
    typeOf "bool" = (.int1, []) ∧
    (∀ name : String, (typeOf name).2 = [] ↔ name ∈ typeNames) ∧
    (typeOf "Int").2 = [.nonexistentType "Int"] ∧
    (typeOf "in").2 = [.nonexistentType "in"] ∧
    (typeOf "integer").2 = [.nonexistentType "integer"] := by
  refine ⟨by decide, by decide, by decide, by decide, by decide, ?_,
    by decide, by decide, by decide⟩
  intro name
  constructor
  · intro h
    by_contra hn
    rw [typeOf_unknown name hn] at h
    simp at h
  · intro h
    simp only [typeNames, List.mem_cons, List.mem_singleton, List.not_mem_nil, or_false] at h
    rcases h with rfl | rfl | rfl | rfl | rfl <;> decide

/-! ### Lowering a block-free expression changes no symbol table -/

theorem sameLocals_refl (bs : List CodeGenBlock) : sameLocals bs bs := rfl

theorem sameLocals_trans {a b c : List CodeGenBlock} (h1 : sameLocals a b) (h2 : sameLocals b c) :
    sameLocals a c := Eq.trans h1 h2

theorem sameLocals_cons {s s' : CodeGenBlock} {bs bs' : List CodeGenBlock} :
    sameLocals (s :: bs) (s' :: bs') ↔ s.key = s'.key ∧ sameLocals bs bs' := by
  simp [sameLocals]

theorem sameLocals_length {bs bs' : List CodeGenBlock} (h : sameLocals bs bs') :
    bs.length = bs'.length := by
  have := congrArg List.length h
  simpa using this

theorem sameLocals_findLocals {bs bs' : List CodeGenBlock} (h : sameLocals bs bs') (name : String) :
    (findLocals bs name).1 = (findLocals bs' name).1 := by
  induction bs generalizing bs' with
  | nil =>
    cases bs' with
    | nil => rfl
    | cons s' t' => simp [sameLocals] at h
  | cons s t ih =>
    cases bs' with
    | nil => simp [sameLocals] at h
    | cons s' t' =>
      obtain ⟨hk, ht⟩ := sameLocals_cons.mp h
      have hl : s.locals = s'.locals := by
        simp only [CodeGenBlock.key, Prod.mk.injEq] at hk
        exact hk.2.2
      have hlen := sameLocals_length ht
      simp only [findLocals, hl, hlen, ih ht]
      split <;> rfl

theorem sameLocals_scopeAt {bs bs' : List CodeGenBlock} (h : sameLocals bs bs') (p : ScopeRef)
    (s : CodeGenBlock) (hs : scopeAt bs p = some s) :
    ∃ s', scopeAt bs' p = some s' ∧ s'.key = s.key := by
  induction bs generalizing bs' with
  | nil => simp [scopeAt] at hs
  | cons a t ih =>
    cases bs' with
    | nil => simp [sameLocals] at h
    | cons a' t' =>
      obtain ⟨hk, ht⟩ := sameLocals_cons.mp h
      have hlen := sameLocals_length ht
      by_cases hp : t.length = p
      · simp only [scopeAt, hp, ↓reduceIte, Option.some.injEq] at hs
        subst hs
        exact ⟨a', by simp [scopeAt, ← hlen, hp], hk.symm⟩
      · simp only [scopeAt, hp, ↓reduceIte] at hs
        obtain ⟨s', h1, h2⟩ := ih ht hs
        exact ⟨s', by simp [scopeAt, ← hlen, hp, h1], h2⟩

theorem setScopeAt_self (bs : List CodeGenBlock) (p : ScopeRef) (s : CodeGenBlock)
    (hs : scopeAt bs p = some s) : setScopeAt bs p s = bs := by
  induction bs with
  | nil => rfl
  | cons a t ih =>
    by_cases hp : t.length = p
    · simp only [scopeAt, hp, ↓reduceIte, Option.some.injEq] at hs
      simp [setScopeAt, hp, hs]
    · simp only [scopeAt, hp, ↓reduceIte] at hs
      simp [setScopeAt, hp, ih hs]

theorem sameLocals_setScopeAt (bs : List CodeGenBlock) (p : ScopeRef) (s s' : CodeGenBlock)
    (hs : scopeAt bs p = some s) (hk : s'.key = s.key) : sameLocals bs (setScopeAt bs p s') := by
  induction bs with
  | nil => rfl
  | cons a t ih =>
    by_cases hp : t.length = p
    · simp only [scopeAt, hp, ↓reduceIte, Option.some.injEq] at hs
      subst hs
      simp only [setScopeAt, hp, ↓reduceIte]
      exact sameLocals_cons.mpr ⟨hk.symm, rfl⟩
    · simp only [scopeAt, hp, ↓reduceIte] at hs
      simp only [setScopeAt, hp, ↓reduceIte]
      exact sameLocals_cons.mpr ⟨rfl, ih hs⟩

theorem frame_of_eq {α : Type} {P : List CodeGenBlock → Prop} {g : Gen α}
    (h : ∀ c v c', g c = .ok (v, c') → c'.blocks = c.blocks) : FrameOn P g := by
  intro c v c' _ hg
  rw [h c v c' hg]
  exact sameLocals_refl _

theorem frame_currentBlock (P : List CodeGenBlock → Prop) :
    FrameOn P CodeGenContext.currentBlock := by
  apply frame_of_eq
  intro c v c' h
  simp only [CodeGenContext.currentBlock] at h
  split at h
  · cases h
  · cases h; rfl

theorem frame_args2 {α β : Type} {P : List CodeGenBlock → Prop} (hP : Stable P) (cxx : Cxx)
    {a : Gen α} {b : Gen β} (ha : FrameOn P a) (hb : FrameOn P b) :
    FrameOn P (cxx.args2 a b) := by
  intro c v c' hc h
  simp only [Cxx.args2] at h
  split at h
  · split at h
    · cases h
    · rename_i y c1 h1
      split at h
      · cases h
      · rename_i x c2 h2
        cases h
        have s1 := hb _ _ _ hc h1
        exact sameLocals_trans s1 (ha _ _ _ (hP _ _ s1 hc) h2)
  · split at h
    · cases h
    · rename_i x c1 h1
      split at h
      · cases h
      · rename_i y c2 h2
        cases h
        have s1 := ha _ _ _ hc h1
        exact sameLocals_trans s1 (hb _ _ _ (hP _ _ s1 hc) h2)

theorem frame_args3 {α β γ : Type} {P : List CodeGenBlock → Prop} (hP : Stable P) (cxx : Cxx)
    {a : Gen α} {b : Gen β} {d : Gen γ} (ha : FrameOn P a) (hb : FrameOn P b)
    (hd : FrameOn P d) : FrameOn P (cxx.args3 a b d) := by
  intro c v c' hc h
  simp only [Cxx.args3] at h
  split at h
  · split at h
    · cases h
    · rename_i z c1 h1
      split at h
      · cases h
      · rename_i y c2 h2
        split at h
        · cases h
        · rename_i x c3 h3
          cases h
          have s1 := hd _ _ _ hc h1
          have s2 := hb _ _ _ (hP _ _ s1 hc) h2
          have s12 := sameLocals_trans s1 s2
          exact sameLocals_trans s12 (ha _ _ _ (hP _ _ s12 hc) h3)
  · split at h
    · cases h
    · rename_i x c1 h1
      split at h
      · cases h
      · rename_i y c2 h2
        split at h
        · cases h
        · rename_i z c3 h3
          cases h
          have s1 := ha _ _ _ hc h1
          have s2 := hb _ _ _ (hP _ _ s1 hc) h2
          have s12 := sameLocals_trans s1 s2
          exact sameLocals_trans s12 (hd _ _ _ (hP _ _ s12 hc) h3)

theorem stable_true : Stable (fun _ => True) := fun _ _ _ _ => trivial

theorem frame_ltypesAt (P : List CodeGenBlock → Prop) (p : ScopeRef) (name : String) :
    FrameOn P (ltypesAt p name) := by
  intro c v c' _ h
  simp only [ltypesAt] at h
  split at h
  · cases h
  · rename_i s hs
    cases h
    exact sameLocals_setScopeAt _ _ s _ hs rfl

theorem stable_declares (p : ScopeRef) (name : String) : Stable (Declares p name) := by
  intro bs bs' h ⟨s, hs, hn⟩
  obtain ⟨s', h1, h2⟩ := sameLocals_scopeAt h p s hs
  refine ⟨s', h1, ?_⟩
  have : s'.locals = s.locals := by
    simp only [CodeGenBlock.key, Prod.mk.injEq] at h2
    exact h2.2.2
  rw [this]; exact hn

theorem localsAt_declared (p : ScopeRef) (name : String) (c : CodeGenContext) (s : CodeGenBlock)
    (hs : scopeAt c.blocks p = some s) (v : Value) (hn : s.locals.find name = some v) :
    localsAt p name c = .ok (v, c) := by
  simp only [localsAt, hs, StdMap.index, hn]
  have : ({ s with locals := s.locals } : CodeGenBlock) = s := rfl
  simp [setScopeAt_self _ _ _ hs]

theorem frame_localsAt (p : ScopeRef) (name : String) :
    FrameOn (Declares p name) (localsAt p name) := by
  intro c v c' ⟨s, hs, hn⟩ h
  simp only [StdMap.contains, Option.isSome_iff_exists] at hn
  obtain ⟨w, hw⟩ := hn
  rw [localsAt_declared p name c s hs w hw] at h
  cases h
  exact sameLocals_refl _

theorem FrameOn.mono {α : Type} {P Q : List CodeGenBlock → Prop} {g : Gen α}
    (h : FrameOn P g) (hpq : ∀ bs, Q bs → P bs) : FrameOn Q g :=
  fun c v c' hc hg => h c v c' (hpq _ hc) hg

theorem declares_of_findLocals (bs : List CodeGenBlock) (name : String) (p : ScopeRef)
    (h : (findLocals bs name).1 = some p) : Declares p name bs := by
  obtain ⟨above, s, below, h1, h2, h3, -⟩ := findLocals_some bs name p h
  subst h1; subst h2
  exact ⟨s, scopeAt_append above s below, h3⟩

theorem frame_NIdentifier (P : List CodeGenBlock → Prop) (name : String) :
    FrameOn P (NIdentifier.codeGen name) := by
  intro c v c' _ h
  simp only [NIdentifier.codeGen, findLocals_snd] at h
  split at h
  · cases h; exact sameLocals_refl _
  · rename_i b hb
    have hd := declares_of_findLocals _ _ _ hb
    split at h
    · cases h
    · rename_i ty c1 h1
      have s1 := frame_ltypesAt (fun _ => True) b name _ _ _ trivial h1
      split at h
      · cases h
      · rename_i handle c2 h2
        have s2 := frame_localsAt b name _ _ _ (stable_declares b name _ _ s1 hd) h2
        split at h
        · cases h
        · rename_i bb c3 h3
          have s3 := frame_currentBlock (fun _ => True) _ _ _ trivial h3
          cases h
          exact sameLocals_trans (sameLocals_trans s1 s2) s3

theorem frame_emit_blocks (c : CodeGenContext) (bb : BasicBlock) (k : InstKind) :
    (c.emit bb k).2.blocks = c.blocks := rfl

theorem frame_NMethodCall {P : List CodeGenBlock → Prop} (id : String)
    {arguments : Gen (List Value)} (ha : FrameOn P arguments) :
    FrameOn P (NMethodCall.codeGen id arguments) := by
  intro c v c' hc h
  simp only [NMethodCall.codeGen] at h
  split at h
  · cases h
  · rename_i args c1 h1
    have s1 : sameLocals c.blocks c1.blocks := by
      by_cases hf : c.module.getFunction id = none
      · simp only [hf, ↓reduceIte] at h1
        exact ha (c.report (.noSuchFunction id)) _ _ hc h1
      · simp only [hf, ↓reduceIte] at h1
        exact ha c _ _ hc h1
    split at h
    · cases h
    · rename_i bb c2 h2
      have s2 := frame_currentBlock (fun _ => True) _ _ _ trivial h2
      cases h
      exact sameLocals_trans s1 s2

theorem frame_storeItems (itemType : IRType) (alloc : Value) (items : List Value) :
    ∀ i, FrameOn (fun _ => True) (NArray.storeItems itemType alloc i items) := by
  induction items with
  | nil =>
    intro i c v c' _ h
    simp only [NArray.storeItems] at h
    cases h
    exact sameLocals_refl _
  | cons x rest ih =>
    intro i c v c' _ h
    simp only [NArray.storeItems] at h
    split at h
    · cases h
    · rename_i bb c1 h1
      have s1 := frame_currentBlock (fun _ => True) _ _ _ trivial h1
      split at h
      · cases h
      · rename_i bb2 c2 h2
        have s2 := frame_currentBlock (fun _ => True) _ _ _ trivial h2
        have s3 := ih (i + 1) _ _ _ trivial h
        exact sameLocals_trans (sameLocals_trans s1 s2) s3

theorem frame_NArray {P : List CodeGenBlock → Prop} {items : Gen (List Value)}
    (hi : FrameOn P items) : FrameOn P (NArray.codeGen items) := by
  intro c v c' hc h
  simp only [NArray.codeGen] at h
  split at h
  · cases h
  · rename_i arr c1 h1
    have s1 := hi _ _ _ hc h1
    split at h
    · cases h
    · split at h
      · cases h
      · rename_i bb c2 h2
        have s2 := frame_currentBlock (fun _ => True) _ _ _ trivial h2
        split at h
        · cases h
        · rename_i u c3 h3
          have s3 := frame_storeItems _ _ _ _ _ _ _ trivial h3
          cases h
          exact sameLocals_trans (sameLocals_trans s1 s2) s3

theorem frame_arrayElementAddress {P : List CodeGenBlock → Prop} (hP : Stable P)
    (b : Option ScopeRef) (arr : String) {index : Gen Value} (hi : FrameOn P index) :
    FrameOn (fun bs => P bs ∧ ∀ p, b = some p → Declares p arr bs)
      (arrayElementAddress b arr index) := by
  intro c v c' ⟨hc, hd⟩ h
  simp only [arrayElementAddress] at h
  split at h
  · cases h
  · rename_i p
    have hd := hd p rfl
    split at h
    · cases h
    · rename_i ty c1 h1
      have s1 := frame_ltypesAt (fun _ => True) p arr _ _ _ trivial h1
      split at h
      · cases h
      · rename_i handle c2 h2
        have s2 := frame_localsAt p arr _ _ _ (stable_declares p arr _ _ s1 hd) h2
        have s12 := sameLocals_trans s1 s2
        split at h
        · cases h
        · rename_i bb c3 h3
          have s3 := frame_currentBlock (fun _ => True) _ _ _ trivial h3
          have s13 := sameLocals_trans s12 s3
          split at h
          · cases h
          · rename_i idx c4 h4
            have s4 := hi _ _ _ (by exact hP _ _ s13 hc) h4
            have s14 := sameLocals_trans s13 s4
            split at h
            · cases h
            · rename_i ty2 c5 h5
              have s5 := frame_ltypesAt (fun _ => True) p arr _ _ _ trivial h5
              split at h
              · cases h
              · rename_i bb2 c6 h6
                have s6 := frame_currentBlock (fun _ => True) _ _ _ trivial h6
                cases h
                exact sameLocals_trans (sameLocals_trans s14 s5) s6

theorem frame_NArrayRead {P : List CodeGenBlock → Prop} (hP : Stable P) (arr : String)
    {index : Gen Value} (hi : FrameOn P index) : FrameOn P (NArrayRead.codeGen arr index) := by
  intro c v c' hc h
  simp only [NArrayRead.codeGen, findLocals_snd] at h
  split at h
  · cases h
  · rename_i g b c1 h1
    have s1 := frame_arrayElementAddress hP _ arr hi _ _ _
      ⟨hc, fun p hp => declares_of_findLocals _ _ _ hp⟩ h1
    split at h
    · cases h
    · rename_i ty c2 h2
      have s2 := frame_ltypesAt (fun _ => True) b arr _ _ _ trivial h2
      split at h
      · cases h
      · rename_i bb c3 h3
        have s3 := frame_currentBlock (fun _ => True) _ _ _ trivial h3
        cases h
        exact sameLocals_trans (sameLocals_trans s1 s2) s3

theorem frame_create2 {P : List CodeGenBlock → Prop} (hP : Stable P) (cxx : Cxx)
    {assignment : Gen Value} (ha : FrameOn P assignment) (instr : BinaryOps) (current : Value) :
    FrameOn P (fun c =>
      match cxx.args2 assignment CodeGenContext.currentBlock c with
      | .error f => .error f
      | .ok ((v, bb2), c4) => .ok (c4.emit bb2 (.binop instr current v))) := by
  intro c v c' hc h
  simp only at h
  split at h
  · cases h
  · rename_i w bb2 c4 h4
    cases h
    show sameLocals c.blocks c4.blocks
    exact frame_args2 hP cxx ha (frame_currentBlock P) _ _ _ hc h4

theorem frame_NArrayWrite {P : List CodeGenBlock → Prop} (hP : Stable P) (cxx : Cxx)
    (arr : String) {index : Gen Value} (hi : FrameOn P index) (op : Token)
    {assignment : Gen Value} (ha : FrameOn P assignment) :
    FrameOn P (NArrayWrite.codeGen cxx arr index op assignment) := by
  intro c v c' hc h
  simp only [NArrayWrite.codeGen, findLocals_snd] at h
  split at h
  · cases h
  · rename_i g b c1 h1
    have s1 := frame_arrayElementAddress hP _ arr hi _ _ _
      ⟨hc, fun p hp => declares_of_findLocals _ _ _ hp⟩ h1
    have hc1 := hP _ _ s1 hc
    split at h
    · split at h
      · cases h
      · rename_i w bb c2 h2
        have s2 := frame_args2 hP cxx ha (frame_currentBlock P) _ _ _ hc1 h2
        cases h
        exact sameLocals_trans s1 s2
    · rename_i instr _
      split at h
      · cases h
      · rename_i ty c2 h2
        have s2 := frame_ltypesAt (fun _ => True) b arr _ _ _ trivial h2
        split at h
        · cases h
        · rename_i bb c3 h3
          have s3 := frame_currentBlock (fun _ => True) _ _ _ trivial h3
          have s13 := sameLocals_trans (sameLocals_trans s1 s2) s3
          split at h
          · cases h
          · rename_i r bb3 c5 h5
            have hcreate := frame_create2 hP cxx ha instr (c3.emit bb (.load ty g "")).1
            have s5 := frame_args2 hP cxx hcreate (frame_currentBlock P) _ _ _
              (by exact hP _ _ s13 hc) h5
            cases h
            exact sameLocals_trans s13 s5

theorem frame_NBinaryOperator {P : List CodeGenBlock → Prop} (hP : Stable P) (cxx : Cxx)
    {lhs rhs : Gen Value} (hl : FrameOn P lhs) (op : Token) (hr : FrameOn P rhs) :
    FrameOn P (NBinaryOperator.codeGen cxx lhs op rhs) := by
  intro c v c' hc h
  simp only [NBinaryOperator.codeGen] at h
  split at h
  · split at h
    · cases h
    · rename_i l r bb c1 h1
      cases h
      show sameLocals c.blocks c1.blocks
      exact frame_args3 hP cxx hl hr (frame_currentBlock P) _ _ _ hc h1
  · split at h
    · split at h
      · cases h
      · rename_i l r bb c1 h1
        cases h
        show sameLocals c.blocks c1.blocks
        exact frame_args3 hP cxx hl hr (frame_currentBlock P) _ _ _ hc h1
    · cases h
      exact sameLocals_refl _

theorem frame_NUnaryOperator {P : List CodeGenBlock → Prop} (hP : Stable P) (cxx : Cxx)
    (op : Token) {expr : Gen Value} (he : FrameOn P expr) :
    FrameOn P (NUnaryOperator.codeGen cxx op expr) := by
  intro c v c' hc h
  simp only [NUnaryOperator.codeGen] at h
  split at h
  · split at h
    · cases h
    · rename_i w bb c1 h1
      cases h
      show sameLocals c.blocks c1.blocks
      exact frame_args2 hP cxx he (frame_currentBlock P) _ _ _ hc h1
  · split at h
    · cases h
    · rename_i w bb c1 h1
      cases h
      show sameLocals c.blocks c1.blocks
      exact frame_args2 hP cxx he (frame_currentBlock P) _ _ _ hc h1
  · cases h
    exact sameLocals_refl _

theorem stable_and {P Q : List CodeGenBlock → Prop} (hP : Stable P) (hQ : Stable Q) :
    Stable (fun bs => P bs ∧ Q bs) :=
  fun bs bs' h hpq => ⟨hP bs bs' h hpq.1, hQ bs bs' h hpq.2⟩

theorem frame_NAssignment {P : List CodeGenBlock → Prop} (hP : Stable P) (cxx : Cxx)
    (lhs : String) (op : Token) {rhs : Gen Value} (hr : FrameOn P rhs) :
    FrameOn P (NAssignment.codeGen cxx lhs op rhs) := by
  intro c v c' hc h
  simp only [NAssignment.codeGen, findLocals_snd] at h
  split at h
  · cases h; exact sameLocals_refl _
  · rename_i b hb
    have hd := declares_of_findLocals _ _ _ hb
    have hQ := stable_and hP (stable_declares b lhs)
    have hr' : FrameOn (fun bs => P bs ∧ Declares b lhs bs) rhs := hr.mono (fun _ h => h.1)
    have hloc : FrameOn (fun bs => P bs ∧ Declares b lhs bs) (localsAt b lhs) :=
      (frame_localsAt b lhs).mono (fun _ h => h.2)
    split at h
    · split at h
      · cases h
      · rename_i w handle bb c1 h1
        cases h
        show sameLocals c.blocks c1.blocks
        exact frame_args3 hQ cxx hr' hloc (frame_currentBlock _) _ _ _ ⟨hc, hd⟩ h1
    · rename_i instr _
      split at h
      · cases h
      · rename_i w handle bb c1 h1
        cases h
        have hcreate : FrameOn (fun bs => P bs ∧ Declares b lhs bs) (fun c =>
            match cxx.args3 (NIdentifier.codeGen lhs) rhs CodeGenContext.currentBlock c with
            | .error f => .error f
            | .ok ((l, r, bb), c1) => .ok (c1.emit bb (.binop instr l r))) := by
          intro d u d' hd' hh
          simp only at hh
          split at hh
          · cases hh
          · rename_i l r bb2 d1 hh1
            cases hh
            show sameLocals d.blocks d1.blocks
            exact frame_args3 hQ cxx (frame_NIdentifier _ lhs) hr' (frame_currentBlock _)
              _ _ _ hd' hh1
        show sameLocals c.blocks c1.blocks
        exact frame_args3 hQ cxx hcreate hloc (frame_currentBlock _) _ _ _ ⟨hc, hd⟩ h1

theorem frame_NString (P : List CodeGenBlock → Prop) (value : List Nat) :
    FrameOn P (NString.codeGen value) := by
  intro c v c' _ h
  simp only [NString.codeGen] at h
  split at h
  · cases h
  · cases h; exact sameLocals_refl _

mutual
theorem frame_NExpression (cxx : Cxx) :
    (e : NExpression) → e.blockFree = true → FrameOn (fun _ => True) (NExpression.codeGen cxx e)
  | .NInteger _, _ => by
    intro c v c' _ h
    simp only [NExpression.codeGen, NInteger.codeGen] at h
    cases h; exact sameLocals_refl _
  | .NDouble _, _ => by
    intro c v c' _ h
    simp only [NExpression.codeGen, NDouble.codeGen] at h
    cases h; exact sameLocals_refl _
  | .NString value, _ => by
    simp only [NExpression.codeGen]
    exact frame_NString _ value
  | .NBool _, _ => by
    intro c v c' _ h
    simp only [NExpression.codeGen, NBool.codeGen] at h
    cases h; exact sameLocals_refl _
  | .NIdentifier name, _ => by
    simp only [NExpression.codeGen]
    exact frame_NIdentifier _ name
  | .NMethodCall id arguments, hf => by
    simp only [NExpression.codeGen]
    simp only [NExpression.blockFree] at hf
    exact frame_NMethodCall id (frame_ExpressionList cxx arguments hf)
  | .NArray items, hf => by
    simp only [NExpression.codeGen]
    simp only [NExpression.blockFree] at hf
    exact frame_NArray (frame_ExpressionList cxx items hf)
  | .NArrayRead arr index, hf => by
    simp only [NExpression.codeGen]
    simp only [NExpression.blockFree] at hf
    exact frame_NArrayRead stable_true arr (frame_NExpression cxx index hf)
  | .NArrayWrite arr index op assignment, hf => by
    simp only [NExpression.codeGen]
    simp only [NExpression.blockFree, Bool.and_eq_true] at hf
    exact frame_NArrayWrite stable_true cxx arr (frame_NExpression cxx index hf.1) op
      (frame_NExpression cxx assignment hf.2)
  | .NBinaryOperator lhs op rhs, hf => by
    simp only [NExpression.codeGen]
    simp only [NExpression.blockFree, Bool.and_eq_true] at hf
    exact frame_NBinaryOperator stable_true cxx (frame_NExpression cxx lhs hf.1) op
      (frame_NExpression cxx rhs hf.2)
  | .NUnaryOperator op expr, hf => by
    simp only [NExpression.codeGen]
    simp only [NExpression.blockFree] at hf
    exact frame_NUnaryOperator stable_true cxx op (frame_NExpression cxx expr hf)
  | .NAssignment lhs op rhs, hf => by
    simp only [NExpression.codeGen]
    simp only [NExpression.blockFree] at hf
    exact frame_NAssignment stable_true cxx lhs op (frame_NExpression cxx rhs hf)
  | .NBlock _, hf => by
    simp [NExpression.blockFree] at hf
theorem frame_ExpressionList (cxx : Cxx) :
    (es : ExpressionList) → es.blockFree = true →
      FrameOn (fun _ => True) (ExpressionList.codeGen cxx es)
  | .nil, _ => by
    intro c v c' _ h
    simp only [ExpressionList.codeGen] at h
    cases h; exact sameLocals_refl _
  | .cons head tail, hf => by
    simp only [ExpressionList.blockFree, Bool.and_eq_true] at hf
    intro c v c' _ h
    simp only [ExpressionList.codeGen] at h
    split at h
    · cases h
    · rename_i w c1 h1
      split at h
      · cases h
      · rename_i ws c2 h2
        cases h
        exact sameLocals_trans (frame_NExpression cxx head hf.1 _ _ _ trivial h1)
          (frame_ExpressionList cxx tail hf.2 _ _ _ trivial h2)
end

/-! ### Declarations -/

theorem StdMap.contains_set_self {β : Type} (m : StdMap β) (k : String) (v : β) :
    (m.set k v).contains k = true := by
  simp [StdMap.contains, StdMap.find_set_self]

theorem declare_eq (cxx : Cxx) (slotTy : IRType → IRType) (type id : String)
    (assignmentExpr : Option (Gen Value)) (top : CodeGenBlock) (rest : List CodeGenBlock)
    (context : CodeGenContext) (hctx : context.blocks = top :: rest) :
    declare cxx slotTy type id assignmentExpr context =
      match assignmentExpr with
      | none => .ok (.inst context.fresh (.ptr (slotTy (typeOf type).1)),
                     registered slotTy type id context top rest)
      | some rhs =>
        match NAssignment.codeGen cxx id (cxx.indeterminate (context.fresh + 1)) rhs
            (registered slotTy type id context top rest) with
        | .error f => .error f
        | .ok (_, c5) => .ok (.inst context.fresh (.ptr (slotTy (typeOf type).1)), c5) := by
  simp only [declare, hctx, topLtypes, StdMap.index, StdMap.find_set_self,
    CodeGenContext.currentBlock, CodeGenContext.emit, InstKind.resultType, registered]

/-- C2 (as stated, refuted): for the unknown type name `float` the type mapper
does yield a type, `void`; the declaration `float x;` registers `x`, and the
declaration of a function `f` returning `float` puts `f` into the function
table. -/
theorem unknown_type_still_registers :
    (typeOf "float").1 = .void ∧
    (∃ v c, NStatement.codeGen firstToLast (.NVariableDeclaration "float" "x" .null)
        sampleContext = .ok (v, c) ∧ (findLocals c.blocks "x").1 = some 0) ∧
    (∃ v c, NStatement.codeGen firstToLast (.NFunctionDeclaration "float" "f" .nil .nil)
        sampleContext = .ok (v, c) ∧ (c.module.getFunction "f").isSome = true) := by
  refine ⟨by decide, ⟨_, _, rfl, by decide⟩, ⟨_, _, rfl, by decide⟩⟩

/-- C3: `findLocals` returns the scope nearest to the top of the stack whose
symbol table holds the name: its result, read as a scope, is the result of the
scan `lookupScan` that walks the stack from the top down without changing it;
it returns no scope exactly when no scope on the stack holds the name; and
when it returns a scope, the stack splits into scopes above that do not hold
the name, the returned scope, which holds it, and the scopes below. -/
theorem findLocals_nearest_scope (blocks : List CodeGenBlock) (name : String) :
    (findLocals blocks name).1.bind (scopeAt blocks) = lookupScan blocks name ∧
    ((findLocals blocks name).1 = none ↔ ∀ s ∈ blocks, s.locals.contains name = false) ∧
    (∀ p, (findLocals blocks name).1 = some p →
      ∃ above s below, blocks = above ++ s :: below ∧ below.length = p ∧
        scopeAt blocks p = some s ∧ s.locals.contains name = true ∧
        ∀ a ∈ above, a.locals.contains name = false) := by
  refine ⟨findLocals_scan blocks name, findLocals_none_iff blocks name, ?_⟩
  intro p hp
  obtain ⟨above, s, below, h1, h2, h3, h4⟩ := findLocals_some blocks name p hp
  refine ⟨above, s, below, h1, h2, ?_, h3, h4⟩
  subst h1; subst h2
  exact scopeAt_append above s below


/-- C3, on the two-scope sample stack: `y` is found in the outer scope, below
the top scope that does not hold it. -/
theorem findLocals_nearest_scope_witness :
    (findLocals sampleStack "y").1 = some 0 ∧
    ∃ above s below, sampleStack = above ++ s :: below ∧ below.length = 0 ∧
      scopeAt sampleStack 0 = some s ∧ s.locals.contains "y" = true ∧
      ∀ a ∈ above, a.locals.contains "y" = false :=
  ⟨rfl, (findLocals_nearest_scope sampleStack "y").2.2 0 rfl⟩

/-- The found case of `NIdentifier::codeGen`: one load of the handle, typed by
the recorded type, appended to the block of the top scope. -/
theorem identifier_found (name : String) (context : CodeGenContext)
    (above : List CodeGenBlock) (s : CodeGenBlock) (below : List CodeGenBlock)
    (handle : Value) (ty : IRType) (top : CodeGenBlock)
    (hb : context.blocks = above ++ s :: below)
    (ha : ∀ a ∈ above, a.locals.contains name = false)
    (hl : s.locals.find name = some handle) (ht : s.ltypes.find name = some ty)
    (htop : (above ++ [s]).head? = some top) :
    NIdentifier.codeGen name context =
      .ok (.inst context.fresh ty,
        { context with
          module := { context.module with
                      insts := context.module.insts ++
                        [⟨context.fresh, .load ty handle name, top.block⟩] }
          fresh := context.fresh + 1 }) := by
  have hs : s.locals.contains name = true := by simp [StdMap.contains, hl]
  have hf : (findLocals context.blocks name).1 = some below.length := by
    rw [hb]; exact findLocals_append above s below name hs ha
  have hsc : scopeAt context.blocks below.length = some s := by
    rw [hb]; exact scopeAt_append above s below
  have hcur : CodeGenContext.currentBlock context = .ok (top.block, context) := by
    simp only [CodeGenContext.currentBlock, hb]
    cases above with
    | nil =>
      simp only [List.nil_append, List.head?_cons, Option.some.injEq] at htop
      simp [htop]
    | cons a above =>
      simp only [List.cons_append, List.head?_cons, Option.some.injEq] at htop
      simp [htop]
  have e1 : ltypesAt below.length name context = .ok (ty, context) := by
    simp only [ltypesAt, hsc, StdMap.index, ht]
    have : ({ s with ltypes := s.ltypes } : CodeGenBlock) = s := rfl
    simp [setScopeAt_self _ _ _ hsc]
  have e2 := localsAt_declared below.length name context s hsc handle hl
  simp only [NIdentifier.codeGen, findLocals_snd, hf]
  simp [e1, e2, hcur, CodeGenContext.emit, InstKind.resultType]

/-- C5: lowering the identifier `name`. When no scope on the stack holds `name`,
the result is null, the diagnostic "undeclared variable" is written, and
nothing else changes: no instruction is created. When `s` is the scope nearest
to the top that holds `name`, with handle `handle` and recorded type `ty`, the
result is one new `load` of `handle` with type `ty`, appended to the block of
the top scope, and the context is otherwise as before. In both cases the scope
stack of the resulting context is the one the lowering started with. -/
theorem identifier_lowering (name : String) (context : CodeGenContext) :
    ((∀ s ∈ context.blocks, s.locals.contains name = false) →
      NIdentifier.codeGen name context =
        .ok (.null, context.report (.undeclaredVariable name)) ∧
      (context.report (.undeclaredVariable name)).blocks = context.blocks ∧
      (context.report (.undeclaredVariable name)).module = context.module) ∧
    (∀ above s below handle ty top,
      context.blocks = above ++ s :: below →
      (∀ a ∈ above, a.locals.contains name = false) →
      s.locals.find name = some handle → s.ltypes.find name = some ty →
      (above ++ [s]).head? = some top →
      NIdentifier.codeGen name context =
        .ok (.inst context.fresh ty,
          { context with
            module := { context.module with
                        insts := context.module.insts ++
                          [⟨context.fresh, .load ty handle name, top.block⟩] }
            fresh := context.fresh + 1 })) := by
  constructor
  · intro h
    have hn := (findLocals_none_iff context.blocks name).mpr h
    simp [NIdentifier.codeGen, hn, findLocals_snd, CodeGenContext.report]
  · intro above s below handle ty top hb ha hl ht htop
    exact identifier_found name context above s below handle ty top hb ha hl ht htop

/-- C5, in the two-scope sample context: `z` is held by no scope; `y` is held
by the outer scope only, and its load goes to the block of the top scope. -/
theorem identifier_lowering_witness :
    NIdentifier.codeGen "z" sampleNested =
      .ok (.null, sampleNested.report (.undeclaredVariable "z")) ∧
    NIdentifier.codeGen "y" sampleNested =
      .ok (.inst 5 .int1,
        { sampleNested with
          module := { sampleNested.module with
                      insts := sampleNested.module.insts ++
                        [⟨5, .load .int1 (.inst 3 (.ptr .int1)) "y", sampleEntry⟩] }
          fresh := 6 }) :=
  ⟨((identifier_lowering "z" sampleNested).1 (by decide)).1,
   (identifier_lowering "y" sampleNested).2
     [⟨sampleEntry, .null, [("x", .inst 4 (.ptr .int64))], [("x", .int64)]⟩]
     ⟨sampleEntry, .null, [("x", .inst 2 (.ptr .int64)), ("y", .inst 3 (.ptr .int1))],
       [("x", .int64), ("y", .int1)]⟩
     [] (.inst 3 (.ptr .int1)) .int1
     ⟨sampleEntry, .null, [("x", .inst 4 (.ptr .int64))], [("x", .int64)]⟩
     rfl (by decide) rfl rfl rfl⟩

theorem StdMap.find_set_ne {β : Type} (m : StdMap β) (k name : String) (v : β) (h : k ≠ name) :
    (m.set k v).find name = m.find name := by
  induction m with
  | nil => simp [StdMap.set, StdMap.find, h]
  | cons p rest ih =>
    obtain ⟨k', w⟩ := p
    by_cases hk : k' = k
    · subst hk
      simp [StdMap.set, StdMap.find, h]
    · by_cases hn : k' = name
      · subst hn
        simp [StdMap.set, StdMap.find, hk]
      · simp [StdMap.set, StdMap.find, hk, hn, ih]

theorem StdMap.contains_set_ne {β : Type} (m : StdMap β) (k name : String) (v : β)
    (h : k ≠ name) : (m.set k v).contains name = m.contains name := by
  simp [StdMap.contains, StdMap.find_set_ne m k name v h]

/-- The `default` case of `NAssignment::codeGen` when the target is found and the
lowering of the right-hand side leaves the stack as it is: one store of the
value into the target's handle, whatever the order of the arguments. -/
theorem assignment_default (cxx : Cxx) (lhs : String) (op : Token) (rhs : Gen Value)
    (c c1 : CodeGenContext) (top s : CodeGenBlock) (rest : List CodeGenBlock) (b : ScopeRef)
    (handle v : Value) (hop : compoundOf op = none) (hctx : c.blocks = top :: rest)
    (hf : (findLocals c.blocks lhs).1 = some b) (hs : scopeAt c.blocks b = some s)
    (hl : s.locals.find lhs = some handle) (hr : rhs c = .ok (v, c1))
    (hb : c1.blocks = c.blocks) :
    NAssignment.codeGen cxx lhs op rhs c = .ok (c1.emit top.block (.store v handle)) := by
  have hcur : CodeGenContext.currentBlock c = .ok (top.block, c) := by
    simp [CodeGenContext.currentBlock, hctx]
  have hcur1 : CodeGenContext.currentBlock c1 = .ok (top.block, c1) := by
    simp [CodeGenContext.currentBlock, hb, hctx]
  have e : localsAt b lhs c = .ok (handle, c) := localsAt_declared b lhs c s hs handle hl
  have e1 : localsAt b lhs c1 = .ok (handle, c1) :=
    localsAt_declared b lhs c1 s (by rw [hb]; exact hs) handle hl
  have hc : ({ c with blocks := c.blocks } : CodeGenContext) = c := rfl
  simp only [NAssignment.codeGen, findLocals_snd, hf, hop, hc]
  cases hrl : cxx.rightToLeft <;> simp [Cxx.args3, hrl, hcur, hcur1, e, e1, hr]

/-- C7 (the code at the failing input): the call `foo(1)` in the sample context,
whose module has no function `foo`. The diagnostic "no such function" is
written, and the lowering goes on: the argument is lowered and a call
instruction is created on the null function pointer. -/
theorem call_of_unknown_function :
    sampleContext.module.getFunction "foo" = none ∧
    NExpression.codeGen firstToLast (.NMethodCall "foo" (.cons (.NInteger 1) .nil))
        sampleContext =
      .ok (.inst 2 .null,
        { blocks := [⟨sampleEntry, .null, [], []⟩]
          module := ⟨[sampleMain], [sampleEntry],
            [⟨2, .call none [.constInt .int64 1], sampleEntry⟩], []⟩
          mainFunction := some sampleMain
          cerr := [.noSuchFunction "foo"]
          fresh := 3 }) :=
  ⟨rfl, rfl⟩

/-! ### Arithmetic expressions -/

theorem execInsts_append (regs : Registers) (a b : List Instruction) :
    execInsts regs (a ++ b) = (execInsts regs a).bind (fun r => execInsts r b) := by
  induction a generalizing regs with
  | nil => simp [execInsts]
  | cons i rest ih =>
    simp only [List.cons_append, execInsts]
    cases i.exec regs with
    | none => simp
    | some r => simp [ih]

theorem lookup_skip (k : Nat) (later rest : Registers) (h : ∀ p ∈ later, p.1 ≠ k) :
    (later ++ rest).lookup k = rest.lookup k := by
  induction later with
  | nil => rfl
  | cons p later ih =>
    obtain ⟨a, z⟩ := p
    have hne : a ≠ k := h (a, z) (by simp)
    have hne' : (k == a) = false := by simp [Ne.symm hne]
    simp only [List.cons_append, List.lookup, hne']
    exact ih (fun q hq => h q (by simp [hq]))

theorem computes_lit (value : Int) : Computes (NInteger.codeGen value) (wrap64 value) := by
  intro context top rest _
  refine ⟨.constInt .int64 value, context, [], rfl, rfl, rfl, by simp, le_refl _, by simp, ?_⟩
  intro regs
  exact ⟨[], rfl, by simp, fun later _ => rfl⟩

/-- Two generators that compute numbers, run one after the other. -/
theorem computes_seq (g1 g2 : Gen Value) (n1 n2 : Int) (h1 : Computes g1 n1)
    (h2 : Computes g2 n2) (context : CodeGenContext) (top : CodeGenBlock)
    (rest : List CodeGenBlock) (hctx : context.blocks = top :: rest) :
    ∃ v1 c1 v2 c2 pre, g1 context = .ok (v1, c1) ∧ g2 c1 = .ok (v2, c2) ∧
      c1.blocks = context.blocks ∧ c2.blocks = context.blocks ∧ c2.cerr = context.cerr ∧
      c2.module.insts = context.module.insts ++ pre ∧ context.fresh ≤ c2.fresh ∧
      (∀ i ∈ pre, i.parent = top.block) ∧
      ∀ regs : Registers, ∃ added : Registers, execInsts regs pre = some (added ++ regs) ∧
        (∀ p ∈ added, context.fresh ≤ p.1 ∧ p.1 < c2.fresh) ∧
        ∀ later : Registers, (∀ p ∈ later, c2.fresh ≤ p.1) →
          v1.eval (later ++ (added ++ regs)) = some n1 ∧
          v2.eval (later ++ (added ++ regs)) = some n2 := by
  obtain ⟨v1, c1, new1, e1, b1, r1, i1, f1, p1, x1⟩ := h1 context top rest hctx
  obtain ⟨v2, c2, new2, e2, b2, r2, i2, f2, p2, x2⟩ := h2 c1 top rest (b1.trans hctx)
  refine ⟨v1, c1, v2, c2, new1 ++ new2, e1, e2, b1, b2.trans b1, r2.trans r1, ?_,
    le_trans f1 f2, ?_, ?_⟩
  · rw [i2, i1, List.append_assoc]
  · intro i hi
    rcases List.mem_append.mp hi with h | h
    · exact p1 i h
    · exact p2 i h
  · intro regs
    obtain ⟨a1, ex1, bd1, ev1⟩ := x1 regs
    obtain ⟨a2, ex2, bd2, ev2⟩ := x2 (a1 ++ regs)
    refine ⟨a2 ++ a1, ?_, ?_, ?_⟩
    · rw [execInsts_append, ex1]
      simp only [Option.bind]
      rw [ex2, List.append_assoc]
    · intro p hp
      rcases List.mem_append.mp hp with h | h
      · exact ⟨le_trans f1 (bd2 p h).1, (bd2 p h).2⟩
      · exact ⟨(bd1 p h).1, lt_of_lt_of_le (bd1 p h).2 f2⟩
    · intro later hl
      constructor
      · have := ev1 (later ++ a2) (by
          intro p hp
          rcases List.mem_append.mp hp with h | h
          · exact le_trans f2 (hl p h)
          · exact (bd2 p h).1)
        simpa [List.append_assoc] using this
      · have := ev2 later hl
        simpa [List.append_assoc] using this

/-- The operands of a binary node, evaluated in either order, followed by the
read of the current block. -/
theorem computes_operands (cxx : Cxx) (lhs rhs : Gen Value) (nl nr : Int)
    (hl : Computes lhs nl) (hr : Computes rhs nr) (context : CodeGenContext)
    (top : CodeGenBlock) (rest : List CodeGenBlock) (hctx : context.blocks = top :: rest) :
    ∃ lv rv c2 pre,
      cxx.args3 lhs rhs CodeGenContext.currentBlock context = .ok ((lv, rv, top.block), c2) ∧
      (∃ cl cl' cr cr', lhs cl = .ok (lv, cl') ∧ rhs cr = .ok (rv, cr')) ∧
      c2.blocks = context.blocks ∧ c2.cerr = context.cerr ∧
      c2.module.insts = context.module.insts ++ pre ∧ context.fresh ≤ c2.fresh ∧
      (∀ i ∈ pre, i.parent = top.block) ∧
      ∀ regs : Registers, ∃ added : Registers, execInsts regs pre = some (added ++ regs) ∧
        (∀ p ∈ added, context.fresh ≤ p.1 ∧ p.1 < c2.fresh) ∧
        ∀ later : Registers, (∀ p ∈ later, c2.fresh ≤ p.1) →
          lv.eval (later ++ (added ++ regs)) = some nl ∧
          rv.eval (later ++ (added ++ regs)) = some nr := by
  have hcur : ∀ c : CodeGenContext, c.blocks = context.blocks →
      CodeGenContext.currentBlock c = .ok (top.block, c) := by
    intro c hc
    simp [CodeGenContext.currentBlock, hc, hctx]
  cases hrl : cxx.rightToLeft with
  | false =>
    obtain ⟨v1, c1, v2, c2, pre, e1, e2, -, b2, r2, i2, f2, p2, x2⟩ :=
      computes_seq lhs rhs nl nr hl hr context top rest hctx
    refine ⟨v1, v2, c2, pre, ?_, ⟨_, _, _, _, e1, e2⟩, b2, r2, i2, f2, p2, x2⟩
    simp [Cxx.args3, hrl, e1, e2, hcur c2 b2]
  | true =>
    obtain ⟨v1, c1, v2, c2, pre, e1, e2, -, b2, r2, i2, f2, p2, x2⟩ :=
      computes_seq rhs lhs nr nl hr hl context top rest hctx
    refine ⟨v2, v1, c2, pre, ?_, ⟨_, _, _, _, e2, e1⟩, b2, r2, i2, f2, p2, ?_⟩
    · simp [Cxx.args3, hrl, e1, e2, hcur context rfl]
    · intro regs
      obtain ⟨added, ex, bd, ev⟩ := x2 regs
      exact ⟨added, ex, bd, fun later hl => ⟨(ev later hl).2, (ev later hl).1⟩⟩

theorem opcode_eval (op : ArithTag) (a b : Int) : op.opcode.eval a b = op.apply a b := by
  cases op <;> rfl

theorem predicate_eval (t : CmpTag) (a b : Int) : t.predicate.eval a b = t.holds a b := by
  cases t <;> rfl

theorem arithOf_toToken (op : ArithTag) : arithOf op.toToken = some op.opcode := by
  cases op <;> rfl

theorem arithOf_cmp (t : CmpTag) : arithOf t.toToken = none := by
  cases t <;> rfl

theorem predOf_toToken (t : CmpTag) : predOf t.toToken = some t.predicate := by
  cases t <;> rfl

theorem lookup_new (k : Nat) (z : Int) (later rest : Registers)
    (h : ∀ p ∈ later, k + 1 ≤ p.1) : (later ++ (k, z) :: rest).lookup k = some z := by
  rw [lookup_skip k later _ (fun p hp => by have := h p hp; omega)]
  simp [List.lookup]

/-- An operator node over two generators that compute numbers computes the
result of its instruction. -/
theorem computes_binop (cxx : Cxx) (lhs rhs : Gen Value) (op : ArithTag) (nl nr n : Int)
    (hl : Computes lhs nl) (hr : Computes rhs nr) (hn : op.apply nl nr = some n) :
    Computes (NBinaryOperator.codeGen cxx lhs op.toToken rhs) n := by
  intro context top rest hctx
  obtain ⟨lv, rv, c2, pre, e, -, b2, r2, i2, f2, p2, x2⟩ :=
    computes_operands cxx lhs rhs nl nr hl hr context top rest hctx
  refine ⟨.inst c2.fresh (InstKind.binop op.opcode lv rv).resultType,
    (c2.emit top.block (.binop op.opcode lv rv)).2,
    pre ++ [⟨c2.fresh, .binop op.opcode lv rv, top.block⟩], ?_, b2, r2, ?_, ?_, ?_, ?_⟩
  · simp only [NBinaryOperator.codeGen, arithOf_toToken, e]
    rfl
  · simp [CodeGenContext.emit, i2, List.append_assoc]
  · simp only [CodeGenContext.emit]; omega
  · intro i hi
    rcases List.mem_append.mp hi with h | h
    · exact p2 i h
    · simp only [List.mem_singleton] at h
      subst h; rfl
  · intro regs
    obtain ⟨added, ex, bd, ev⟩ := x2 regs
    have ev0 := ev [] (by simp)
    simp only [List.nil_append] at ev0
    refine ⟨(c2.fresh, n) :: added, ?_, ?_, ?_⟩
    · rw [execInsts_append, ex]
      simp only [Option.bind, execInsts, Instruction.exec, ev0.1, ev0.2, opcode_eval, hn,
        Option.map, List.cons_append]
    · intro p hp
      simp only [CodeGenContext.emit]
      rcases List.mem_cons.mp hp with h | h
      · subst h; simp only; omega
      · have := bd p h; omega
    · intro later hlater
      simp only [CodeGenContext.emit] at hlater
      simp only [Value.eval, List.cons_append]
      exact lookup_new c2.fresh n later _ hlater

theorem computes_arith (cxx : Cxx) (e : ArithExpr) :
    ∀ n, e.value = some n → Computes (NExpression.codeGen cxx e.toExpression) n := by
  induction e with
  | lit value =>
    intro n hn
    simp only [ArithExpr.value, Option.some.injEq] at hn
    subst hn
    simp only [ArithExpr.toExpression, NExpression.codeGen]
    exact computes_lit value
  | bin lhs op rhs ihl ihr =>
    intro n hn
    simp only [ArithExpr.value] at hn
    split at hn
    · rename_i a b ha hb
      simp only [ArithExpr.toExpression, NExpression.codeGen]
      exact computes_binop cxx _ _ op a b n (ihl a ha) (ihr b hb) hn
    · cases hn

/-- C8: on a context whose stack has a top scope, for either order of argument
evaluation. (1) An expression built from integer literals and `+ - * /` that
has a value `n` (no division by zero in it) is lowered without a fault to
instructions, appended to the block of the top scope, whose execution in
signed 64-bit arithmetic makes the returned value stand for `n`. (2) The last
instruction of an operator node is `add`, `sub`, `mul` or `sdiv` according to
the tag, its left operand is the value the lowering of the left subtree
returned and its right operand the one the lowering of the right subtree
returned, and after the instructions before it they stand for the values of
the subtrees. (3) A comparison of two such expressions ends in the signed
compare with the matching predicate on these operands, and its result is 1 or
0 as the comparison of the two values holds or not. -/
theorem arithmetic_lowering_correct (cxx : Cxx) (context : CodeGenContext)
    (top : CodeGenBlock) (rest : List CodeGenBlock) (hctx : context.blocks = top :: rest) :
    (∀ (e : ArithExpr) (n : Int), e.value = some n →
      ∃ v c' new, NExpression.codeGen cxx e.toExpression context = .ok (v, c') ∧
        c'.module.insts = context.module.insts ++ new ∧
        (∀ i ∈ new, i.parent = top.block) ∧
        ∀ regs : Registers, ∃ regs', execInsts regs new = some regs' ∧
          v.eval regs' = some n) ∧
    (∀ (l r : ArithExpr) (op : ArithTag) (a b : Int), l.value = some a → r.value = some b →
      ∃ lv rv cl cl' cr cr' c' pre id,
        NExpression.codeGen cxx l.toExpression cl = .ok (lv, cl') ∧
        NExpression.codeGen cxx r.toExpression cr = .ok (rv, cr') ∧
        NExpression.codeGen cxx (ArithExpr.bin l op r).toExpression context =
          .ok (.inst id lv.getType, c') ∧
        c'.module.insts =
          context.module.insts ++ (pre ++ [⟨id, .binop op.opcode lv rv, top.block⟩]) ∧
        ∀ regs : Registers, ∃ regs', execInsts regs pre = some regs' ∧
          lv.eval regs' = some a ∧ rv.eval regs' = some b) ∧
    (∀ (l r : ArithExpr) (t : CmpTag) (a b : Int), l.value = some a → r.value = some b →
      ∃ lv rv cl cl' cr cr' c' pre id,
        NExpression.codeGen cxx l.toExpression cl = .ok (lv, cl') ∧
        NExpression.codeGen cxx r.toExpression cr = .ok (rv, cr') ∧
        NExpression.codeGen cxx
            (.NBinaryOperator l.toExpression t.toToken r.toExpression) context =
          .ok (.inst id .int1, c') ∧
        c'.module.insts =
          context.module.insts ++ (pre ++ [⟨id, .icmp t.predicate lv rv, top.block⟩]) ∧
        ∀ regs : Registers, ∃ regs', execInsts regs pre = some regs' ∧
          lv.eval regs' = some a ∧ rv.eval regs' = some b ∧
          execInsts regs (pre ++ [⟨id, .icmp t.predicate lv rv, top.block⟩]) =
            some ((id, if t.holds a b then 1 else 0) :: regs')) := by
  refine ⟨?_, ?_, ?_⟩
  · intro e n hn
    obtain ⟨v, c', new, h1, -, -, h4, -, h6, h7⟩ := computes_arith cxx e n hn context top rest hctx
    refine ⟨v, c', new, h1, h4, h6, ?_⟩
    intro regs
    obtain ⟨added, ex, -, ev⟩ := h7 regs
    exact ⟨added ++ regs, ex, by simpa using ev [] (by simp)⟩
  · intro l r op a b ha hb
    obtain ⟨lv, rv, c2, pre, e, ⟨cl, cl', cr, cr', el, er⟩, -, -, i2, -, -, x2⟩ :=
      computes_operands cxx _ _ a b (computes_arith cxx l a ha) (computes_arith cxx r b hb)
        context top rest hctx
    refine ⟨lv, rv, cl, cl', cr, cr', (c2.emit top.block (.binop op.opcode lv rv)).2, pre,
      c2.fresh, el, er, ?_, ?_, ?_⟩
    · simp only [ArithExpr.toExpression, NExpression.codeGen, NBinaryOperator.codeGen,
        arithOf_toToken, e]
      rfl
    · simp [CodeGenContext.emit, i2, List.append_assoc]
    · intro regs
      obtain ⟨added, ex, -, ev⟩ := x2 regs
      have ev0 := ev [] (by simp)
      exact ⟨added ++ regs, ex, by simpa using ev0.1, by simpa using ev0.2⟩
  · intro l r t a b ha hb
    obtain ⟨lv, rv, c2, pre, e, ⟨cl, cl', cr, cr', el, er⟩, -, -, i2, -, -, x2⟩ :=
      computes_operands cxx _ _ a b (computes_arith cxx l a ha) (computes_arith cxx r b hb)
        context top rest hctx
    refine ⟨lv, rv, cl, cl', cr, cr', (c2.emit top.block (.icmp t.predicate lv rv)).2, pre,
      c2.fresh, el, er, ?_, ?_, ?_⟩
    · simp only [NExpression.codeGen, NBinaryOperator.codeGen, arithOf_cmp, predOf_toToken, e]
      rfl
    · simp [CodeGenContext.emit, i2, List.append_assoc]
    · intro regs
      obtain ⟨added, ex, -, ev⟩ := x2 regs
      have ev0 := ev [] (by simp)
      simp only [List.nil_append] at ev0
      refine ⟨added ++ regs, ex, ev0.1, ev0.2, ?_⟩
      rw [execInsts_append, ex]
      simp [execInsts, Instruction.exec, ev0.1, ev0.2, predicate_eval]

/-- C8, on the tree of `2 + 3 * 4` in the sample context: it has the value 14,
it is lowered to a `mul` and an `add`, and executing them gives 14 for the
returned value. -/
theorem arithmetic_lowering_correct_witness :
    sampleSum.value = some 14 ∧
    NExpression.codeGen firstToLast sampleSum.toExpression sampleContext =
      .ok (.inst 3 .int64,
        { sampleContext with
          module := { sampleContext.module with
                      insts := [⟨2, .binop .Mul (.constInt .int64 3) (.constInt .int64 4),
                                  sampleEntry⟩,
                                ⟨3, .binop .Add (.constInt .int64 2) (.inst 2 .int64),
                                  sampleEntry⟩] }
          fresh := 4 }) ∧
    execInsts [] [⟨2, .binop .Mul (.constInt .int64 3) (.constInt .int64 4), sampleEntry⟩,
                  ⟨3, .binop .Add (.constInt .int64 2) (.inst 2 .int64), sampleEntry⟩] =
      some [(3, 14), (2, 12)] ∧
    ∃ v c' new, NExpression.codeGen firstToLast sampleSum.toExpression sampleContext =
        .ok (v, c') ∧
      c'.module.insts = sampleContext.module.insts ++ new ∧
      (∀ i ∈ new, i.parent = sampleEntry) ∧
      ∀ regs : Registers, ∃ regs', execInsts regs new = some regs' ∧
        v.eval regs' = some 14 :=
  ⟨by decide, rfl, by decide,
   (arithmetic_lowering_correct firstToLast sampleContext ⟨sampleEntry, .null, [], []⟩ [] rfl).1
     sampleSum 14 (by decide)⟩

/-- C9 (the code at the failing input): `f() + g()` in a context where both
functions are declared. With arguments evaluated first to last the stream
gets the call of `f`, the call of `g`, the `add`; with arguments evaluated
last to first it gets the call of `g` before the call of `f`. The operands of
the `add` are the result of `f` on the left and of `g` on the right in both. -/
theorem operand_order_follows_compiler :
    (NExpression.codeGen firstToLast
        (.NBinaryOperator (.NMethodCall "f" .nil) .PLUS (.NMethodCall "g" .nil)) sampleCalls).map
      (fun r => r.2.module.insts.drop 1) =
      .ok [⟨5, .call (some sampleF) [], sampleEntry⟩,
           ⟨6, .call (some sampleG) [], sampleEntry⟩,
           ⟨7, .binop .Add (.inst 5 .int64) (.inst 6 .int64), sampleEntry⟩] ∧
    (NExpression.codeGen lastToFirst
        (.NBinaryOperator (.NMethodCall "f" .nil) .PLUS (.NMethodCall "g" .nil)) sampleCalls).map
      (fun r => r.2.module.insts.drop 1) =
      .ok [⟨5, .call (some sampleG) [], sampleEntry⟩,
           ⟨6, .call (some sampleF) [], sampleEntry⟩,
           ⟨7, .binop .Add (.inst 6 .int64) (.inst 5 .int64), sampleEntry⟩] :=
  ⟨rfl, rfl⟩

/-- C10 (the code at the failing input): `x += f()` in a context where `x` and
`f` are declared. With arguments evaluated first to last the stream gets the
load of `x`, the call, the `add`, the store; with arguments evaluated last to
first the call comes before the load of `x`. In both the `add` has the loaded
value on the left, and the store goes to the handle that was loaded. -/
theorem compound_assignment_order_follows_compiler :
    (NExpression.codeGen firstToLast
        (.NAssignment "x" .PLUSASN (.NMethodCall "f" .nil)) sampleCalls).map
      (fun r => r.2.module.insts.drop 1) =
      .ok [⟨5, .load .int64 (.inst 4 (.ptr .int64)) "x", sampleEntry⟩,
           ⟨6, .call (some sampleF) [], sampleEntry⟩,
           ⟨7, .binop .Add (.inst 5 .int64) (.inst 6 .int64), sampleEntry⟩,
           ⟨8, .store (.inst 7 .int64) (.inst 4 (.ptr .int64)), sampleEntry⟩] ∧
    (NExpression.codeGen lastToFirst
        (.NAssignment "x" .PLUSASN (.NMethodCall "f" .nil)) sampleCalls).map
      (fun r => r.2.module.insts.drop 1) =
      .ok [⟨5, .call (some sampleF) [], sampleEntry⟩,
           ⟨6, .load .int64 (.inst 4 (.ptr .int64)) "x", sampleEntry⟩,
           ⟨7, .binop .Add (.inst 6 .int64) (.inst 5 .int64), sampleEntry⟩,
           ⟨8, .store (.inst 7 .int64) (.inst 4 (.ptr .int64)), sampleEntry⟩] :=
  ⟨rfl, rfl⟩

/-! ### Declarations with initializer, functions with branches -/

/-- C11 (the code at the failing input): `int x = 1;` in the sample context,
when the uninitialised member `op` of the assignment object reads as the tag
`PLUSASN`. After the allocation the lowering loads the new slot, adds the
initializer to the loaded value and stores the sum. -/
theorem initializer_with_leftover_tag :
    NStatement.codeGen leavesPlusAsn (.NVariableDeclaration "int" "x" (.ptr (.NInteger 1)))
        sampleContext =
      .ok (.inst 2 (.ptr .int64),
        { blocks := [⟨sampleEntry, .null, [("x", .inst 2 (.ptr .int64))], [("x", .int64)]⟩]
          module := ⟨[sampleMain], [sampleEntry],
            [⟨2, .alloca .int64 "x", sampleEntry⟩,
             ⟨3, .load .int64 (.inst 2 (.ptr .int64)) "x", sampleEntry⟩,
             ⟨4, .binop .Add (.inst 3 .int64) (.constInt .int64 1), sampleEntry⟩,
             ⟨5, .store (.inst 4 .int64) (.inst 2 (.ptr .int64)), sampleEntry⟩], []⟩
          mainFunction := some sampleMain
          cerr := []
          fresh := 6 }) := by
  decide!

/-- C12 (the code at the failing input): the program consisting of
`int h() { if (1 == 1) { return 7; } else { return 9; } }`, lowered by
`generateCode` from the initial context. Nothing is reported. The entry block
of `h` holds a conditional branch followed by a return, the `else` block a
branch followed by the return of `main`, and neither the `continue` block nor
the entry block of `main` holds any instruction. -/
theorem blocks_of_function_with_conditional :
    (CodeGenContext.generateCode firstToLast (.cons sampleBranchFunction .nil)
        CodeGenContext.initial).map
      (fun r => (r.2.cerr, r.2.module.layout,
        r.2.module.insts.map (fun i => (i.parent.name, i.parent.parent.name, i.kind)))) =
      .ok ([], [sampleEntry, sampleHEntry, sampleHThen, sampleHElse, sampleHContinue],
        [("entry", "h", .icmp .ICMP_EQ (.constInt .int64 1) (.constInt .int64 1)),
         ("entry", "h", .condBr sampleHThen sampleHElse (.inst 7 .int1)),
         ("then", "h", .br sampleHContinue),
         ("else", "h", .br sampleHContinue),
         ("entry", "h", .ret .null),
         ("else", "h", .ret .null)]) := by
  decide!

/-- C13 (the code at the failing input): the declaration of
`int h() { if (1 == 1) { return 7; } else { return 9; } }` lowered in the
sample context, whose stack holds one scope on the entry block of `main`.
Afterwards the stack holds four scopes, and the current block is the `else`
block of `h`. -/
theorem stack_after_function_with_conditional :
    sampleContext.blocks.map (fun s => s.block) = [sampleEntry] ∧
    (NStatement.codeGen firstToLast sampleBranchFunction sampleContext).map
      (fun r => r.2.blocks.map (fun s => s.block)) =
      .ok [sampleHElse, sampleHThen, sampleHEntry, sampleEntry] :=
  ⟨rfl, by decide!⟩

/-- C15 (the code at the failing input): the declaration of
`int h() { if (1 == 1) { return 7; } else { return 9; } }` lowered in the
sample context. The two return statements set the return slots of the `then`
scope and of the `else` scope; the function lowerer reads the slot of the top
scope, which is the `continue` scope and is unset, so the one return
instruction it creates returns nothing. -/
theorem return_of_function_with_conditional :
    (NStatement.codeGen firstToLast sampleBranchFunction sampleContext).map
      (fun r => (r.2.module.insts.filter (fun i => i.kind.isTerminator),
        r.2.blocks.map (fun s => (s.block, s.returnValue)))) =
      .ok ([⟨8, .condBr sampleHThen sampleHElse (.inst 7 .int1), sampleHEntry⟩,
            ⟨9, .br sampleHContinue, sampleHThen⟩,
            ⟨10, .br sampleHContinue, sampleHElse⟩,
            ⟨11, .ret .null, sampleHEntry⟩],
           [(sampleHElse, .constInt .int64 9), (sampleHThen, .constInt .int64 7),
            (sampleHEntry, .null), (sampleEntry, .null)]) := by
  decide!

/-! ### String literals -/

theorem scan_closing (last : Nat) (hlast : last ≠ 110) :
    ∀ (n : Nat) (contents : List Nat), contents.length ≤ n →
      NString.scan (contents ++ [last]) = unescape contents := by
  intro n
  induction n with
  | zero =>
    intro contents h
    have : contents = [] := List.length_eq_zero.mp (Nat.le_zero.mp h)
    subst this
    simp [NString.scan, unescape]
  | succ n ih =>
    intro contents h
    match contents, h with
    | [], _ => simp [NString.scan, unescape]
    | [c], _ => simp [NString.scan, unescape, hlast]
    | c :: d :: rest, h =>
      have h1 : rest.length ≤ n := by simp at h; omega
      have h2 : (d :: rest).length ≤ n := by simp at h ⊢; omega
      have e1 := ih rest h1
      have e2 := ih (d :: rest) h2
      simp only [List.cons_append] at e2 ⊢
      simp only [NString.scan, unescape, e1, e2]

theorem unescape_bytes : ∀ (n : Nat) (contents : List Nat), contents.length ≤ n →
    (∀ b ∈ contents, b < 256) → ∀ b ∈ unescape contents, b < 256 := by
  intro n
  induction n with
  | zero =>
    intro contents h _ b hb
    have : contents = [] := List.length_eq_zero.mp (Nat.le_zero.mp h)
    subst this
    simp [unescape] at hb
  | succ n ih =>
    intro contents h hlt b hb
    match contents, h, hlt, hb with
    | [], _, _, hb => simp [unescape] at hb
    | [c], _, hlt, hb =>
      simp only [unescape, List.mem_singleton] at hb
      subst hb
      exact hlt _ (by simp)
    | c :: d :: rest, h, hlt, hb =>
      simp only [unescape] at hb
      split at hb
      · rcases List.mem_cons.mp hb with rfl | hb
        · decide
        · exact ih rest (by simp at h; omega) (fun x hx => hlt x (by simp [hx])) b hb
      · rcases List.mem_cons.mp hb with rfl | hb
        · exact hlt _ (by simp)
        · exact ih (d :: rest) (by simp at h ⊢; omega) (fun x hx => hlt x (by simp [hx])) b hb

theorem stringBytes_of_bytes (chars : List Nat) (h : ∀ b ∈ chars, b < 256) :
    stringBytes chars = chars ++ [0] := by
  simp only [stringBytes, List.append_cancel_right_eq]
  induction chars with
  | nil => rfl
  | cons c rest ih =>
    simp only [List.map_cons, List.cons.injEq]
    exact ⟨Nat.mod_eq_of_lt (h c (by simp)), ih (fun b hb => h b (by simp [hb]))⟩
/-- C16: a raw string literal whose bytes are `first :: contents ++ [last]`,
where `last`, the closing quote, is any byte other than the letter `n` (110).
The lowering does not fault; it adds one global whose bytes are the unescaped
contents, byte for byte, followed by exactly one NUL byte, and returns the
pointer to it. The contents are the raw text without its first and its last
byte, and the unescaping sees nothing else: a backslash at the end of the
contents is copied, and the closing quote is neither copied nor taken as part
of an escape. A character of several bytes is copied as its bytes: when the
contents are bytes (numbers below 256), the bytes of the global are the
unescaped contents themselves, then the NUL byte. -/
theorem string_literal_bytes (first last : Nat) (contents : List Nat)
    (hlast : last ≠ 110) (context : CodeGenContext) :
    NString.codeGen (first :: (contents ++ [last])) context =
      .ok (.bitcast context.fresh (.ptr .int8),
        { context with
          module := { context.module with
                      globals := context.module.globals ++
                        [⟨context.fresh, ".str", stringBytes (unescape contents)⟩] }
          fresh := context.fresh + 1 }) ∧
    ((∀ b ∈ contents, b < 256) → stringBytes (unescape contents) = unescape contents ++ [0]) := by
  refine ⟨?_, fun h => stringBytes_of_bytes _
    (unescape_bytes contents.length contents (le_refl _) h)⟩
  simp only [NString.codeGen, stringBytes,
    scan_closing last hlast contents.length contents (le_refl _)]

/-- C16, on the literals `"a\nb"`, `"a\t"`, `"a\"` and `"é"` (written with
their quotes, byte 34; `a` is 97, `b` 98, `t` 116, and `é` is the two bytes
195, 169): the escape becomes one newline byte, the other backslashes are
copied, also the one right before the closing quote, and the two bytes of `é`
are copied. -/
theorem string_literal_bytes_witness :
    (34 : Nat) ≠ 110 ∧
    NString.codeGen (34 :: ([97, 92, 110, 98] ++ [34])) sampleContext =
      .ok (.bitcast sampleContext.fresh (.ptr .int8),
        { sampleContext with
          module := { sampleContext.module with
                      globals := sampleContext.module.globals ++
                        [⟨sampleContext.fresh, ".str", stringBytes (unescape [97, 92, 110, 98])⟩] }
          fresh := sampleContext.fresh + 1 }) ∧
    stringBytes (unescape [97, 92, 110, 98]) = [97, 10, 98, 0] ∧
    stringBytes (unescape [97, 92, 116]) = [97, 92, 116, 0] ∧
    stringBytes (unescape [97, 92]) = [97, 92, 0] ∧
    NString.codeGen [34, 97, 92, 34] sampleContext =
      .ok (.bitcast 2 (.ptr .int8),
        { sampleContext with
          module := { sampleContext.module with globals := [⟨2, ".str", [97, 92, 0]⟩] }
          fresh := 3 }) ∧
    NString.codeGen [34, 195, 169, 34] sampleContext =
      .ok (.bitcast 2 (.ptr .int8),
        { sampleContext with
          module := { sampleContext.module with globals := [⟨2, ".str", [195, 169, 0]⟩] }
          fresh := 3 }) ∧
    stringBytes (unescape [195, 169]) = unescape [195, 169] ++ [0] :=
  ⟨by decide,
   (string_literal_bytes 34 34 [97, 92, 110, 98] (by decide) sampleContext).1,
   by decide, by decide, by decide,
   (string_literal_bytes 34 34 [97, 92] (by decide) sampleContext).1,
   (string_literal_bytes 34 34 [195, 169] (by decide) sampleContext).1,
   (string_literal_bytes 34 34 [195, 169] (by decide) sampleContext).2 (by decide)⟩

/-! ### Loops and conditionals -/

theorem sameLocals_top {bs bs' : List CodeGenBlock} (h : sameLocals bs bs')
    (top : CodeGenBlock) (rest : List CodeGenBlock) (hb : bs = top :: rest) :
    ∃ top' rest', bs' = top' :: rest' ∧ top'.block = top.block ∧ sameLocals rest rest' := by
  subst hb
  cases bs' with
  | nil => simp [sameLocals] at h
  | cons top' rest' =>
    obtain ⟨hk, hr⟩ := sameLocals_cons.mp h
    simp only [CodeGenBlock.key, Prod.mk.injEq] at hk
    exact ⟨top', rest', rfl, hk.1.symm, hr⟩

/-- A conditional branch on a block-free condition: the condition's
instructions, then the branch, in the block of the top scope, in either order
of argument evaluation. -/
theorem branchOn_blockFree (cxx : Cxx) (condition : NExpression)
    (hfree : condition.blockFree = true) (c c1 : CodeGenContext) (top : CodeGenBlock)
    (rest : List CodeGenBlock) (hc : c.blocks = top :: rest) (v : Value)
    (h : NExpression.codeGen cxx condition c = .ok (v, c1)) (ifTrue ifFalse : BasicBlock) :
    branchOn cxx ifTrue ifFalse (NExpression.codeGen cxx condition) c =
      .ok ((), (c1.emit top.block (.condBr ifTrue ifFalse v)).2) := by
  have hs := frame_NExpression cxx condition hfree c v c1 trivial h
  obtain ⟨top1, rest1, hb1, ht1, -⟩ := sameLocals_top hs top rest hc
  have hcur : CodeGenContext.currentBlock c = .ok (top.block, c) := by
    simp [CodeGenContext.currentBlock, hc]
  have hcur1 : CodeGenContext.currentBlock c1 = .ok (top.block, c1) := by
    simp [CodeGenContext.currentBlock, hb1, ht1]
  cases hrl : cxx.rightToLeft <;> simp [branchOn, Cxx.args2, hrl, hcur, hcur1, h]

theorem createBlockHere_top (name : String) (c : CodeGenContext) (top : CodeGenBlock)
    (rest : List CodeGenBlock) (hc : c.blocks = top :: rest) :
    createBlockHere name c = .ok (c.createBlock name top.block.parent) := by
  simp [createBlockHere, currentFunction, CodeGenContext.currentBlock, hc]

theorem branchTo_top (dest : BasicBlock) (c : CodeGenContext) (top : CodeGenBlock)
    (rest : List CodeGenBlock) (hc : c.blocks = top :: rest) :
    branchTo dest c = .ok ((), (c.emit top.block (.br dest)).2) := by
  simp [branchTo, CodeGenContext.currentBlock, hc]

theorem moveAndPush_top (x : BasicBlock) (c : CodeGenContext) (top : CodeGenBlock)
    (rest : List CodeGenBlock) (hc : c.blocks = top :: rest) :
    moveAndPush x c = .ok ((), (moveAfter c x top.block).pushBlock x) := by
  simp [moveAndPush, CodeGenContext.currentBlock, hc]

/-! ### What every run of the lowering preserves -/

theorem scopeGrows_refl (s : CodeGenBlock) : ScopeGrows s s := ⟨rfl, fun _ _ h => h⟩

theorem scopeGrows_trans {a b c : CodeGenBlock} (h1 : ScopeGrows a b) (h2 : ScopeGrows b c) :
    ScopeGrows a c :=
  ⟨h2.1.trans h1.1, fun n v h => h2.2 n v (h1.2 n v h)⟩

theorem mono_refl (c : CodeGenContext) : Mono c c :=
  ⟨⟨[], by simp⟩, ⟨[], by simp⟩, ⟨[], by simp⟩, le_refl _⟩

theorem mono_trans {a b c : CodeGenContext} (h1 : Mono a b) (h2 : Mono b c) : Mono a c := by
  obtain ⟨⟨n1, i1⟩, ⟨d1, e1⟩, ⟨f1, g1⟩, l1⟩ := h1
  obtain ⟨⟨n2, i2⟩, ⟨d2, e2⟩, ⟨f2, g2⟩, l2⟩ := h2
  exact ⟨⟨n1 ++ n2, by rw [i2, i1, List.append_assoc]⟩,
    ⟨d1 ++ d2, by rw [e2, e1, List.append_assoc]⟩,
    ⟨f1 ++ f2, by rw [g2, g1, List.append_assoc]⟩, le_trans l1 l2⟩

theorem Mono.cerr_eq {a b c : CodeGenContext} (h1 : Mono a b) (h2 : Mono b c)
    (h : c.cerr = a.cerr) : b.cerr = a.cerr ∧ c.cerr = b.cerr := by
  obtain ⟨-, ⟨d1, e1⟩, -, -⟩ := h1
  obtain ⟨-, ⟨d2, e2⟩, -, -⟩ := h2
  rw [e2, e1, List.append_assoc] at h
  have h' : d1 ++ d2 = [] := by simpa using h
  obtain ⟨hd1, hd2⟩ := List.append_eq_nil.mp h'
  subst hd1; subst hd2
  simp [e1, e2]

theorem Extends.refl (c : CodeGenContext) : Extends 0 c c :=
  ⟨⟨0, rfl, le_refl _, fun _ => rfl⟩, fun _ s h => ⟨s, h, scopeGrows_refl s⟩, mono_refl c⟩

theorem Extends.trans {a b : Nat} {c c' c'' : CodeGenContext} (h1 : Extends a c c')
    (h2 : Extends b c' c'') : Extends (a + b) c c'' := by
  obtain ⟨⟨j1, l1, b1, x1⟩, s1, m1⟩ := h1
  obtain ⟨⟨j2, l2, b2, x2⟩, s2, m2⟩ := h2
  refine ⟨⟨j1 + j2, by omega, by omega, ?_⟩, ?_, mono_trans m1 m2⟩
  · intro h
    obtain ⟨e1, e2⟩ := Mono.cerr_eq m1 m2 h
    rw [x1 e1, x2 e2]
  · intro p s hs
    obtain ⟨s', hs', g1⟩ := s1 p s hs
    obtain ⟨s'', hs'', g2⟩ := s2 p s' hs'
    exact ⟨s'', hs'', scopeGrows_trans g1 g2⟩

/-- A step that changes neither the stack nor the error stream. -/
theorem Extends.quiet {k : Nat} {c c1 c2 : CodeGenContext} (h : Extends k c c1)
    (hb : c2.blocks = c1.blocks) (he : c2.cerr = c1.cerr) (hm : Mono c1 c2) :
    Extends k c c2 := by
  obtain ⟨⟨j, l, b, x⟩, s, m⟩ := h
  exact ⟨⟨j, by rw [hb]; exact l, b, fun h => x (by rw [← he]; exact h)⟩,
    fun p t ht => by rw [hb]; exact s p t ht, mono_trans m hm⟩

theorem mono_emit (c : CodeGenContext) (bb : BasicBlock) (kind : InstKind) :
    Mono c (c.emit bb kind).2 :=
  ⟨⟨_, rfl⟩, ⟨[], by simp [CodeGenContext.emit]⟩, ⟨[], by simp [CodeGenContext.emit]⟩,
    by simp [CodeGenContext.emit]⟩

theorem Extends.emit {k : Nat} {c c1 : CodeGenContext} (h : Extends k c c1) (bb : BasicBlock)
    (kind : InstKind) : Extends k c (c1.emit bb kind).2 :=
  h.quiet rfl rfl (mono_emit c1 bb kind)

/-- A step that reports something: any bound holds, and nothing is claimed
about a run without reports. -/
theorem Extends.reported {c c1 : CodeGenContext} (k : Nat) (hb : c1.blocks = c.blocks)
    (hm : Mono c c1) (hne : c1.cerr ≠ c.cerr) : Extends k c c1 :=
  ⟨⟨0, by rw [hb]; rfl, Nat.zero_le _, fun h => absurd h hne⟩,
    fun p s hs => ⟨s, by rw [hb]; exact hs, scopeGrows_refl s⟩, hm⟩

theorem mono_report (c : CodeGenContext) (d : Diag) : Mono c (c.report d) :=
  ⟨⟨[], by simp [CodeGenContext.report]⟩, ⟨[d], rfl⟩, ⟨[], by simp [CodeGenContext.report]⟩,
    le_refl _⟩

theorem report_cerr_ne (c : CodeGenContext) (d : Diag) : (c.report d).cerr ≠ c.cerr := by
  simp [CodeGenContext.report]

/-- After a report, a bound on the steps that follow is a bound on the whole. -/
theorem Extends.after_report {k : Nat} {c c' : CodeGenContext} (d : Diag)
    (h : Extends k (c.report d) c') : Extends k c c' := by
  obtain ⟨⟨j, l, b, -⟩, s, m⟩ := h
  refine ⟨⟨j, l, b, ?_⟩, s, mono_trans (mono_report c d) m⟩
  intro he
  have := (Mono.cerr_eq (mono_report c d) m he).1
  exact absurd this (report_cerr_ne c d)

theorem scopeAt_lt (bs : List CodeGenBlock) (p : ScopeRef) (s : CodeGenBlock)
    (h : scopeAt bs p = some s) : p < bs.length := by
  induction bs with
  | nil => simp [scopeAt] at h
  | cons a t ih =>
    by_cases hp : t.length = p
    · simp [← hp]
    · simp only [scopeAt, hp, ↓reduceIte] at h
      exact Nat.lt_succ_of_lt (ih h)

theorem length_setScopeAt (bs : List CodeGenBlock) (p : ScopeRef) (s : CodeGenBlock) :
    (setScopeAt bs p s).length = bs.length := by
  induction bs with
  | nil => rfl
  | cons a t ih =>
    by_cases hp : t.length = p
    · simp [setScopeAt, hp]
    · simp [setScopeAt, hp, ih]

theorem scopeAt_setScopeAt (bs : List CodeGenBlock) (p q : ScopeRef) (s s' t : CodeGenBlock)
    (hs : scopeAt bs p = some s) (hq : scopeAt bs q = some t) :
    scopeAt (setScopeAt bs p s') q = some (if q = p then s' else t) := by
  induction bs with
  | nil => simp [scopeAt] at hs
  | cons a r ih =>
    by_cases hp : r.length = p
    · by_cases hqq : r.length = q
      · have : q = p := hqq.symm.trans hp
        simp [setScopeAt, scopeAt, hp, this]
      · have hne : q ≠ p := fun h => hqq (hp.trans h.symm)
        have hne' : p ≠ q := Ne.symm hne
        simp only [scopeAt, hqq, ↓reduceIte] at hq
        simp [setScopeAt, scopeAt, hp, hqq, hne, hne', hq]
    · simp only [scopeAt, hp, ↓reduceIte] at hs
      by_cases hqq : r.length = q
      · have hne : q ≠ p := fun h => hp (hqq.trans h)
        simp only [scopeAt, hqq, ↓reduceIte, Option.some.injEq] at hq
        simp [setScopeAt, scopeAt, hp, length_setScopeAt, hqq, hne, hq]
      · simp only [scopeAt, hqq, ↓reduceIte] at hq
        simp only [setScopeAt, hp, ↓reduceIte, scopeAt, length_setScopeAt, hqq]
        exact ih hs hq

/-- Replacing a scope by a grown one. -/
theorem extends_setScope (c : CodeGenContext) (p : ScopeRef) (s s' : CodeGenBlock)
    (hs : scopeAt c.blocks p = some s) (hg : ScopeGrows s s') :
    Extends 0 c { c with blocks := setScopeAt c.blocks p s' } := by
  refine ⟨⟨0, by simp [length_setScopeAt], le_refl _, fun _ => rfl⟩, ?_, mono_refl c⟩
  intro q t ht
  refine ⟨_, scopeAt_setScopeAt c.blocks p q s s' t hs ht, ?_⟩
  by_cases hqp : q = p
  · subst hqp
    rw [hs] at ht
    cases ht
    simpa using hg
  · simpa [hqp] using scopeGrows_refl t

/-- Replacing the top scope by a grown one. -/
theorem extends_top (c : CodeGenContext) (b b' : CodeGenBlock) (rest : List CodeGenBlock)
    (hc : c.blocks = b :: rest) (hg : ScopeGrows b b') :
    Extends 0 c { c with blocks := b' :: rest } := by
  have := extends_setScope c rest.length b b' (by simp [hc, scopeAt]) hg
  simpa [hc, setScopeAt] using this

theorem index_grows_locals (s : CodeGenBlock) (name : String) (d : Value) :
    ScopeGrows s { s with locals := (s.locals.index name d).2 } := by
  refine ⟨rfl, ?_⟩
  intro n v h
  simp only [StdMap.index]
  cases hf : s.locals.find name with
  | some w => simpa using h
  | none =>
    have hne : name ≠ n := by
      intro e; subst e; rw [hf] at h; cases h
    simpa [StdMap.find_set_ne _ _ _ _ hne] using h

theorem grows_ltypes (s : CodeGenBlock) (m : StdMap IRType) :
    ScopeGrows s { s with ltypes := m } := ⟨rfl, fun _ _ h => h⟩

theorem grows_returnValue (s : CodeGenBlock) (v : Value) :
    ScopeGrows s { s with returnValue := v } := ⟨rfl, fun _ _ h => h⟩

theorem tracks_currentBlock : Tracks 0 CodeGenContext.currentBlock := by
  intro c v c' h
  simp only [CodeGenContext.currentBlock] at h
  split at h
  · cases h
  · cases h; exact Extends.refl c

theorem tracks_getCurrentReturnValue : Tracks 0 CodeGenContext.getCurrentReturnValue := by
  intro c v c' h
  simp only [CodeGenContext.getCurrentReturnValue] at h
  split at h
  · cases h
  · cases h; exact Extends.refl c

theorem tracks_setCurrentReturnValue (value : Value) :
    Tracks 0 (CodeGenContext.setCurrentReturnValue value) := by
  intro c v c' h
  simp only [CodeGenContext.setCurrentReturnValue] at h
  split at h
  · cases h
  · rename_i b rest hb
    cases h
    exact extends_top c b _ rest hb (grows_returnValue b value)

theorem tracks_localsAt (p : ScopeRef) (name : String) : Tracks 0 (localsAt p name) := by
  intro c v c' h
  simp only [localsAt] at h
  split at h
  · cases h
  · rename_i s hs
    cases h
    exact extends_setScope c p s _ hs (index_grows_locals s name .null)

theorem tracks_ltypesAt (p : ScopeRef) (name : String) : Tracks 0 (ltypesAt p name) := by
  intro c v c' h
  simp only [ltypesAt] at h
  split at h
  · cases h
  · rename_i s hs
    cases h
    exact extends_setScope c p s _ hs (grows_ltypes s _)

theorem tracks_topLocals (name : String) : Tracks 0 (topLocals name) := by
  intro c v c' h
  simp only [topLocals] at h
  split at h
  · cases h
  · rename_i b rest hb
    cases h
    exact extends_top c b _ rest hb (index_grows_locals b name .null)

theorem tracks_topLtypes (name : String) : Tracks 0 (topLtypes name) := by
  intro c v c' h
  simp only [topLtypes] at h
  split at h
  · cases h
  · rename_i b rest hb
    cases h
    exact extends_top c b _ rest hb (grows_ltypes b _)

theorem tracks_args2 {α β : Type} (cxx : Cxx) {a b : Nat} {ga : Gen α} {gb : Gen β}
    (ha : Tracks a ga) (hb : Tracks b gb) : Tracks (a + b) (cxx.args2 ga gb) := by
  intro c v c' h
  simp only [Cxx.args2] at h
  split at h
  · split at h
    · cases h
    · rename_i y c1 h1
      split at h
      · cases h
      · rename_i x c2 h2
        cases h
        rw [Nat.add_comm]
        exact (hb _ _ _ h1).trans (ha _ _ _ h2)
  · split at h
    · cases h
    · rename_i x c1 h1
      split at h
      · cases h
      · rename_i y c2 h2
        cases h
        exact (ha _ _ _ h1).trans (hb _ _ _ h2)

theorem tracks_args3 {α β γ : Type} (cxx : Cxx) {a b d : Nat} {ga : Gen α} {gb : Gen β}
    {gd : Gen γ} (ha : Tracks a ga) (hb : Tracks b gb) (hd : Tracks d gd) :
    Tracks (a + b + d) (cxx.args3 ga gb gd) := by
  intro c v c' h
  simp only [Cxx.args3] at h
  split at h
  · split at h
    · cases h
    · rename_i z c1 h1
      split at h
      · cases h
      · rename_i y c2 h2
        split at h
        · cases h
        · rename_i x c3 h3
          cases h
          have := ((hd _ _ _ h1).trans (hb _ _ _ h2)).trans (ha _ _ _ h3)
          have e : d + b + a = a + b + d := by omega
          rw [e] at this
          exact this
  · split at h
    · cases h
    · rename_i x c1 h1
      split at h
      · cases h
      · rename_i y c2 h2
        split at h
        · cases h
        · rename_i z c3 h3
          cases h
          exact ((ha _ _ _ h1).trans (hb _ _ _ h2)).trans (hd _ _ _ h3)

theorem tracks_pure {α : Type} (g : Gen α) (h : ∀ c v c', g c = .ok (v, c') → c' = c) :
    Tracks 0 g := by
  intro c v c' hg
  rw [h c v c' hg]
  exact Extends.refl c

theorem tracks_NString (value : List Nat) : Tracks 0 (NString.codeGen value) := by
  intro c v c' h
  simp only [NString.codeGen] at h
  split at h
  · cases h
  · cases h
    exact (Extends.refl c).quiet rfl rfl
      ⟨⟨[], by simp⟩, ⟨[], by simp⟩, ⟨[], by simp⟩, Nat.le_succ _⟩

theorem tracks_NIdentifier (name : String) : Tracks 0 (NIdentifier.codeGen name) := by
  intro c v c' h
  simp only [NIdentifier.codeGen, findLocals_snd] at h
  split at h
  · cases h
    exact Extends.reported 0 rfl (mono_report c _) (report_cerr_ne c _)
  · rename_i b hb
    split at h
    · cases h
    · rename_i ty c1 h1
      split at h
      · cases h
      · rename_i handle c2 h2
        split at h
        · cases h
        · rename_i bb c3 h3
          cases h
          exact (((tracks_ltypesAt b name _ _ _ h1).trans (tracks_localsAt b name _ _ _ h2)).trans
            (tracks_currentBlock _ _ _ h3)).emit _ _

theorem tracks_NMethodCall (id : String) {k : Nat} {arguments : Gen (List Value)}
    (ha : Tracks k arguments) : Tracks k (NMethodCall.codeGen id arguments) := by
  intro c v c' h
  simp only [NMethodCall.codeGen] at h
  split at h
  · cases h
  · rename_i args c1 h1
    have s1 : Extends k c c1 := by
      by_cases hf : c.module.getFunction id = none
      · simp only [hf, ↓reduceIte] at h1
        exact (ha _ _ _ h1).after_report _
      · simp only [hf, ↓reduceIte] at h1
        exact ha _ _ _ h1
    split at h
    · cases h
    · rename_i bb c2 h2
      cases h
      exact (s1.trans (tracks_currentBlock _ _ _ h2)).emit _ _

theorem tracks_storeItems (itemType : IRType) (alloc : Value) (items : List Value) :
    ∀ i, Tracks 0 (NArray.storeItems itemType alloc i items) := by
  induction items with
  | nil =>
    intro i c v c' h
    simp only [NArray.storeItems] at h
    cases h
    exact Extends.refl c
  | cons x rest ih =>
    intro i c v c' h
    simp only [NArray.storeItems] at h
    split at h
    · cases h
    · rename_i bb c1 h1
      split at h
      · cases h
      · rename_i bb2 c2 h2
        have e1 := (tracks_currentBlock _ _ _ h1).emit bb (.gep itemType alloc [.constInt .int64 i])
        have e2 := (e1.trans (tracks_currentBlock _ _ _ h2)).emit bb2
          (.store x (c1.emit bb (.gep itemType alloc [.constInt .int64 i])).1)
        exact e2.trans (ih (i + 1) _ _ _ h)

theorem tracks_NArray {k : Nat} {items : Gen (List Value)} (hi : Tracks k items) :
    Tracks k (NArray.codeGen items) := by
  intro c v c' h
  simp only [NArray.codeGen] at h
  split at h
  · cases h
  · rename_i arr c1 h1
    split at h
    · cases h
    · rename_i itemType hit
      split at h
      · cases h
      · rename_i bb c2 h2
        split at h
        · cases h
        · rename_i u c3 h3
          cases h
          have e1 := ((hi _ _ _ h1).trans (tracks_currentBlock _ _ _ h2)).emit bb
            (.alloca (.array itemType arr.length) "")
          exact e1.trans (tracks_storeItems _ _ _ _ _ _ _ h3)

theorem tracks_arrayElementAddress (b : Option ScopeRef) (arr : String) {k : Nat}
    {index : Gen Value} (hi : Tracks k index) : Tracks k (arrayElementAddress b arr index) := by
  intro c v c' h
  simp only [arrayElementAddress] at h
  split at h
  · cases h
  · rename_i p
    split at h
    · cases h
    · rename_i ty c1 h1
      split at h
      · cases h
      · rename_i handle c2 h2
        split at h
        · cases h
        · rename_i bb c3 h3
          split at h
          · cases h
          · rename_i idx c4 h4
            split at h
            · cases h
            · rename_i ty2 c5 h5
              split at h
              · cases h
              · rename_i bb2 c6 h6
                cases h
                have e1 := (((tracks_ltypesAt p arr _ _ _ h1).trans
                  (tracks_localsAt p arr _ _ _ h2)).trans
                  (tracks_currentBlock _ _ _ h3)).emit bb (.load (.ptr ty) handle arr)
                have e2 := ((e1.trans (hi _ _ _ h4)).trans (tracks_ltypesAt p arr _ _ _ h5)).trans
                  (tracks_currentBlock _ _ _ h6)
                simpa using e2.emit bb2 _

theorem tracks_NArrayRead (arr : String) {k : Nat} {index : Gen Value} (hi : Tracks k index) :
    Tracks k (NArrayRead.codeGen arr index) := by
  intro c v c' h
  simp only [NArrayRead.codeGen, findLocals_snd] at h
  split at h
  · cases h
  · rename_i g b c1 h1
    split at h
    · cases h
    · rename_i ty c2 h2
      split at h
      · cases h
      · rename_i bb c3 h3
        cases h
        have e := ((tracks_arrayElementAddress _ arr hi _ _ _ h1).trans
          (tracks_ltypesAt b arr _ _ _ h2)).trans (tracks_currentBlock _ _ _ h3)
        simpa using e.emit bb _

theorem tracks_then_emit2 (cxx : Cxx) {k : Nat} {g : Gen Value} (hg : Tracks k g)
    (kind : Value → InstKind) :
    Tracks k (fun c =>
      match cxx.args2 g CodeGenContext.currentBlock c with
      | .error f => .error f
      | .ok ((v, bb), c1) => .ok (c1.emit bb (kind v))) := by
  intro c v c' h
  simp only at h
  split at h
  · cases h
  · rename_i w bb c1 h1
    cases h
    simpa using (tracks_args2 cxx hg tracks_currentBlock _ _ _ h1).emit bb _

theorem tracks_NArrayWrite (cxx : Cxx) (arr : String) {a b : Nat} {index : Gen Value}
    (hi : Tracks a index) (op : Token) {assignment : Gen Value} (ha : Tracks b assignment) :
    Tracks (a + b) (NArrayWrite.codeGen cxx arr index op assignment) := by
  intro c v c' h
  simp only [NArrayWrite.codeGen, findLocals_snd] at h
  split at h
  · cases h
  · rename_i g sref c1 h1
    have e1 := tracks_arrayElementAddress _ arr hi _ _ _ h1
    split at h
    · have e2 := tracks_then_emit2 cxx ha (fun v => .store v g) _ _ _ h
      exact e1.trans e2
    · rename_i instr _
      split at h
      · cases h
      · rename_i ty c2 h2
        split at h
        · cases h
        · rename_i bb c3 h3
          have e3 := ((e1.trans (tracks_ltypesAt sref arr _ _ _ h2)).trans
            (tracks_currentBlock _ _ _ h3)).emit bb (.load ty g "")
          have hcreate := tracks_then_emit2 cxx ha
            (fun v => .binop instr (c3.emit bb (.load ty g "")).1 v)
          have e4 := tracks_then_emit2 cxx hcreate (fun r => .store r g) _ _ _ h
          simpa using e3.trans e4

theorem tracks_NBinaryOperator (cxx : Cxx) {a b : Nat} {lhs rhs : Gen Value}
    (hl : Tracks a lhs) (op : Token) (hr : Tracks b rhs) :
    Tracks (if (arithOf op).isSome || (predOf op).isSome then a + b else 0)
      (NBinaryOperator.codeGen cxx lhs op rhs) := by
  intro c v c' h
  simp only [NBinaryOperator.codeGen] at h
  split at h
  · rename_i instr hi
    simp only [hi, Option.isSome_some, Bool.true_or, ↓reduceIte]
    split at h
    · cases h
    · rename_i l r bb c1 h1
      cases h
      simpa using (tracks_args3 cxx hl hr tracks_currentBlock _ _ _ h1).emit bb _
  · rename_i hi
    split at h
    · rename_i pred hp
      simp only [hp, Option.isSome_some, Bool.or_true, ↓reduceIte]
      split at h
      · cases h
      · rename_i l r bb c1 h1
        cases h
        simpa using (tracks_args3 cxx hl hr tracks_currentBlock _ _ _ h1).emit bb _
    · rename_i hp
      simp only [hi, hp, Option.isSome_none, Bool.or_self, Bool.false_eq_true, ↓reduceIte]
      cases h
      exact Extends.refl c

theorem tracks_NUnaryOperator (cxx : Cxx) (op : Token) {k : Nat} {expr : Gen Value}
    (he : Tracks k expr) :
    Tracks (if op = .MINUS ∨ op = .NOT then k else 0) (NUnaryOperator.codeGen cxx op expr) := by
  intro c v c' h
  simp only [NUnaryOperator.codeGen] at h
  split at h
  · simp only [true_or, ↓reduceIte]
    exact tracks_then_emit2 cxx he (fun v => .neg v) _ _ _ h
  · simp only [or_true, ↓reduceIte]
    exact tracks_then_emit2 cxx he (fun v => .not v) _ _ _ h
  · rename_i h1 h2
    have hn : ¬ (op = .MINUS ∨ op = .NOT) := by
      rintro (e | e)
      · exact h1 e
      · exact h2 e
    simp only [hn, ↓reduceIte]
    cases h
    exact Extends.refl c

theorem tracks_NAssignment (cxx : Cxx) (lhs : String) (op : Token) {k : Nat} {rhs : Gen Value}
    (hr : Tracks k rhs) : Tracks k (NAssignment.codeGen cxx lhs op rhs) := by
  intro c v c' h
  simp only [NAssignment.codeGen, findLocals_snd] at h
  split at h
  · cases h
    exact Extends.reported k rfl (mono_report c _) (report_cerr_ne c _)
  · rename_i b hb
    split at h
    · split at h
      · cases h
      · rename_i w handle bb c1 h1
        cases h
        simpa using
          (tracks_args3 cxx hr (tracks_localsAt b lhs) tracks_currentBlock _ _ _ h1).emit bb _
    · rename_i instr hi
      split at h
      · cases h
      · rename_i w handle bb c1 h1
        cases h
        have hcreate : Tracks k (fun c =>
            match cxx.args3 (NIdentifier.codeGen lhs) rhs CodeGenContext.currentBlock c with
            | .error f => .error f
            | .ok ((l, r, bb), c1) => .ok (c1.emit bb (.binop instr l r))) := by
          intro d u d' hd
          simp only at hd
          split at hd
          · cases hd
          · rename_i l r bb2 d1 hd1
            cases hd
            simpa using
              (tracks_args3 cxx (tracks_NIdentifier lhs) hr tracks_currentBlock _ _ _ hd1).emit
                bb2 _
        simpa using
          (tracks_args3 cxx hcreate (tracks_localsAt b lhs) tracks_currentBlock _ _ _ h1).emit
            bb _

theorem tracks_NReturnStatement {k : Nat} {expression : Gen Value} (he : Tracks k expression) :
    Tracks k (NReturnStatement.codeGen expression) := by
  intro c v c' h
  simp only [NReturnStatement.codeGen] at h
  split at h
  · cases h
  · rename_i rv c1 h1
    split at h
    · cases h
    · rename_i u c2 h2
      cases h
      exact (he _ _ _ h1).trans (tracks_setCurrentReturnValue _ _ _ _ h2)

theorem extends_registered (slotTy : IRType → IRType) (type id : String) (c : CodeGenContext)
    (top : CodeGenBlock) (rest : List CodeGenBlock) (hc : c.blocks = top :: rest)
    (hid : top.locals.contains id = false) :
    Extends 0 c (registered slotTy type id c top rest) := by
  have hg : ScopeGrows top
      { top with
        ltypes := top.ltypes.set id (typeOf type).1
        locals := top.locals.set id (.inst c.fresh (.ptr (slotTy (typeOf type).1))) } := by
    refine ⟨rfl, ?_⟩
    intro n v hn
    have hne : id ≠ n := by
      rintro rfl
      simp [StdMap.contains, hn] at hid
    simpa [StdMap.find_set_ne _ _ _ _ hne] using hn
  refine ⟨⟨0, by simp [registered, hc], le_refl _, fun _ => rfl⟩, ?_,
    ⟨⟨_, rfl⟩, ⟨_, rfl⟩, ⟨[], by simp [registered]⟩, by simp [registered]⟩⟩
  exact (extends_top c top _ rest hc hg).2.1

/-- What a declaration that is not refused leaves behind: the handle is the
slot allocated in the block of the scope on top, and that scope keeps the entry
for the name, whatever the initializer does afterwards. -/
theorem declare_tracks (cxx : Cxx) (slotTy : IRType → IRType) (type id : String) {k : Nat}
    (assignmentExpr : Option (Gen Value))
    (hinit : ∀ rhs, assignmentExpr = some rhs → Tracks k rhs)
    (hk : assignmentExpr = none → k = 0)
    (c : CodeGenContext) (v : Value) (c' : CodeGenContext)
    (top : CodeGenBlock) (rest : List CodeGenBlock) (hc : c.blocks = top :: rest)
    (hid : top.locals.contains id = false)
    (h : declare cxx slotTy type id assignmentExpr c = .ok (v, c')) :
    Extends k c c' ∧ v = .inst c.fresh (.ptr (slotTy (typeOf type).1)) ∧
      (⟨c.fresh, .alloca (slotTy (typeOf type).1) id, top.block⟩ : Instruction) ∈
        c'.module.insts ∧
      ∃ s, scopeAt c'.blocks rest.length = some s ∧ s.block = top.block ∧
        s.locals.find id = some v := by
  have hreg := extends_registered slotTy type id c top rest hc hid
  have key : ∀ j, Extends j (registered slotTy type id c top rest) c' →
      (⟨c.fresh, .alloca (slotTy (typeOf type).1) id, top.block⟩ : Instruction) ∈
        c'.module.insts ∧
      ∃ s, scopeAt c'.blocks rest.length = some s ∧ s.block = top.block ∧
        s.locals.find id = some (.inst c.fresh (.ptr (slotTy (typeOf type).1))) := by
    intro j hj
    obtain ⟨-, hs, ⟨new, hnew⟩, -⟩ := hj
    constructor
    · rw [hnew]
      simp [registered]
    · obtain ⟨s, h1, h2, h3⟩ := hs rest.length
        { top with
          ltypes := top.ltypes.set id (typeOf type).1
          locals := top.locals.set id (.inst c.fresh (.ptr (slotTy (typeOf type).1))) }
        (by simp [registered, scopeAt])
      exact ⟨s, h1, h2, h3 _ _ (StdMap.find_set_self _ _ _)⟩
  rw [declare_eq cxx slotTy type id assignmentExpr top rest c hc] at h
  cases assignmentExpr with
  | none =>
    simp only at h
    cases h
    rw [hk rfl]
    exact ⟨hreg, rfl, key 0 (Extends.refl _)⟩
  | some rhs =>
    simp only at h
    split at h
    · cases h
    · rename_i w c5 h5
      cases h
      have e := tracks_NAssignment cxx id (cxx.indeterminate (c.fresh + 1)) (hinit rhs rfl)
        _ _ _ h5
      refine ⟨by simpa using hreg.trans e, rfl, key k e⟩

theorem tracks_NVariableDeclaration (cxx : Cxx) (type id : String) {k : Nat}
    (assignmentExpr : Option (Gen Value))
    (hinit : ∀ rhs, assignmentExpr = some rhs → Tracks k rhs)
    (hk : assignmentExpr = none → k = 0) :
    Tracks k (NVariableDeclaration.codeGen cxx type id assignmentExpr) := by
  intro c v c' h
  simp only [NVariableDeclaration.codeGen] at h
  split at h
  · cases h
  · rename_i top rest hc
    split at h
    · cases h
      exact Extends.reported k rfl (mono_report c _) (report_cerr_ne c _)
    · rename_i hid
      exact (declare_tracks cxx _ type id assignmentExpr hinit hk c v c' top rest hc
        (by simpa using hid) h).1

theorem tracks_NArrayDeclaration (cxx : Cxx) (type id : String) {k : Nat}
    (assignmentExpr : Option (Gen Value))
    (hinit : ∀ rhs, assignmentExpr = some rhs → Tracks k rhs)
    (hk : assignmentExpr = none → k = 0) :
    Tracks k (NArrayDeclaration.codeGen cxx type id assignmentExpr) := by
  intro c v c' h
  simp only [NArrayDeclaration.codeGen] at h
  split at h
  · cases h
  · rename_i top rest hc
    split at h
    · cases h
      exact Extends.reported k rfl (mono_report c _) (report_cerr_ne c _)
    · rename_i hid
      exact (declare_tracks cxx _ type id assignmentExpr hinit hk c v c' top rest hc
        (by simpa using hid) h).1

theorem mono_createFunction (c : CodeGenContext) (retTy : IRType) (argTys : List IRType)
    (linkage : Linkage) (name : String) :
    Mono c (c.createFunction retTy argTys linkage name).2 :=
  ⟨⟨[], by simp [CodeGenContext.createFunction]⟩, ⟨[], by simp [CodeGenContext.createFunction]⟩,
    ⟨_, rfl⟩, by simp [CodeGenContext.createFunction]⟩

theorem mono_createBlock (c : CodeGenContext) (name : String) (parent : Function) :
    Mono c (c.createBlock name parent).2 :=
  ⟨⟨[], by simp [CodeGenContext.createBlock]⟩, ⟨[], by simp [CodeGenContext.createBlock]⟩,
    ⟨[], by simp [CodeGenContext.createBlock]⟩, by simp [CodeGenContext.createBlock]⟩

theorem mono_moveAfter (c : CodeGenContext) (x pos : BasicBlock) : Mono c (moveAfter c x pos) :=
  ⟨⟨[], by simp [moveAfter]⟩, ⟨[], by simp [moveAfter]⟩, ⟨[], by simp [moveAfter]⟩,
    by simp [moveAfter]⟩

/-- Diagnostics appended with the stack left alone. -/
theorem extends_cerr (c : CodeGenContext) (ds : List Diag) :
    Extends 0 c { c with cerr := c.cerr ++ ds } :=
  ⟨⟨0, rfl, le_refl _, fun _ => rfl⟩, fun _ s h => ⟨s, h, scopeGrows_refl s⟩,
    ⟨⟨[], by simp⟩, ⟨ds, rfl⟩, ⟨[], by simp⟩, le_refl _⟩⟩

theorem Extends.createFunction {k : Nat} {c c1 : CodeGenContext} (h : Extends k c c1)
    (retTy : IRType) (argTys : List IRType) (linkage : Linkage) (name : String) :
    Extends k c (c1.createFunction retTy argTys linkage name).2 :=
  h.quiet rfl rfl (mono_createFunction c1 retTy argTys linkage name)

theorem Extends.createBlock {k : Nat} {c c1 : CodeGenContext} (h : Extends k c c1)
    (name : String) (parent : Function) : Extends k c (c1.createBlock name parent).2 :=
  h.quiet rfl rfl (mono_createBlock c1 name parent)

theorem Extends.moveAfter {k : Nat} {c c1 : CodeGenContext} (h : Extends k c c1)
    (x pos : BasicBlock) : Extends k c (moveAfter c1 x pos) :=
  h.quiet rfl rfl (mono_moveAfter c1 x pos)

theorem tracks_NExternDeclaration (type id : String) (argumentTypes : List String) :
    Tracks 0 (NExternDeclaration.codeGen type id argumentTypes) := by
  intro c v c' h
  simp only [NExternDeclaration.codeGen] at h
  cases h
  have e := extends_cerr c ((argTypesOf argumentTypes).2 ++ (typeOf type).2)
  rw [← List.append_assoc] at e
  exact e.createFunction _ _ _ _

theorem tracks_storeArgument (function : Function) (bblock : BasicBlock) (i : Nat)
    (id : String) : Tracks 0 (storeArgument function bblock i id) := by
  intro c v c' h
  simp only [storeArgument] at h
  split at h
  · cases h
  · rename_i slot c1 h1
    cases h
    exact (tracks_topLocals id _ _ _ h1).emit _ _

theorem tracks_createBlockHere (name : String) : Tracks 0 (createBlockHere name) := by
  intro c v c' h
  simp only [createBlockHere, currentFunction] at h
  split at h
  · cases h
  · rename_i fn c1 h1
    split at h1
    · cases h1
    · rename_i bb c2 h2
      cases h1
      cases h
      exact (tracks_currentBlock _ _ _ h2).createBlock _ _

theorem tracks_branchTo (dest : BasicBlock) : Tracks 0 (branchTo dest) := by
  intro c v c' h
  simp only [branchTo] at h
  split at h
  · cases h
  · rename_i bb c1 h1
    cases h
    exact (tracks_currentBlock _ _ _ h1).emit _ _

theorem tracks_branchOn (cxx : Cxx) (ifTrue ifFalse : BasicBlock) {k : Nat}
    {condition : Gen Value} (hc : Tracks k condition) :
    Tracks k (branchOn cxx ifTrue ifFalse condition) := by
  intro c v c' h
  simp only [branchOn] at h
  split at h
  · cases h
  · rename_i w bb c1 h1
    cases h
    simpa using (tracks_args2 cxx hc tracks_currentBlock _ _ _ h1).emit bb _

theorem scopeAt_cons_of_some (bs : List CodeGenBlock) (t : CodeGenBlock) (p : ScopeRef)
    (s : CodeGenBlock) (h : scopeAt bs p = some s) : scopeAt (t :: bs) p = some s := by
  have hne : ¬ bs.length = p := Nat.ne_of_gt (scopeAt_lt bs p s h)
  simp [scopeAt, hne, h]

theorem extends_pushBlock (c : CodeGenContext) (b : BasicBlock) :
    Extends 1 c (c.pushBlock b) :=
  ⟨⟨1, by simp [CodeGenContext.pushBlock], le_refl _, fun _ => rfl⟩,
    fun p s h => ⟨s, scopeAt_cons_of_some _ _ p s h, scopeGrows_refl s⟩,
    ⟨⟨[], by simp [CodeGenContext.pushBlock]⟩, ⟨[], by simp [CodeGenContext.pushBlock]⟩,
      ⟨[], by simp [CodeGenContext.pushBlock]⟩, le_refl _⟩⟩

theorem tracks_moveAndPush (x : BasicBlock) : Tracks 1 (moveAndPush x) := by
  intro c v c' h
  simp only [moveAndPush] at h
  split at h
  · cases h
  · rename_i bb c1 h1
    cases h
    have e := ((tracks_currentBlock _ _ _ h1).moveAfter x bb).trans (extends_pushBlock _ x)
    simpa using e

/-- A scope pushed before a run and one popped after it cancel. -/
theorem extends_pop {k : Nat} (c : CodeGenContext) (b : BasicBlock) (c4 c5 : CodeGenContext)
    (h : Extends k (c.pushBlock b) c4) (hp : CodeGenContext.popBlock c4 = .ok ((), c5)) :
    Extends k c c5 := by
  simp only [CodeGenContext.popBlock] at hp
  split at hp
  · cases hp
  · rename_i t r hr
    cases hp
    obtain ⟨⟨j, l, bnd, x⟩, s, m⟩ := h
    have hl : r.length = c.blocks.length + j := by
      simp [hr, CodeGenContext.pushBlock] at l
      omega
    refine ⟨⟨j, hl, bnd, fun he => x he⟩, ?_, ?_⟩
    · intro p u hu
      obtain ⟨u', h1, h2⟩ := s p u (scopeAt_cons_of_some _ _ p u hu)
      refine ⟨u', ?_, h2⟩
      have hlt : Nat.lt p c.blocks.length := scopeAt_lt c.blocks p u hu
      have hne : ¬ r.length = p := by
        intro e
        rw [hl] at e
        exact absurd hlt (by rw [← e]; exact Nat.not_lt.mpr (Nat.le_add_right _ _))
      rw [hr] at h1
      simpa [scopeAt, hne] using h1
    · obtain ⟨i, d, f, g⟩ := m
      exact ⟨i, d, f, g⟩

/-- The part of `NFunctionDeclaration::codeGen` between the push of the entry
scope and the pop: parameters, body, `ret`. -/
theorem tracks_body {a b : Nat} (bblock : BasicBlock) {arguments : Gen Unit}
    {block : Gen Value} (ha : Tracks a arguments) (hb : Tracks b block) (value : Value)
    (pre c' : CodeGenContext) (v : Value)
    (h : (match arguments (pre.pushBlock bblock) with
      | .error f => .error f
      | .ok (_, c2) =>
        match block c2 with
        | .error f => .error f
        | .ok (_, c3) =>
          match CodeGenContext.getCurrentReturnValue c3 with
          | .error f => .error f
          | .ok (rv, c4) =>
            match CodeGenContext.popBlock (c4.emit bblock (.ret rv)).2 with
            | .error f => .error f
            | .ok (_, c5) => .ok (value, c5) : Except Fault (Value × CodeGenContext)) =
        .ok (v, c')) :
    Extends (a + b) pre c' := by
  split at h
  · cases h
  · rename_i u c2 h2
    split at h
    · cases h
    · rename_i w c3 h3
      split at h
      · cases h
      · rename_i rv c4 h4
        split at h
        · cases h
        · rename_i u5 c5 h5
          cases h
          have e2 := (((ha _ _ _ h2).trans (hb _ _ _ h3)).trans
            (tracks_getCurrentReturnValue _ _ _ h4)).emit bblock (.ret rv)
          exact extends_pop pre bblock _ _ e2 h5

theorem tracks_NFunctionDeclaration (type id : String) (argumentTypes : List String)
    {a b : Nat} {arguments : Function → BasicBlock → Gen Unit} {block : Gen Value}
    (ha : ∀ f bb, Tracks a (arguments f bb)) (hb : Tracks b block) :
    Tracks (a + b) (NFunctionDeclaration.codeGen type id argumentTypes arguments block) := by
  intro c v c' h
  have e0 := extends_cerr c ((argTypesOf argumentTypes).2 ++ (typeOf type).2)
  rw [← List.append_assoc] at e0
  have e1 := e0.createFunction (typeOf type).1 (argTypesOf argumentTypes).1 .InternalLinkage id
  have e3 := tracks_body _ (ha _ _) hb _ _ c' v h
  simpa using (e1.createBlock "entry" _).trans e3

theorem tracks_NConditional (cxx : Cxx) {kc kt ke : Nat} {condition thenblock elseblock : Gen Value}
    (hc : Tracks kc condition) (ht : Tracks kt thenblock) (he : Tracks ke elseblock) :
    Tracks (3 + kc + kt + ke) (NConditional.codeGen cxx condition thenblock elseblock) := by
  intro c v c' h
  simp only [NConditional.codeGen] at h
  split at h
  · cases h
  · rename_i Then c1 h1
    split at h
    · cases h
    · rename_i Else c2 h2
      split at h
      · cases h
      · rename_i Continue c3 h3
        split at h
        · cases h
        · rename_i u4 c4 h4
          split at h
          · cases h
          · rename_i u5 c5 h5
            split at h
            · cases h
            · rename_i u6 c6 h6
              split at h
              · cases h
              · rename_i u7 c7 h7
                split at h
                · cases h
                · rename_i u8 c8 h8
                  split at h
                  · cases h
                  · rename_i u9 c9 h9
                    split at h
                    · cases h
                    · rename_i u10 c10 h10
                      cases h
                      have e := ((((((((((tracks_createBlockHere _ _ _ _ h1).trans
                        (tracks_createBlockHere _ _ _ _ h2)).trans
                        (tracks_createBlockHere _ _ _ _ h3)).trans
                        (tracks_branchOn cxx _ _ hc _ _ _ h4)).trans
                        (extends_pushBlock c4 Then)).trans (ht _ _ _ h5)).trans
                        (tracks_branchTo _ _ _ _ h6)).trans
                        (tracks_moveAndPush _ _ _ _ h7)).trans (he _ _ _ h8)).trans
                        (tracks_branchTo _ _ _ _ h9)).trans (tracks_moveAndPush _ _ _ _ h10)
                      have hk : 0 + 0 + 0 + kc + 1 + kt + 0 + 1 + ke + 0 + 1 = 3 + kc + kt + ke := by
                        omega
                      rw [hk] at e
                      exact e

theorem tracks_NLoop (cxx : Cxx) {kc kb : Nat} {condition block : Gen Value}
    (hc : Tracks kc condition) (hb : Tracks kb block) :
    Tracks (2 + 2 * kc + kb) (NLoop.codeGen cxx condition block) := by
  intro c v c' h
  simp only [NLoop.codeGen] at h
  split at h
  · cases h
  · rename_i Loop c1 h1
    split at h
    · cases h
    · rename_i Continue c2 h2
      split at h
      · cases h
      · rename_i u3 c3 h3
        split at h
        · cases h
        · rename_i u4 c4 h4
          split at h
          · cases h
          · rename_i u5 c5 h5
            split at h
            · cases h
            · rename_i u6 c6 h6
              cases h
              have e := ((((((tracks_createBlockHere _ _ _ _ h1).trans
                (tracks_createBlockHere _ _ _ _ h2)).trans
                (tracks_branchOn cxx _ _ hc _ _ _ h3)).trans
                (extends_pushBlock c3 Loop)).trans (hb _ _ _ h4)).trans
                (tracks_branchOn cxx _ _ hc _ _ _ h5)).trans (tracks_moveAndPush _ _ _ _ h6)
              have hk : 0 + 0 + kc + 1 + kb + kc + 1 = 2 + 2 * kc + kb := by omega
              rw [hk] at e
              exact e

theorem tracks_initializer (cxx : Cxx) (e : NExpression)
    (he : Tracks e.pushes (NExpression.codeGen cxx e)) :
    (∀ rhs, OptExpression.codeGen cxx (.ptr e) = some rhs →
      Tracks (OptExpression.ptr e).pushes rhs) ∧
    (OptExpression.codeGen cxx (.ptr e) = none → (OptExpression.ptr e).pushes = 0) := by
  constructor
  · intro rhs h
    simp only [OptExpression.codeGen, Option.some.injEq] at h
    subst h
    simpa only [OptExpression.pushes] using he
  · intro h
    simp [OptExpression.codeGen] at h

theorem tracks_no_initializer (cxx : Cxx) :
    (∀ rhs, OptExpression.codeGen cxx .null = some rhs → Tracks OptExpression.null.pushes rhs) ∧
    (OptExpression.codeGen cxx .null = none → OptExpression.null.pushes = 0) := by
  constructor
  · intro rhs h
    simp [OptExpression.codeGen] at h
  · intro _
    simp [OptExpression.pushes]

mutual
theorem tracks_NExpression (cxx : Cxx) :
    (e : NExpression) → Tracks e.pushes (NExpression.codeGen cxx e)
  | .NInteger _ => by
    intro c v c' h
    simp only [NExpression.codeGen, NInteger.codeGen] at h
    cases h; exact Extends.refl c
  | .NDouble _ => by
    intro c v c' h
    simp only [NExpression.codeGen, NDouble.codeGen] at h
    cases h; exact Extends.refl c
  | .NString value => by
    simp only [NExpression.codeGen, NExpression.pushes]
    exact tracks_NString value
  | .NBool _ => by
    intro c v c' h
    simp only [NExpression.codeGen, NBool.codeGen] at h
    cases h; exact Extends.refl c
  | .NIdentifier name => by
    simp only [NExpression.codeGen, NExpression.pushes]
    exact tracks_NIdentifier name
  | .NMethodCall id arguments => by
    simp only [NExpression.codeGen, NExpression.pushes]
    exact tracks_NMethodCall id (tracks_ExpressionList cxx arguments)
  | .NArray items => by
    simp only [NExpression.codeGen, NExpression.pushes]
    exact tracks_NArray (tracks_ExpressionList cxx items)
  | .NArrayRead arr index => by
    simp only [NExpression.codeGen, NExpression.pushes]
    exact tracks_NArrayRead arr (tracks_NExpression cxx index)
  | .NArrayWrite arr index op assignment => by
    simp only [NExpression.codeGen, NExpression.pushes]
    exact tracks_NArrayWrite cxx arr (tracks_NExpression cxx index) op
      (tracks_NExpression cxx assignment)
  | .NBinaryOperator lhs op rhs => by
    simp only [NExpression.codeGen, NExpression.pushes]
    exact tracks_NBinaryOperator cxx (tracks_NExpression cxx lhs) op (tracks_NExpression cxx rhs)
  | .NUnaryOperator op expr => by
    simp only [NExpression.codeGen, NExpression.pushes]
    exact tracks_NUnaryOperator cxx op (tracks_NExpression cxx expr)
  | .NAssignment lhs op rhs => by
    simp only [NExpression.codeGen, NExpression.pushes]
    exact tracks_NAssignment cxx lhs op (tracks_NExpression cxx rhs)
  | .NBlock statements => by
    simp only [NExpression.codeGen, NExpression.pushes]
    exact tracks_StatementList cxx statements .null
theorem tracks_ExpressionList (cxx : Cxx) :
    (es : ExpressionList) → Tracks es.pushes (ExpressionList.codeGen cxx es)
  | .nil => by
    intro c v c' h
    simp only [ExpressionList.codeGen] at h
    cases h; exact Extends.refl c
  | .cons head tail => by
    intro c v c' h
    simp only [ExpressionList.codeGen] at h
    split at h
    · cases h
    · rename_i w c1 h1
      split at h
      · cases h
      · rename_i ws c2 h2
        cases h
        exact (tracks_NExpression cxx head _ _ _ h1).trans (tracks_ExpressionList cxx tail _ _ _ h2)
theorem tracks_NStatement (cxx : Cxx) :
    (s : NStatement) → Tracks s.pushes (NStatement.codeGen cxx s)
  | .NExpressionStatement expression => by
    simp only [NStatement.codeGen, NStatement.pushes]
    exact tracks_NExpression cxx expression
  | .NReturnStatement expression => by
    simp only [NStatement.codeGen, NStatement.pushes]
    exact tracks_NReturnStatement (tracks_NExpression cxx expression)
  | .NVariableDeclaration type id .null => by
    simp only [NStatement.codeGen, NStatement.pushes]
    exact tracks_NVariableDeclaration cxx type id _ (tracks_no_initializer cxx).1
      (tracks_no_initializer cxx).2
  | .NVariableDeclaration type id (.ptr e) => by
    simp only [NStatement.codeGen, NStatement.pushes]
    exact tracks_NVariableDeclaration cxx type id _
      (tracks_initializer cxx e (tracks_NExpression cxx e)).1
      (tracks_initializer cxx e (tracks_NExpression cxx e)).2
  | .NArrayDeclaration type id .null => by
    simp only [NStatement.codeGen, NStatement.pushes]
    exact tracks_NArrayDeclaration cxx type id _ (tracks_no_initializer cxx).1
      (tracks_no_initializer cxx).2
  | .NArrayDeclaration type id (.ptr e) => by
    simp only [NStatement.codeGen, NStatement.pushes]
    exact tracks_NArrayDeclaration cxx type id _
      (tracks_initializer cxx e (tracks_NExpression cxx e)).1
      (tracks_initializer cxx e (tracks_NExpression cxx e)).2
  | .NExternDeclaration type id arguments => by
    simp only [NStatement.codeGen, NStatement.pushes]
    exact tracks_NExternDeclaration type id _
  | .NFunctionDeclaration type id arguments block => by
    simp only [NStatement.codeGen, NStatement.pushes]
    exact tracks_NFunctionDeclaration type id _
      (fun f bb => tracks_VariableList cxx arguments f bb 0)
      (tracks_StatementList cxx block .null)
  | .NConditional condition thenblock elseblock => by
    simp only [NStatement.codeGen, NStatement.pushes]
    exact tracks_NConditional cxx (tracks_NExpression cxx condition)
      (tracks_StatementList cxx thenblock .null) (tracks_StatementList cxx elseblock .null)
  | .NLoop condition block => by
    simp only [NStatement.codeGen, NStatement.pushes]
    exact tracks_NLoop cxx (tracks_NExpression cxx condition)
      (tracks_StatementList cxx block .null)
theorem tracks_StatementList (cxx : Cxx) :
    (ss : StatementList) → (last : Value) → Tracks ss.pushes (StatementList.codeGen cxx last ss)
  | .nil, last => by
    intro c v c' h
    simp only [StatementList.codeGen] at h
    cases h; exact Extends.refl c
  | .cons head tail, last => by
    intro c v c' h
    simp only [StatementList.codeGen] at h
    split at h
    · cases h
    · rename_i w c1 h1
      exact (tracks_NStatement cxx head _ _ _ h1).trans (tracks_StatementList cxx tail w _ _ _ h)
theorem tracks_VariableList (cxx : Cxx) :
    (vs : VariableList) → (function : Function) → (bblock : BasicBlock) → (i : Nat) →
      Tracks vs.pushes (VariableList.codeGen cxx function bblock i vs)
  | .nil, _, _, _ => by
    intro c v c' h
    simp only [VariableList.codeGen] at h
    cases h; exact Extends.refl c
  | .cons type id .null tail, function, bblock, i => by
    intro c v c' h
    simp only [VariableList.codeGen] at h
    split at h
    · cases h
    · rename_i w c1 h1
      split at h
      · cases h
      · rename_i u c2 h2
        have e := ((tracks_NVariableDeclaration cxx type id _ (tracks_no_initializer cxx).1
          (tracks_no_initializer cxx).2 _ _ _ h1).trans
          (tracks_storeArgument function bblock i id _ _ _ h2)).trans
          (tracks_VariableList cxx tail function bblock (i + 1) _ _ _ h)
        simpa only [VariableList.pushes, Nat.add_zero] using e
  | .cons type id (.ptr e) tail, function, bblock, i => by
    intro c v c' h
    simp only [VariableList.codeGen] at h
    split at h
    · cases h
    · rename_i w c1 h1
      split at h
      · cases h
      · rename_i u c2 h2
        have e := ((tracks_NVariableDeclaration cxx type id _
          (tracks_initializer cxx e (tracks_NExpression cxx e)).1
          (tracks_initializer cxx e (tracks_NExpression cxx e)).2 _ _ _ h1).trans
          (tracks_storeArgument function bblock i id _ _ _ h2)).trans
          (tracks_VariableList cxx tail function bblock (i + 1) _ _ _ h)
        simpa only [VariableList.pushes, Nat.add_zero] using e
end

/-- The whole pass: what `generateCode` leaves on the stack it was given. -/
theorem extends_generateCode (cxx : Cxx) (root : StatementList) (c c' : CodeGenContext)
    (h : CodeGenContext.generateCode cxx root c = .ok ((), c')) : Extends root.pushes c c' := by
  simp only [CodeGenContext.generateCode] at h
  split at h
  · cases h
  · rename_i w c2 h2
    split at h
    · cases h
    · rename_i bb c3 h3
      have e2 := ((tracks_StatementList cxx root .null _ _ _ h2).trans
        (tracks_currentBlock _ _ _ h3)).emit bb (.ret .null)
      have e3 := extends_pop _ _ _ _ e2 h
      have e0 : Extends 0 c
          { (c.createFunction .void [] .ExternalLinkage "main").2 with
            mainFunction := some (c.createFunction .void [] .ExternalLinkage "main").1 } :=
        ((Extends.refl c).createFunction .void [] .ExternalLinkage "main").quiet rfl rfl
          ⟨⟨[], by simp⟩, ⟨[], by simp⟩, ⟨[], by simp⟩, le_refl _⟩
      simpa using (e0.createBlock "entry" _).trans e3

/-- C14 (counterexample): the program `if (1 == 1) { } else { }` lowered by
`generateCode` from an empty stack, with nothing reported. The one pop at the
end removes the `continue` scope of the conditional; the scopes of `else`, of
`then` and of the entry block of `main` are left on the stack. -/
theorem scopes_left_by_top_level_conditional :
    CodeGenContext.initial.blocks = [] ∧
    (CodeGenContext.generateCode firstToLast sampleTopLevelIf CodeGenContext.initial).map
      (fun r => (r.2.blocks.map (fun s => s.block), r.2.cerr)) =
      .ok ([⟨3, "else", sampleMain⟩, ⟨2, "then", sampleMain⟩, sampleEntry], []) :=
  ⟨rfl, by decide!⟩

/-- C14 (amended): `generateCode` pops one scope, the one on top when the
top-level block has been lowered. Started on an empty stack, a run that returns
leaves as many scopes as the conditionals and loops it lowered have pushed
(three each, two each): at most `root.pushes`, exactly `root.pushes` when
nothing was reported, and none for a program whose `pushes` is zero. -/
theorem generateCode_leaves_pushed_scopes (cxx : Cxx) (root : StatementList)
    (c c' : CodeGenContext) (hempty : c.blocks = [])
    (h : CodeGenContext.generateCode cxx root c = .ok ((), c')) :
    c'.blocks.length ≤ root.pushes ∧
    (c'.cerr = c.cerr → c'.blocks.length = root.pushes) ∧
    (root.pushes = 0 → c'.blocks = []) := by
  obtain ⟨⟨j, hl, hb, hx⟩, -, -⟩ := extends_generateCode cxx root c c' h
  simp only [hempty, List.length_nil, Nat.zero_add] at hl
  refine ⟨by omega, fun he => by rw [hl]; exact hx he, fun h0 => ?_⟩
  have : c'.blocks.length = 0 := by omega
  exact List.length_eq_zero.mp this

theorem generateCode_leaves_pushed_scopes_witness :
    (contextOf (CodeGenContext.generateCode firstToLast sampleTopLevelIf
      CodeGenContext.initial)).blocks.length ≤ sampleTopLevelIf.pushes ∧
    ((contextOf (CodeGenContext.generateCode firstToLast sampleTopLevelIf
      CodeGenContext.initial)).cerr = CodeGenContext.initial.cerr →
      (contextOf (CodeGenContext.generateCode firstToLast sampleTopLevelIf
        CodeGenContext.initial)).blocks.length = sampleTopLevelIf.pushes) ∧
    (sampleTopLevelIf.pushes = 0 →
      (contextOf (CodeGenContext.generateCode firstToLast sampleTopLevelIf
        CodeGenContext.initial)).blocks = []) :=
  generateCode_leaves_pushed_scopes firstToLast sampleTopLevelIf CodeGenContext.initial
    (contextOf (CodeGenContext.generateCode firstToLast sampleTopLevelIf CodeGenContext.initial))
    rfl (by decide!)

theorem allocated_persists {k : Nat} {c c' : CodeGenContext} (h : Extends k c c')
    {p : ScopeRef} {block : BasicBlock} {id : String} {n : Nat} {ty : IRType}
    (ha : Allocated c p block id n ty) : Allocated c' p block id n ty := by
  obtain ⟨-, hs, ⟨new, hnew⟩, -⟩ := h
  obtain ⟨hi, s, h1, h2, h3⟩ := ha
  refine ⟨by rw [hnew]; exact List.mem_append_left _ hi, ?_⟩
  obtain ⟨s', g1, g2, g3⟩ := hs p s h1
  exact ⟨s', g1, g2.trans h2, g3 _ _ h3⟩

theorem allocated_of_declare (cxx : Cxx) (slotTy : IRType → IRType) (type id : String)
    (init : OptExpression) (c : CodeGenContext) (v : Value) (c' : CodeGenContext)
    (top : CodeGenBlock) (rest : List CodeGenBlock) (hc : c.blocks = top :: rest)
    (hid : top.locals.contains id = false)
    (h : declare cxx slotTy type id (OptExpression.codeGen cxx init) c = .ok (v, c')) :
    Extends init.pushes c c' ∧
      Allocated c' rest.length top.block id c.fresh (slotTy (typeOf type).1) := by
  have key : (∀ rhs, OptExpression.codeGen cxx init = some rhs → Tracks init.pushes rhs) ∧
      (OptExpression.codeGen cxx init = none → init.pushes = 0) := by
    cases init with
    | null => exact tracks_no_initializer cxx
    | ptr e => exact tracks_initializer cxx e (tracks_NExpression cxx e)
  obtain ⟨e, hv, hi, s, h1, h2, h3⟩ :=
    declare_tracks cxx slotTy type id _ key.1 key.2 c v c' top rest hc hid h
  exact ⟨e, hi, s, h1, h2, by rw [h3, hv]⟩

/-- C18 (counterexample): the program `if (1 == 1) { int z; } else { }` lowered
by `generateCode`. The entry for `z` is in the scope of the `then` block, and
its handle is instruction 7, an allocation located in the `then` block of
`main`, not in the entry block of `main`. -/
theorem slot_of_declaration_inside_then_block :
    (CodeGenContext.generateCode firstToLast sampleNestedDeclaration CodeGenContext.initial).map
      (fun r => (r.2.blocks.map (fun s => (s.block, s.locals)),
                 r.2.module.insts.filter (fun i => i.id = 7))) =
      .ok ([(⟨3, "else", sampleMain⟩, []),
            (⟨2, "then", sampleMain⟩, [("z", .inst 7 (.ptr .int64))]),
            (sampleEntry, [])],
           [⟨7, .alloca .int64 "z", ⟨2, "then", sampleMain⟩⟩]) := by
  decide!

/-- C18 (amended): a VarDecl, an ArrayDecl or a function parameter whose name
is not yet in the scope on top registers, in that scope, the handle of an
allocation instruction located in the block of that scope, the block that is
current when the declaration is lowered. The entry and the instruction are
still there when the rest of the block, or of the parameter list, has been
lowered. The block is the entry block of the function only while the scope the
function pushed is on top; inside a then-block, an else-block or a loop body
it is the block of that branch. -/
theorem handle_allocated_in_current_block (cxx : Cxx) (type id : String) (init : OptExpression)
    (c c' : CodeGenContext) (top : CodeGenBlock) (rest : List CodeGenBlock)
    (hc : c.blocks = top :: rest) (hnew : top.locals.contains id = false) :
    (∀ last tail v,
      StatementList.codeGen cxx last (.cons (.NVariableDeclaration type id init) tail) c =
        .ok (v, c') →
      Allocated c' rest.length top.block id c.fresh (typeOf type).1) ∧
    (∀ last tail v,
      StatementList.codeGen cxx last (.cons (.NArrayDeclaration type id init) tail) c =
        .ok (v, c') →
      Allocated c' rest.length top.block id c.fresh (.ptr (typeOf type).1)) ∧
    (∀ function bblock i tail,
      VariableList.codeGen cxx function bblock i (.cons type id init tail) c = .ok ((), c') →
      Allocated c' rest.length top.block id c.fresh (typeOf type).1) := by
  refine ⟨?_, ?_, ?_⟩
  · intro last tail v h
    simp only [StatementList.codeGen, NStatement.codeGen, NVariableDeclaration.codeGen, hc,
      hnew, Bool.false_eq_true, ↓reduceIte] at h
    split at h
    · cases h
    · rename_i w c1 h1
      exact allocated_persists (tracks_StatementList cxx tail w _ _ _ h)
        (allocated_of_declare cxx _ type id init c w c1 top rest hc hnew h1).2
  · intro last tail v h
    simp only [StatementList.codeGen, NStatement.codeGen, NArrayDeclaration.codeGen, hc,
      hnew, Bool.false_eq_true, ↓reduceIte] at h
    split at h
    · cases h
    · rename_i w c1 h1
      exact allocated_persists (tracks_StatementList cxx tail w _ _ _ h)
        (allocated_of_declare cxx _ type id init c w c1 top rest hc hnew h1).2
  · intro function bblock i tail h
    simp only [VariableList.codeGen, NVariableDeclaration.codeGen, hc,
      hnew, Bool.false_eq_true, ↓reduceIte] at h
    split at h
    · cases h
    · rename_i w c1 h1
      split at h
      · cases h
      · rename_i u c2 h2
        exact allocated_persists
          ((tracks_storeArgument function bblock i id _ _ _ h2).trans
            (tracks_VariableList cxx tail function bblock (i + 1) _ _ _ h))
          (allocated_of_declare cxx _ type id init c w c1 top rest hc hnew h1).2

theorem handle_allocated_in_current_block_witness :
    (sampleDeclaredX.pushBlock sampleThen).blocks =
      ⟨sampleThen, .null, [], []⟩ :: sampleDeclaredX.blocks ∧
    StdMap.contains (β := Value) [] "z" = false ∧
    Allocated
      (contextOf (StatementList.codeGen firstToLast .null
        (.cons (.NVariableDeclaration "int" "z" .null) .nil)
        (sampleDeclaredX.pushBlock sampleThen)))
      1 sampleThen "z" 4 .int64 :=
  ⟨rfl, rfl,
   (handle_allocated_in_current_block firstToLast "int" "z" .null
      (sampleDeclaredX.pushBlock sampleThen)
      (contextOf (StatementList.codeGen firstToLast .null
        (.cons (.NVariableDeclaration "int" "z" .null) .nil)
        (sampleDeclaredX.pushBlock sampleThen)))
      ⟨sampleThen, .null, [], []⟩ sampleDeclaredX.blocks rfl rfl).1 .null .nil
      (.inst 4 (.ptr .int64)) (by decide!)⟩

/-! ### Arrays: what is lowered and what it computes -/

theorem literals_codeGen (cxx : Cxx) (items : List Int) (c : CodeGenContext) :
    ExpressionList.codeGen cxx (literals items) c =
      .ok (items.map (fun x => Value.constInt .int64 x), c) := by
  induction items with
  | nil => rfl
  | cons x rest ih =>
    simp only [literals, ExpressionList.codeGen, NExpression.codeGen, NInteger.codeGen, ih,
      List.map_cons]

theorem storeItems_fields (alloc : Value) (top : CodeGenBlock) (rest : List CodeGenBlock)
    (functions : List Function) (layout : List BasicBlock) (globals : List GlobalVariable)
    (mainFunction : Option Function) (cerr : List Diag) (items : List Int) :
    ∀ (i : Nat) (insts : List Instruction) (fresh : Nat),
      NArray.storeItems .int64 alloc i (items.map (fun x => Value.constInt .int64 x))
          ⟨top :: rest, ⟨functions, layout, insts, globals⟩, mainFunction, cerr, fresh⟩ =
        .ok ((), ⟨top :: rest,
          ⟨functions, layout, insts ++ itemStores top.block alloc fresh i items, globals⟩,
          mainFunction, cerr, fresh + 2 * items.length⟩) := by
  induction items with
  | nil =>
    intro i insts fresh
    simp [NArray.storeItems, itemStores]
  | cons x tail ih =>
    intro i insts fresh
    simp only [List.map_cons, NArray.storeItems, CodeGenContext.currentBlock,
      CodeGenContext.emit, InstKind.resultType]
    rw [ih]
    simp only [itemStores, List.append_assoc, List.cons_append, List.nil_append,
      List.length_cons]
    have e : fresh + 1 + 1 + 2 * tail.length = fresh + 2 * (tail.length + 1) := by omega
    rw [e]

theorem storeItems_literals (alloc : Value) (top : CodeGenBlock) (rest : List CodeGenBlock)
    (items : List Int) (i : Nat) (c : CodeGenContext) (hc : c.blocks = top :: rest) :
    NArray.storeItems .int64 alloc i (items.map (fun x => Value.constInt .int64 x)) c =
      .ok ((), { c with
        module := { c.module with
          insts := c.module.insts ++ itemStores top.block alloc c.fresh i items }
        fresh := c.fresh + 2 * items.length }) := by
  obtain ⟨blocks, ⟨functions, layout, insts, globals⟩, mainFunction, cerr, fresh⟩ := c
  simp only at hc
  subst hc
  exact storeItems_fields alloc top rest functions layout globals mainFunction cerr items i
    insts fresh

theorem array_literals (cxx : Cxx) (top : CodeGenBlock) (rest : List CodeGenBlock)
    (x : Int) (tail : List Int) (c : CodeGenContext) (hc : c.blocks = top :: rest) :
    NArray.codeGen (ExpressionList.codeGen cxx (literals (x :: tail))) c =
      .ok (.inst c.fresh (.ptr (.array .int64 (tail.length + 1))),
        { c with
          module := { c.module with
            insts := c.module.insts ++
              ⟨c.fresh, .alloca (.array .int64 (tail.length + 1)) "", top.block⟩ ::
                itemStores top.block (.inst c.fresh (.ptr (.array .int64 (tail.length + 1))))
                  (c.fresh + 1) 0 (x :: tail) }
          fresh := c.fresh + 1 + 2 * (tail.length + 1) }) := by
  obtain ⟨blocks, ⟨functions, layout, insts, globals⟩, mainFunction, cerr, fresh⟩ := c
  simp only at hc
  subst hc
  simp only [NArray.codeGen, literals_codeGen, List.map_cons, NArray.itemType, Value.getType,
    CodeGenContext.currentBlock, List.length_cons, List.length_map, CodeGenContext.emit,
    InstKind.resultType]
  have h := storeItems_fields (.inst fresh (.ptr (.array .int64 (tail.length + 1)))) top rest
    functions layout globals mainFunction cerr (x :: tail) 0
    (insts ++ [⟨fresh, .alloca (.array .int64 (tail.length + 1)) "", top.block⟩]) (fresh + 1)
  simp only [List.map_cons] at h
  rw [h]
  simp


theorem arrayDeclaration_literals (cxx : Cxx) (a : String) (x : Int) (tail : List Int)
    (c : CodeGenContext) (top : CodeGenBlock) (rest : List CodeGenBlock)
    (hc : c.blocks = top :: rest) (hnew : top.locals.contains a = false)
    (htag : compoundOf (cxx.indeterminate (c.fresh + 1)) = none) :
    NStatement.codeGen cxx (.NArrayDeclaration "int" a (.ptr (.NArray (literals (x :: tail))))) c =
      .ok (.inst c.fresh (.ptr (.ptr .int64)),
        { c with
          blocks :=
            { top with
              ltypes := top.ltypes.set a .int64
              locals := top.locals.set a (.inst c.fresh (.ptr (.ptr .int64))) } :: rest
          module := { c.module with
            insts := c.module.insts ++
              (⟨c.fresh, .alloca (.ptr .int64) a, top.block⟩ ::
               ⟨c.fresh + 1, .alloca (.array .int64 (tail.length + 1)) "", top.block⟩ ::
               itemStores top.block (.inst (c.fresh + 1) (.ptr (.array .int64 (tail.length + 1))))
                 (c.fresh + 2) 0 (x :: tail) ++
               [⟨c.fresh + 2 + 2 * (tail.length + 1),
                 .store (.inst (c.fresh + 1) (.ptr (.array .int64 (tail.length + 1))))
                   (.inst c.fresh (.ptr (.ptr .int64))), top.block⟩]) }
          fresh := c.fresh + 3 + 2 * (tail.length + 1) }) := by
  simp only [NStatement.codeGen, OptExpression.codeGen, NExpression.codeGen,
    NArrayDeclaration.codeGen, hc, hnew, Bool.false_eq_true, ↓reduceIte]
  rw [declare_eq cxx _ "int" a _ top rest c hc]
  simp only
  have hr := array_literals cxx
    { top with
      ltypes := top.ltypes.set a (typeOf "int").1
      locals := top.locals.set a (.inst c.fresh (.ptr (.ptr (typeOf "int").1))) } rest x tail
    (registered (fun ty => .ptr ty) "int" a c top rest) rfl
  rw [assignment_default cxx a _ _ (registered (fun ty => .ptr ty) "int" a c top rest) _
    { top with
      ltypes := top.ltypes.set a (typeOf "int").1
      locals := top.locals.set a (.inst c.fresh (.ptr (.ptr (typeOf "int").1))) }
    { top with
      ltypes := top.ltypes.set a (typeOf "int").1
      locals := top.locals.set a (.inst c.fresh (.ptr (.ptr (typeOf "int").1))) }
    rest rest.length (.inst c.fresh (.ptr (.ptr (typeOf "int").1))) _ htag rfl
    (by simp [registered, findLocals, StdMap.contains_set_self])
    (by simp [registered, scopeAt]) (StdMap.find_set_self _ _ _) hr rfl]
  obtain ⟨blocks, ⟨functions, layout, insts, globals⟩, mainFunction, cerr, fresh⟩ := c
  simp only at hc
  subst hc
  have e1 : fresh + 1 + 1 = fresh + 2 := rfl
  have e2 : fresh + 1 + 1 + 2 * (tail.length + 1) = fresh + 2 + 2 * (tail.length + 1) := rfl
  have e3 : fresh + 2 + 2 * (tail.length + 1) + 1 = fresh + 3 + 2 * (tail.length + 1) := by
    omega
  simp [registered, CodeGenContext.emit, typeOf, InstKind.resultType, e1, e2, e3]

theorem arrayWrite_compound (cxx : Cxx) (a : String) (k e : Int) (op : Token)
    (instr : BinaryOps) (hop : compoundOf op = some instr) (c : CodeGenContext)
    (top : CodeGenBlock) (rest : List CodeGenBlock) (hc : c.blocks = top :: rest)
    (slot : Value) (ty : IRType) (hl : top.locals.find a = some slot)
    (ht : top.ltypes.find a = some ty) :
    NExpression.codeGen cxx (.NArrayWrite a (.NInteger k) op (.NInteger e)) c =
      .ok (.inst (c.fresh + 4) .void,
        { c with
          module := { c.module with
            insts := c.module.insts ++
              [⟨c.fresh, .load (.ptr ty) slot a, top.block⟩,
               ⟨c.fresh + 1, .gep ty (.inst c.fresh (.ptr ty)) [.constInt .int64 k], top.block⟩,
               ⟨c.fresh + 2, .load ty (.inst (c.fresh + 1) (.ptr ty)) "", top.block⟩,
               ⟨c.fresh + 3, .binop instr (.inst (c.fresh + 2) ty) (.constInt .int64 e),
                 top.block⟩,
               ⟨c.fresh + 4, .store (.inst (c.fresh + 3) ty) (.inst (c.fresh + 1) (.ptr ty)),
                 top.block⟩] }
          fresh := c.fresh + 5 }) := by
  obtain ⟨blocks, ⟨functions, layout, insts, globals⟩, mainFunction, cerr, fresh⟩ := c
  simp only at hc
  subst hc
  obtain ⟨block, returnValue, locals, ltypes⟩ := top
  simp only at hl ht
  have hcont : StdMap.contains locals a = true := by simp [StdMap.contains, hl]
  cases hrl : cxx.rightToLeft <;>
    simp [NExpression.codeGen, NArrayWrite.codeGen, findLocals, hcont, arrayElementAddress,
      ltypesAt, scopeAt, localsAt, StdMap.index, hl, ht, setScopeAt,
      CodeGenContext.currentBlock, CodeGenContext.emit, NInteger.codeGen, hop, Cxx.args2, hrl,
      InstKind.resultType, Value.getType]

theorem arrayRead_found (cxx : Cxx) (a : String) (k : Int) (c : CodeGenContext)
    (top : CodeGenBlock) (rest : List CodeGenBlock) (hc : c.blocks = top :: rest)
    (slot : Value) (ty : IRType) (hl : top.locals.find a = some slot)
    (ht : top.ltypes.find a = some ty) :
    NExpression.codeGen cxx (.NArrayRead a (.NInteger k)) c =
      .ok (.inst (c.fresh + 2) ty,
        { c with
          module := { c.module with
            insts := c.module.insts ++
              [⟨c.fresh, .load (.ptr ty) slot a, top.block⟩,
               ⟨c.fresh + 1, .gep ty (.inst c.fresh (.ptr ty)) [.constInt .int64 k], top.block⟩,
               ⟨c.fresh + 2, .load ty (.inst (c.fresh + 1) (.ptr ty)) "", top.block⟩] }
          fresh := c.fresh + 3 }) := by
  obtain ⟨blocks, ⟨functions, layout, insts, globals⟩, mainFunction, cerr, fresh⟩ := c
  simp only at hc
  subst hc
  obtain ⟨block, returnValue, locals, ltypes⟩ := top
  simp only at hl ht
  have hcont : StdMap.contains locals a = true := by simp [StdMap.contains, hl]
  simp [NExpression.codeGen, NArrayRead.codeGen, findLocals, hcont, arrayElementAddress,
    ltypesAt, scopeAt, localsAt, StdMap.index, hl, ht, setScopeAt,
    CodeGenContext.currentBlock, CodeGenContext.emit, NInteger.codeGen,
    InstKind.resultType]

theorem Machine.run_append (xs ys : List Instruction) :
    ∀ m : Machine, m.run (xs ++ ys) = (m.run xs).bind (fun m' => m'.run ys) := by
  induction xs with
  | nil => intro m; rfl
  | cons i rest ih =>
    intro m
    simp only [List.cons_append, Machine.run]
    cases m.step i with
    | none => rfl
    | some m' => exact ih m'

theorem wrap64_small (z : Int) (h0 : 0 ≤ z) (h1 : z < 2 ^ 63) : wrap64 z = z := by
  unfold wrap64
  have : (z + 2 ^ 63) % 2 ^ 64 = z + 2 ^ 63 := Int.emod_eq_of_lt (by omega) (by omega)
  omega

/-- Running the stores of the items: the registers numbered below `fresh` keep
their values, the cells of the allocation from `i` on hold the items, and all
other cells are as before. -/
theorem itemStores_run (block : BasicBlock) (aid : Nat) (ty : IRType) (base : Nat)
    (items : List Int) :
    ∀ (fresh i : Nat) (m : Machine), aid < fresh → i + items.length < 2 ^ 31 →
      m.regs.lookup aid = some (.addr base 0) →
      ∃ m', m.run (itemStores block (.inst aid ty) fresh i items) = some m' ∧
        (∀ id, id < fresh → m'.regs.lookup id = m.regs.lookup id) ∧
        (∀ j, j < items.length →
          m'.memory.lookup (base, ((i + j : Nat) : Int)) =
            some (.int (wrap64 (items.getD j 0)))) ∧
        (∀ (b : Nat) (o : Int), (b ≠ base ∨ o < i) →
          m'.memory.lookup (b, o) = m.memory.lookup (b, o)) := by
  induction items with
  | nil =>
    intro fresh i m _ _ _
    exact ⟨m, rfl, fun _ _ => rfl, fun j hj => absurd hj (Nat.not_lt_zero j), fun _ _ _ => rfl⟩
  | cons x tail ih =>
    intro fresh i m haid hlen hbase
    simp only [List.length_cons] at hlen
    have hi : wrap64 (i : Int) = i := wrap64_small _ (by omega) (by omega)
    have hne : (aid == fresh) = false := by simp; omega
    have hbase2 : List.lookup aid ((fresh, Word.addr base (i : Int)) :: m.regs) =
        some (.addr base 0) := by
      simp only [List.lookup, hne, hbase]
    obtain ⟨m', hrun, hregs, hmem, hother⟩ := ih (fresh + 2) (i + 1)
      { regs := (fresh, Word.addr base (i : Int)) :: m.regs
        memory := ((base, (i : Int)), Word.int (wrap64 x)) :: m.memory }
      (by omega) (by omega) hbase2
    refine ⟨m', ?_, ?_, ?_, ?_⟩
    · simp only [itemStores, Machine.run, Machine.step, Machine.operand, hbase, hi,
        IRType.stride, List.lookup, beq_self_eq_true, Int.mul_one, Int.zero_add]
      exact hrun
    · intro id hid
      rw [hregs id (by omega)]
      have : (id == fresh) = false := by simp; omega
      simp only [List.lookup, this]
    · intro j hj
      cases j with
      | zero =>
        rw [hother base _ (Or.inr (by simp))]
        simp [List.lookup]
      | succ j =>
        have := hmem j (by simpa using hj)
        have e : i + 1 + j = i + (j + 1) := by omega
        rw [e] at this
        simpa using this
    · intro b o hbo
      rw [hother b o (by rcases hbo with h | h; exact Or.inl h; exact Or.inr (by push_cast; omega))]
      have : ((b, o) == (base, (i : Int))) = false := by
        rcases hbo with h | h
        · simp [h]
        · simp; intro _; omega
      simp only [List.lookup, this]

/-- Running a compound write to element `k` and a read of element `k`, when
the slot of the array holds the address of an allocation whose cell `k` holds
the number `x`. -/
theorem writeRead_run (block : BasicBlock) (a : String) (sty : IRType) (instr : BinaryOps)
    (m1 : Machine) (f g base k : Nat) (x e r : Int) (hfg : f < g)
    (hslot : m1.regs.lookup f = some (.addr f 0))
    (hptr : m1.memory.lookup (f, 0) = some (.addr base 0)) (hfb : f ≠ base)
    (helem : m1.memory.lookup (base, (k : Int)) = some (.int x)) (hk : k < 2 ^ 31)
    (hr : instr.eval x (wrap64 e) = some r) :
    ∃ m2, m1.run
        [⟨g, .load (.ptr .int64) (.inst f sty) a, block⟩,
         ⟨g + 1, .gep .int64 (.inst g (.ptr .int64)) [.constInt .int64 k], block⟩,
         ⟨g + 2, .load .int64 (.inst (g + 1) (.ptr .int64)) "", block⟩,
         ⟨g + 3, .binop instr (.inst (g + 2) .int64) (.constInt .int64 e), block⟩,
         ⟨g + 4, .store (.inst (g + 3) .int64) (.inst (g + 1) (.ptr .int64)), block⟩,
         ⟨g + 5, .load (.ptr .int64) (.inst f sty) a, block⟩,
         ⟨g + 6, .gep .int64 (.inst (g + 5) (.ptr .int64)) [.constInt .int64 k], block⟩,
         ⟨g + 7, .load .int64 (.inst (g + 6) (.ptr .int64)) "", block⟩] = some m2 ∧
      m2.regs.lookup g = some (.addr base 0) ∧
      m2.regs.lookup (g + 1) = some (.addr base k) ∧
      m2.regs.lookup (g + 5) = some (.addr base 0) ∧
      m2.regs.lookup (g + 6) = some (.addr base k) ∧
      m2.regs.lookup (g + 7) = some (.int r) ∧
      m2.memory = ((base, (k : Int)), .int r) :: m1.memory := by
  have hkw : wrap64 (k : Int) = k := wrap64_small _ (by omega) (by omega)
  have n0 : (f == g) = false := by simp; omega
  have n1 : (f == g + 1) = false := by simp; omega
  have n2 : (f == g + 2) = false := by simp; omega
  have n3 : (f == g + 3) = false := by simp; omega
  have nk : ((f, (0 : Int)) == (base, (k : Int))) = false := by simp [hfb]
  have q1 : (g == g + 1) = false := by simp
  have q2 : (g == g + 2) = false := by simp
  have q3 : (g == g + 3) = false := by simp
  have q4 : (g == g + 4) = false := by simp
  have q5 : (g == g + 5) = false := by simp
  have q6 : (g == g + 6) = false := by simp
  have q7 : (g == g + 7) = false := by simp
  have n5 : (f == g + 5) = false := by simp; omega
  have n6 : (f == g + 6) = false := by simp; omega
  refine ⟨{ regs := (g + 7, .int r) :: (g + 6, .addr base k) :: (g + 5, .addr base 0) ::
      (g + 3, .int r) :: (g + 2, .int x) :: (g + 1, .addr base k) :: (g, .addr base 0) ::
      m1.regs
            memory := ((base, (k : Int)), .int r) :: m1.memory }, ?_, ?_⟩
  · simp [Machine.run, Machine.step, Machine.operand, hslot, hptr,
      List.lookup, hkw, IRType.stride, helem, hr, n0, n1, n2, n3, n5, n6, nk, q1, q2, q3, q4,
      q5, q6, q7]
  · simp [List.lookup, q1, q2, q3, q4, q5, q6, q7]

theorem compound_eval_some (op : Token) (instr : BinaryOps) (x e : Int)
    (hop : compoundOf op = some instr) (hdiv : op = .DIVASN → e ≠ 0) :
    ∃ r, instr.eval x e = some r := by
  cases op <;> simp [compoundOf] at hop <;> subst hop <;> simp [BinaryOps.eval]
  exact hdiv rfl

/-- What lowering `int[] a = [items]; a[k] op= e; return a[k];` appends. -/
theorem arrayProgram_lowering (cxx : Cxx) (a : String) (x : Int) (tail : List Int) (k : Nat)
    (op : Token) (instr : BinaryOps) (e : Int) (c : CodeGenContext) (top : CodeGenBlock)
    (rest : List CodeGenBlock) (hc : c.blocks = top :: rest)
    (hnew : top.locals.contains a = false)
    (htag : compoundOf (cxx.indeterminate (c.fresh + 1)) = none)
    (hop : compoundOf op = some instr) :
    ∃ c', StatementList.codeGen cxx .null (arrayProgram a (x :: tail) k op e) c =
        .ok (.inst (c.fresh + 3 + 2 * (tail.length + 1) + 7) .int64, c') ∧
      c'.module.insts = c.module.insts ++
        (⟨c.fresh, .alloca (.ptr .int64) a, top.block⟩ ::
         ⟨c.fresh + 1, .alloca (.array .int64 (tail.length + 1)) "", top.block⟩ ::
         itemStores top.block (.inst (c.fresh + 1) (.ptr (.array .int64 (tail.length + 1))))
           (c.fresh + 2) 0 (x :: tail) ++
         [⟨c.fresh + 2 + 2 * (tail.length + 1),
           .store (.inst (c.fresh + 1) (.ptr (.array .int64 (tail.length + 1))))
             (.inst c.fresh (.ptr (.ptr .int64))), top.block⟩]) ++
        writeThenRead top.block (.inst c.fresh (.ptr (.ptr .int64))) a
          (c.fresh + 3 + 2 * (tail.length + 1)) k instr e := by
  obtain ⟨c1, hd, hb1, hi1, hf1⟩ : ∃ c1,
      NStatement.codeGen cxx (.NArrayDeclaration "int" a (.ptr (.NArray (literals (x :: tail)))))
        c = .ok (.inst c.fresh (.ptr (.ptr .int64)), c1) ∧
      c1.blocks = { top with
        ltypes := top.ltypes.set a .int64
        locals := top.locals.set a (.inst c.fresh (.ptr (.ptr .int64))) } :: rest ∧
      c1.module.insts = c.module.insts ++
        (⟨c.fresh, .alloca (.ptr .int64) a, top.block⟩ ::
         ⟨c.fresh + 1, .alloca (.array .int64 (tail.length + 1)) "", top.block⟩ ::
         itemStores top.block (.inst (c.fresh + 1) (.ptr (.array .int64 (tail.length + 1))))
           (c.fresh + 2) 0 (x :: tail) ++
         [⟨c.fresh + 2 + 2 * (tail.length + 1),
           .store (.inst (c.fresh + 1) (.ptr (.array .int64 (tail.length + 1))))
             (.inst c.fresh (.ptr (.ptr .int64))), top.block⟩]) ∧
      c1.fresh = c.fresh + 3 + 2 * (tail.length + 1) :=
    ⟨_, arrayDeclaration_literals cxx a x tail c top rest hc hnew htag, rfl, rfl, rfl⟩
  have hw := arrayWrite_compound cxx a k e op instr hop c1 _ rest hb1
    (.inst c.fresh (.ptr (.ptr .int64))) .int64 (StdMap.find_set_self _ _ _)
    (StdMap.find_set_self _ _ _)
  obtain ⟨c2, hw2, hb2, hi2, hf2⟩ : ∃ c2,
      NExpression.codeGen cxx (.NArrayWrite a (.NInteger k) op (.NInteger e)) c1 =
        .ok (.inst (c1.fresh + 4) .void, c2) ∧
      c2.blocks = c1.blocks ∧
      c2.module.insts = c1.module.insts ++
        [⟨c1.fresh, .load (.ptr .int64) (.inst c.fresh (.ptr (.ptr .int64))) a, top.block⟩,
         ⟨c1.fresh + 1, .gep .int64 (.inst c1.fresh (.ptr .int64)) [.constInt .int64 k],
           top.block⟩,
         ⟨c1.fresh + 2, .load .int64 (.inst (c1.fresh + 1) (.ptr .int64)) "", top.block⟩,
         ⟨c1.fresh + 3, .binop instr (.inst (c1.fresh + 2) .int64) (.constInt .int64 e),
           top.block⟩,
         ⟨c1.fresh + 4, .store (.inst (c1.fresh + 3) .int64) (.inst (c1.fresh + 1) (.ptr .int64)),
           top.block⟩] ∧
      c2.fresh = c1.fresh + 5 := ⟨_, hw, rfl, rfl, rfl⟩
  have hr := arrayRead_found cxx a k c2 _ rest (hb2.trans hb1)
    (.inst c.fresh (.ptr (.ptr .int64))) .int64 (StdMap.find_set_self _ _ _)
    (StdMap.find_set_self _ _ _)
  obtain ⟨c3, hr3, hb3, hi3⟩ : ∃ c3,
      NExpression.codeGen cxx (.NArrayRead a (.NInteger k)) c2 =
        .ok (.inst (c2.fresh + 2) .int64, c3) ∧
      c3.blocks = c2.blocks ∧
      c3.module.insts = c2.module.insts ++
        [⟨c2.fresh, .load (.ptr .int64) (.inst c.fresh (.ptr (.ptr .int64))) a, top.block⟩,
         ⟨c2.fresh + 1, .gep .int64 (.inst c2.fresh (.ptr .int64)) [.constInt .int64 k],
           top.block⟩,
         ⟨c2.fresh + 2, .load .int64 (.inst (c2.fresh + 1) (.ptr .int64)) "", top.block⟩] :=
    ⟨_, hr, rfl, rfl⟩
  simp only [arrayProgram, StatementList.codeGen, hd]
  simp only [NStatement.codeGen, hw2, NReturnStatement.codeGen, hr3,
    CodeGenContext.setCurrentReturnValue, hb3, hb2, hb1]
  have hv : c2.fresh + 2 = c.fresh + 3 + 2 * (tail.length + 1) + 7 := by rw [hf2, hf1]
  rw [hv]
  refine ⟨_, rfl, ?_⟩
  simp only [hi3, hi2, hi1, hf2, hf1, writeThenRead, List.append_assoc, List.cons_append,
    List.nil_append, Nat.add_assoc]

/-- Running the instructions of `int[] a = [items];`: the slot of `a` holds the
address of the first cell of the allocation of the literal, whose cells hold
the items. -/
theorem arrayDeclaration_run (block : BasicBlock) (a : String) (f : Nat) (items : List Int)
    (hlen : items.length < 2 ^ 31) (m : Machine) :
    ∃ m1, m.run
        (⟨f, .alloca (.ptr .int64) a, block⟩ ::
         ⟨f + 1, .alloca (.array .int64 items.length) "", block⟩ ::
         itemStores block (.inst (f + 1) (.ptr (.array .int64 items.length))) (f + 2) 0 items ++
         [⟨f + 2 + 2 * items.length,
           .store (.inst (f + 1) (.ptr (.array .int64 items.length)))
             (.inst f (.ptr (.ptr .int64))), block⟩]) = some m1 ∧
      m1.regs.lookup f = some (.addr f 0) ∧
      m1.memory.lookup (f, 0) = some (.addr (f + 1) 0) ∧
      ∀ j, j < items.length →
        m1.memory.lookup (f + 1, (j : Int)) = some (.int (wrap64 (items.getD j 0))) := by
  have q : (f == f + 1) = false := by simp
  have hb : List.lookup (f + 1) ((f + 1, Word.addr (f + 1) 0) :: (f, Word.addr f 0) :: m.regs) =
      some (.addr (f + 1) 0) := by simp [List.lookup]
  obtain ⟨m', hrun, hregs, hmem, -⟩ := itemStores_run block (f + 1)
    (.ptr (.array .int64 items.length)) (f + 1) items (f + 2) 0
    { regs := (f + 1, Word.addr (f + 1) 0) :: (f, Word.addr f 0) :: m.regs, memory := m.memory }
    (by omega) (by omega) hb
  have r1 : m'.regs.lookup (f + 1) = some (.addr (f + 1) 0) := by
    rw [hregs _ (by omega)]; exact hb
  have r0 : m'.regs.lookup f = some (.addr f 0) := by
    rw [hregs _ (by omega)]; simp [List.lookup, q]
  refine ⟨{ m' with memory := ((f, 0), .addr (f + 1) 0) :: m'.memory }, ?_, r0,
    by simp [List.lookup], ?_⟩
  · simp only [Machine.run, Machine.step, List.append_eq]
    rw [Machine.run_append, hrun]
    simp [Machine.run, Machine.step, Machine.operand, r0, r1]
  · intro j hj
    have h := hmem j hj
    simp only [Nat.zero_add] at h
    have n : ((f + 1, (j : Int)) == (f, (0 : Int))) = false := by simp
    simp only [List.lookup, n]
    exact h

/-- The array program when the initializer is stored plainly:
`int[] a = [items]; a[k] op= e; return a[k];` with `k` an index of the literal
and `op` the compound tag of the operator `t` (`PLUSASN` for plus, `MINUSASN`
for minus, `MULASN` for times, `DIVASN` for division, `e` not zero for
division), lowered on a stack whose top scope has no `a` yet, when the tag left
in the assignment of the initializer is no compound tag. The lowering returns; after
the instructions `decl` of the declaration it appends the eight instructions
of `writeThenRead`: the write loads the array pointer from the slot of `a`,
takes the address of element `k`, loads the element, combines it with `e` by
the instruction of the operator (add, sub, mul, signed division) and stores
the result through that address; the
read loads the pointer, takes the address of element `k` again and loads the
element, which is the value returned. Run from any machine state, `decl`
leaves the items in the cells of the allocation of the literal, both pointer
loads yield the address of its first cell and both element addresses are cell
`k` of it; the read yields `items[k] t e` in signed 64-bit arithmetic (the
quotient rounded toward zero), which is what cell `k` then holds, and every
other cell still holds its item. -/
theorem array_compound_write_then_read (cxx : Cxx) (a : String) (items : List Int) (k : Nat)
    (t : ArithTag) (e : Int) (c : CodeGenContext) (top : CodeGenBlock)
    (rest : List CodeGenBlock) (hc : c.blocks = top :: rest)
    (hnew : top.locals.contains a = false)
    (htag : compoundOf (cxx.indeterminate (c.fresh + 1)) = none)
    (hk : k < items.length) (hlen : items.length < 2 ^ 31)
    (hdiv : t = .DIV → wrap64 e ≠ 0) :
    ∃ (c' : CodeGenContext) (decl : List Instruction) (r : Int),
      StatementList.codeGen cxx .null (arrayProgram a items k t.toCompound e) c =
        .ok (.inst (c.fresh + 3 + 2 * items.length + 7) .int64, c') ∧
      c'.module.insts = c.module.insts ++ decl ++
        writeThenRead top.block (.inst c.fresh (.ptr (.ptr .int64))) a
          (c.fresh + 3 + 2 * items.length) k t.opcode e ∧
      t.apply (wrap64 (items.getD k 0)) (wrap64 e) = some r ∧
      ∀ m : Machine, ∃ m1 m2 : Machine,
        m.run decl = some m1 ∧
        m1.run (writeThenRead top.block (.inst c.fresh (.ptr (.ptr .int64))) a
          (c.fresh + 3 + 2 * items.length) k t.opcode e) = some m2 ∧
        (∀ j, j < items.length →
          m1.memory.lookup (c.fresh + 1, (j : Int)) = some (.int (wrap64 (items.getD j 0)))) ∧
        m2.regs.lookup (c.fresh + 3 + 2 * items.length) = some (.addr (c.fresh + 1) 0) ∧
        m2.regs.lookup (c.fresh + 3 + 2 * items.length + 1) = some (.addr (c.fresh + 1) k) ∧
        m2.regs.lookup (c.fresh + 3 + 2 * items.length + 5) = some (.addr (c.fresh + 1) 0) ∧
        m2.regs.lookup (c.fresh + 3 + 2 * items.length + 6) = some (.addr (c.fresh + 1) k) ∧
        m2.regs.lookup (c.fresh + 3 + 2 * items.length + 7) = some (.int r) ∧
        m2.memory.lookup (c.fresh + 1, (k : Int)) = some (.int r) ∧
        ∀ j, j < items.length → j ≠ k →
          m2.memory.lookup (c.fresh + 1, (j : Int)) =
            some (.int (wrap64 (items.getD j 0))) := by
  obtain ⟨x, tail, rfl⟩ : ∃ x tail, items = x :: tail := by
    cases items with
    | nil => simp at hk
    | cons x tail => exact ⟨x, tail, rfl⟩
  have hop : compoundOf t.toCompound = some t.opcode := by cases t <;> rfl
  have hdiv' : t.toCompound = .DIVASN → wrap64 e ≠ 0 := by
    intro h
    apply hdiv
    cases t <;> simp [ArithTag.toCompound] at h
    rfl
  obtain ⟨c', hlow, hinsts⟩ :=
    arrayProgram_lowering cxx a x tail k t.toCompound t.opcode e c top rest hc hnew htag hop
  obtain ⟨r, hr⟩ :=
    compound_eval_some t.toCompound t.opcode (wrap64 ((x :: tail).getD k 0)) (wrap64 e)
      hop hdiv'
  refine ⟨c', _, r, hlow, hinsts, (opcode_eval t _ _).symm.trans hr, ?_⟩
  intro m
  obtain ⟨m1, h1, hslot, hptr, hcells⟩ :=
    arrayDeclaration_run top.block a c.fresh (x :: tail) hlen m
  obtain ⟨m2, h2, g0, g1, g5, g6, g7, hmem⟩ :=
    writeRead_run top.block a (.ptr (.ptr .int64)) t.opcode m1 c.fresh
      (c.fresh + 3 + 2 * (x :: tail).length) (c.fresh + 1) k _ e r (by omega) hslot hptr
      (by omega) (hcells k hk) (by omega) hr
  refine ⟨m1, m2, h1, h2, hcells, g0, g1, g5, g6, g7, ?_, ?_⟩
  · rw [hmem]
    simp [List.lookup]
  · intro j hj hjk
    rw [hmem]
    have n : ((c.fresh + 1, (j : Int)) == (c.fresh + 1, (k : Int))) = false := by
      simp
      exact hjk
    simp only [List.lookup, n]
    exact hcells j hj

/-- The spec's `int[] a = [10, 20, 30]; a[1] += 5; return a[1];` with a compiler
that leaves no compound tag: the sum of 20 and 5 is 25. -/
theorem array_compound_write_then_read_witness :
    sampleContext.blocks = [⟨sampleEntry, .null, [], []⟩] ∧
    ArithTag.apply .PLUS (wrap64 20) (wrap64 5) = some 25 ∧
    ∃ (c' : CodeGenContext) (decl : List Instruction) (r : Int),
      StatementList.codeGen firstToLast .null
          (arrayProgram "a" [10, 20, 30] 1 ArithTag.PLUS.toCompound 5) sampleContext =
        .ok (.inst (sampleContext.fresh + 3 + 2 * [(10 : Int), 20, 30].length + 7) .int64, c') ∧
      c'.module.insts = sampleContext.module.insts ++ decl ++
        writeThenRead sampleEntry (.inst sampleContext.fresh (.ptr (.ptr .int64))) "a"
          (sampleContext.fresh + 3 + 2 * [(10 : Int), 20, 30].length) 1 ArithTag.PLUS.opcode 5 ∧
      ArithTag.apply .PLUS (wrap64 ([(10 : Int), 20, 30].getD 1 0)) (wrap64 5) = some r ∧
      ∀ m : Machine, ∃ m1 m2 : Machine,
        m.run decl = some m1 ∧
        m1.run (writeThenRead sampleEntry (.inst sampleContext.fresh (.ptr (.ptr .int64))) "a"
          (sampleContext.fresh + 3 + 2 * [(10 : Int), 20, 30].length) 1 ArithTag.PLUS.opcode 5) = some m2 ∧
        (∀ j, j < [(10 : Int), 20, 30].length →
          m1.memory.lookup (sampleContext.fresh + 1, (j : Int)) =
            some (.int (wrap64 ([(10 : Int), 20, 30].getD j 0)))) ∧
        m2.regs.lookup (sampleContext.fresh + 3 + 2 * [(10 : Int), 20, 30].length) =
          some (.addr (sampleContext.fresh + 1) 0) ∧
        m2.regs.lookup (sampleContext.fresh + 3 + 2 * [(10 : Int), 20, 30].length + 1) =
          some (.addr (sampleContext.fresh + 1) (1 : Nat)) ∧
        m2.regs.lookup (sampleContext.fresh + 3 + 2 * [(10 : Int), 20, 30].length + 5) =
          some (.addr (sampleContext.fresh + 1) 0) ∧
        m2.regs.lookup (sampleContext.fresh + 3 + 2 * [(10 : Int), 20, 30].length + 6) =
          some (.addr (sampleContext.fresh + 1) (1 : Nat)) ∧
        m2.regs.lookup (sampleContext.fresh + 3 + 2 * [(10 : Int), 20, 30].length + 7) =
          some (.int r) ∧
        m2.memory.lookup (sampleContext.fresh + 1, ((1 : Nat) : Int)) = some (.int r) ∧
        ∀ j, j < [(10 : Int), 20, 30].length → j ≠ 1 →
          m2.memory.lookup (sampleContext.fresh + 1, (j : Int)) =
            some (.int (wrap64 ([(10 : Int), 20, 30].getD j 0))) :=
  ⟨rfl, by decide,
   array_compound_write_then_read firstToLast "a" [10, 20, 30] 1 .PLUS 5 sampleContext
     ⟨sampleEntry, .null, [], []⟩ [] rfl rfl rfl (by decide) (by decide) (by decide)⟩

/-- C17 (the code at the failing input): `int[] a = [10, 20, 30]; a[1] += 5;
return a[1];` in the sample context, when the uninitialised member `op` of the
assignment object of the initializer reads as the tag `PLUSASN`. The lowering
returns, but the declaration does not store the address of the literal (the
allocation 4) into the slot of `a` (the allocation 2): it loads the slot that
nothing has been stored to (instruction 3), adds the address of the literal to
the loaded value (instruction 11) and stores the sum into the slot
(instruction 12), the only store into the slot. The pointer the write and the
read load from the slot (instructions 13 and 18) is therefore not the address
of the literal, and the memory machine has no run of the instructions: the
load of instruction 3 reads a cell nothing was written to. -/
theorem array_initializer_with_leftover_tag :
    (StatementList.codeGen leavesPlusAsn .null (arrayProgram "a" [10, 20, 30] 1 .PLUSASN 5)
        sampleContext).map (fun r => (r.1, r.2.cerr)) = .ok (.inst 20 .int64, []) ∧
    (StatementList.codeGen leavesPlusAsn .null (arrayProgram "a" [10, 20, 30] 1 .PLUSASN 5)
        sampleContext).map
      (fun r => r.2.module.insts.filter (fun i => i.id = 2 ∨ i.id = 3 ∨ i.id = 4 ∨ 11 ≤ i.id)) =
      .ok [⟨2, .alloca (.ptr .int64) "a", sampleEntry⟩,
         ⟨3, .load .int64 (.inst 2 (.ptr (.ptr .int64))) "a", sampleEntry⟩,
         ⟨4, .alloca (.array .int64 3) "", sampleEntry⟩,
         ⟨11, .binop .Add (.inst 3 .int64) (.inst 4 (.ptr (.array .int64 3))), sampleEntry⟩,
         ⟨12, .store (.inst 11 .int64) (.inst 2 (.ptr (.ptr .int64))), sampleEntry⟩,
         ⟨13, .load (.ptr .int64) (.inst 2 (.ptr (.ptr .int64))) "a", sampleEntry⟩,
         ⟨14, .gep .int64 (.inst 13 (.ptr .int64)) [.constInt .int64 1], sampleEntry⟩,
         ⟨15, .load .int64 (.inst 14 (.ptr .int64)) "", sampleEntry⟩,
         ⟨16, .binop .Add (.inst 15 .int64) (.constInt .int64 5), sampleEntry⟩,
         ⟨17, .store (.inst 16 .int64) (.inst 14 (.ptr .int64)), sampleEntry⟩,
         ⟨18, .load (.ptr .int64) (.inst 2 (.ptr (.ptr .int64))) "a", sampleEntry⟩,
         ⟨19, .gep .int64 (.inst 18 (.ptr .int64)) [.constInt .int64 1], sampleEntry⟩,
         ⟨20, .load .int64 (.inst 19 (.ptr .int64)) "", sampleEntry⟩] ∧
    (StatementList.codeGen leavesPlusAsn .null (arrayProgram "a" [10, 20, 30] 1 .PLUSASN 5)
        sampleContext).map (fun r => r.2.module.insts.map (fun i => i.id)) =
      .ok [2, 3, 4, 5, 6, 7, 8, 9, 10, 11, 12, 13, 14, 15, 16, 17, 18, 19, 20] ∧
    (StatementList.codeGen leavesPlusAsn .null (arrayProgram "a" [10, 20, 30] 1 .PLUSASN 5)
        sampleContext).map
      (fun r => ((Machine.run ⟨[], []⟩ r.2.module.insts).isSome,
        (Machine.run ⟨[], []⟩ (r.2.module.insts.take 1)).isSome,
        (Machine.run ⟨[], []⟩ (r.2.module.insts.take 2)).isSome)) =
      .ok (false, true, false) := by
  refine ⟨?_, ?_, ?_, ?_⟩ <;> decide!

/-! ### Lookups that fail and declarations that are refused -/

/-- C21: `findLocals` is defined on every stack and every name (the recursion
is on a stack that is one scope shorter each time), and the stack it leaves is
the stack it was given: the same scopes in the same order, each with its block,
return slot, symbol table and recorded types, whether it returns a scope or
the null pointer. -/
theorem findLocals_leaves_stack (blocks : List CodeGenBlock) (name : String) :
    (findLocals blocks name).2 = blocks := by
  induction blocks with
  | nil => rfl
  | cons b rest ih =>
    unfold findLocals
    by_cases hb : b.locals.contains name = true
    · simp [hb]
    · simp [hb, ih]

/-- C22 (the code when no scope declares the name): `NArrayRead::codeGen` and
`NArrayWrite::codeGen` do not test the pointer `findLocals` returns. When no
scope on the stack holds `arr` the pointer is null and the first statement
after the lookup reads `b->ltypes[arr]` through it: the run ends in that
access through the missing scope, and no "undeclared" diagnostic is written.
`NIdentifier::codeGen` on the same stack tests the pointer, writes the
diagnostic and returns null. -/
theorem array_access_of_undeclared_name (cxx : Cxx) (arr : String) (index assignment : NExpression)
    (op : Token) (c : CodeGenContext)
    (hnone : ∀ s ∈ c.blocks, s.locals.contains arr = false) :
    NExpression.codeGen cxx (.NArrayRead arr index) c = .error .nullScope ∧
    NExpression.codeGen cxx (.NArrayWrite arr index op assignment) c = .error .nullScope ∧
    NExpression.codeGen cxx (.NIdentifier arr) c =
      .ok (.null, c.report (.undeclaredVariable arr)) := by
  have hf : (findLocals c.blocks arr).1 = none := (findLocals_none_iff c.blocks arr).mpr hnone
  refine ⟨?_, ?_, ?_⟩
  · simp [NExpression.codeGen, NArrayRead.codeGen, hf, arrayElementAddress]
  · simp [NExpression.codeGen, NArrayWrite.codeGen, hf, arrayElementAddress]
  · simp [NExpression.codeGen, NIdentifier.codeGen, hf, findLocals_snd]

theorem array_access_of_undeclared_name_witness :
    (∀ s ∈ sampleContext.blocks, s.locals.contains "a" = false) ∧
    NExpression.codeGen firstToLast (.NArrayRead "a" (.NInteger 0)) sampleContext =
      .error .nullScope ∧
    NExpression.codeGen firstToLast (.NArrayWrite "a" (.NInteger 0) .PLUSASN (.NInteger 1))
      sampleContext = .error .nullScope ∧
    NExpression.codeGen firstToLast (.NIdentifier "a") sampleContext =
      .ok (.null, sampleContext.report (.undeclaredVariable "a")) :=
  ⟨by decide,
   array_access_of_undeclared_name firstToLast "a" (.NInteger 0) (.NInteger 1) .PLUSASN
     sampleContext (by decide)⟩

/-- C25: a VarDecl or an ArrayDecl of a name the top scope already holds writes
the "already declared" diagnostic and returns null, whatever the initializer
is: the stack (every scope with its symbol table, recorded types, block and
return slot), the module with its instruction stream and the counter of
created objects are those before the declaration, so the entry keeps its
handle and type and nothing was appended; the result does not depend on the
initializer, which is not lowered. -/
theorem redeclaration_changes_nothing (cxx : Cxx) (type id : String)
    (assignmentExpr : OptExpression) (c : CodeGenContext) (top : CodeGenBlock)
    (rest : List CodeGenBlock) (hc : c.blocks = top :: rest)
    (hheld : top.locals.contains id = true) :
    NStatement.codeGen cxx (.NVariableDeclaration type id assignmentExpr) c =
      .ok (.null, c.report (.variableAlreadyDeclared id)) ∧
    NStatement.codeGen cxx (.NArrayDeclaration type id assignmentExpr) c =
      .ok (.null, c.report (.arrayAlreadyDeclared id)) ∧
    (∀ d, (c.report d).blocks = c.blocks ∧ (c.report d).module = c.module ∧
      (c.report d).fresh = c.fresh ∧ (c.report d).mainFunction = c.mainFunction ∧
      (c.report d).cerr = c.cerr ++ [d]) := by
  refine ⟨?_, ?_, fun d => ⟨rfl, rfl, rfl, rfl, rfl⟩⟩
  · simp [NStatement.codeGen, NVariableDeclaration.codeGen, hc, hheld]
  · simp [NStatement.codeGen, NArrayDeclaration.codeGen, hc, hheld]

theorem redeclaration_changes_nothing_witness :
    sampleDeclaredX.blocks =
      [⟨sampleEntry, .null, [("x", .inst 2 (.ptr .int64))], [("x", .int64)]⟩] ∧
    NExpression.codeGen firstToLast (.NArrayRead "nowhere" (.NInteger 0)) sampleDeclaredX =
      .error .nullScope ∧
    NStatement.codeGen firstToLast
        (.NVariableDeclaration "double" "x" (.ptr (.NArrayRead "nowhere" (.NInteger 0))))
        sampleDeclaredX =
      .ok (.null, sampleDeclaredX.report (.variableAlreadyDeclared "x")) ∧
    NStatement.codeGen firstToLast
        (.NArrayDeclaration "double" "x" (.ptr (.NArrayRead "nowhere" (.NInteger 0))))
        sampleDeclaredX =
      .ok (.null, sampleDeclaredX.report (.arrayAlreadyDeclared "x")) ∧
    (∀ d, (sampleDeclaredX.report d).blocks = sampleDeclaredX.blocks ∧
      (sampleDeclaredX.report d).module = sampleDeclaredX.module ∧
      (sampleDeclaredX.report d).fresh = sampleDeclaredX.fresh ∧
      (sampleDeclaredX.report d).mainFunction = sampleDeclaredX.mainFunction ∧
      (sampleDeclaredX.report d).cerr = sampleDeclaredX.cerr ++ [d]) :=
  ⟨rfl, by decide,
   redeclaration_changes_nothing firstToLast "double" "x"
     (.ptr (.NArrayRead "nowhere" (.NInteger 0))) sampleDeclaredX
     ⟨sampleEntry, .null, [("x", .inst 2 (.ptr .int64))], [("x", .int64)]⟩ [] rfl rfl⟩

/-! ### Parameters -/

theorem parameterInsts_store (function : Function) (bblock current : BasicBlock)
    (ps : List (String × String)) :
    ∀ (fresh i j : Nat) (hj : j < ps.length),
      (⟨fresh + 2 * j + 1,
        .store (.argument function.id (i + j) (function.argTys.getD (i + j) .null))
          (.inst (fresh + 2 * j) (.ptr (typeOf (ps.get ⟨j, hj⟩).1).1)), bblock⟩ : Instruction) ∈
        parameterInsts function bblock current fresh i ps := by
  induction ps with
  | nil => intro _ _ j hj; exact absurd hj (Nat.not_lt_zero j)
  | cons p tail ih =>
    obtain ⟨type, id⟩ := p
    intro fresh i j hj
    cases j with
    | zero => simp [parameterInsts]
    | succ j =>
      have h := ih (fresh + 2) (i + 1) j (by simpa using hj)
      have e1 : fresh + 2 + 2 * j = fresh + 2 * (j + 1) := by omega
      have e2 : i + 1 + j = i + (j + 1) := by omega
      rw [e1, e2] at h
      simp only [parameterInsts, List.mem_cons]
      exact Or.inr (Or.inr h)

/-- One round of the parameter loop for a parameter without default value whose
name the top scope does not hold yet. -/
theorem parameter_round (cxx : Cxx) (function : Function) (bblock : BasicBlock) (i : Nat)
    (type id : String) (c : CodeGenContext) (top : CodeGenBlock) (rest : List CodeGenBlock)
    (hc : c.blocks = top :: rest) (hnew : top.locals.contains id = false) :
    ∃ c1 c2, NVariableDeclaration.codeGen cxx type id none c =
        .ok (.inst c.fresh (.ptr (typeOf type).1), c1) ∧
      storeArgument function bblock i id c1 = .ok ((), c2) ∧
      c2.blocks =
        { top with
          ltypes := top.ltypes.set id (typeOf type).1
          locals := top.locals.set id (.inst c.fresh (.ptr (typeOf type).1)) } :: rest ∧
      c2.module.insts = c.module.insts ++
        [⟨c.fresh, .alloca (typeOf type).1 id, top.block⟩,
         ⟨c.fresh + 1, .store (.argument function.id i (function.argTys.getD i .null))
           (.inst c.fresh (.ptr (typeOf type).1)), bblock⟩] ∧
      c2.fresh = c.fresh + 2 := by
  have h1 : NVariableDeclaration.codeGen cxx type id none c =
      .ok (.inst c.fresh (.ptr (typeOf type).1), registered (fun ty => ty) type id c top rest) := by
    simp only [NVariableDeclaration.codeGen, hc, hnew, Bool.false_eq_true, ↓reduceIte]
    rw [declare_eq cxx _ type id none top rest c hc]
  have h2 : storeArgument function bblock i id (registered (fun ty => ty) type id c top rest) =
      .ok ((), ((registered (fun ty => ty) type id c top rest).emit bblock
        (.store (.argument function.id i (function.argTys.getD i .null))
          (.inst c.fresh (.ptr (typeOf type).1)))).2) := by
    simp [storeArgument, topLocals, registered, StdMap.index, StdMap.find_set_self,
      CodeGenContext.emit]
  refine ⟨_, _, h1, h2, ?_, ?_, ?_⟩
  · rfl
  · simp [registered, CodeGenContext.emit]
  · simp [registered, CodeGenContext.emit]

theorem parameters_lowering (cxx : Cxx) (function : Function) (bblock : BasicBlock)
    (rest : List CodeGenBlock) (ps : List (String × String)) :
    ∀ (i : Nat) (c : CodeGenContext) (top : CodeGenBlock), c.blocks = top :: rest →
      (∀ p ∈ ps, top.locals.contains p.2 = false) → (ps.map Prod.snd).Nodup →
      ∃ c' top', VariableList.codeGen cxx function bblock i (parameters ps) c = .ok ((), c') ∧
        c'.blocks = top' :: rest ∧ top'.block = top.block ∧
        c'.module.insts =
          c.module.insts ++ parameterInsts function bblock top.block c.fresh i ps ∧
        c'.fresh = c.fresh + 2 * ps.length ∧
        (∀ n v, top.locals.find n = some v → top'.locals.find n = some v) ∧
        ∀ (j : Nat) (hj : j < ps.length),
          top'.locals.find (ps.get ⟨j, hj⟩).2 =
            some (.inst (c.fresh + 2 * j) (.ptr (typeOf (ps.get ⟨j, hj⟩).1).1)) := by
  induction ps with
  | nil =>
    intro i c top hc _ _
    exact ⟨c, top, rfl, hc, rfl, by simp [parameterInsts], rfl, fun _ _ h => h,
      fun j hj => absurd hj (Nat.not_lt_zero j)⟩
  | cons p tail ih =>
    obtain ⟨type, id⟩ := p
    intro i c top hc hnew hd
    simp only [List.map_cons, List.nodup_cons, List.mem_map, not_exists, not_and] at hd
    obtain ⟨c1, c2, h1, h2, hb2, hi2, hf2⟩ :=
      parameter_round cxx function bblock i type id c top rest hc
        (hnew (type, id) (by simp))
    have hnew2 : ∀ p ∈ tail,
        StdMap.contains (top.locals.set id (.inst c.fresh (.ptr (typeOf type).1))) p.2 = false := by
      intro p hp
      have hne : id ≠ p.2 := fun e => hd.1 p hp e.symm
      rw [StdMap.contains_set_ne _ _ _ _ hne]
      exact hnew p (by simp [hp])
    obtain ⟨c', top', h3, hb3, hk3, hi3, hf3, hkeep, hfind⟩ :=
      ih (i + 1) c2 _ hb2 hnew2 hd.2
    refine ⟨c', top', ?_, hb3, hk3, ?_, ?_, ?_, ?_⟩
    · simp only [parameters, VariableList.codeGen, OptExpression.codeGen, h1, h2]
      exact h3
    · rw [hi3, hi2, hf2]
      simp [parameterInsts]
    · rw [hf3, hf2]
      simp only [List.length_cons]
      omega
    · intro n v hn
      apply hkeep
      have hne : id ≠ n := by
        rintro rfl
        have := hnew (type, id) (by simp)
        simp [StdMap.contains, hn] at this
      simpa [StdMap.find_set_ne _ _ _ _ hne] using hn
    · intro j hj
      cases j with
      | zero =>
        exact hkeep _ _ (StdMap.find_set_self _ _ _)
      | succ j =>
        have h := hfind j (by simpa using hj)
        rw [hf2] at h
        have e : c.fresh + 2 + 2 * j = c.fresh + 2 * (j + 1) := by omega
        rw [e] at h
        exact h

theorem parameterInsts_alloca (function : Function) (bblock current : BasicBlock)
    (ps : List (String × String)) :
    ∀ (fresh i j : Nat) (hj : j < ps.length),
      (⟨fresh + 2 * j, .alloca (typeOf (ps.get ⟨j, hj⟩).1).1 (ps.get ⟨j, hj⟩).2, current⟩ :
        Instruction) ∈ parameterInsts function bblock current fresh i ps := by
  induction ps with
  | nil => intro _ _ j hj; exact absurd hj (Nat.not_lt_zero j)
  | cons p tail ih =>
    obtain ⟨type, id⟩ := p
    intro fresh i j hj
    cases j with
    | zero => simp [parameterInsts]
    | succ j =>
      have h := ih (fresh + 2) (i + 1) j (by simpa using hj)
      have e1 : fresh + 2 + 2 * j = fresh + 2 * (j + 1) := by omega
      rw [e1] at h
      simp only [parameterInsts, List.mem_cons]
      exact Or.inr (Or.inr h)

/-- A declaration whose initializer leaves the scopes as they are: the handle,
the scopes, the instructions and the counter afterwards. -/
theorem declare_framed (cxx : Cxx) (slotTy : IRType → IRType) (type id : String)
    (init : OptExpression) (c : CodeGenContext) (v : Value) (c' : CodeGenContext)
    (top : CodeGenBlock) (rest : List CodeGenBlock) (hc : c.blocks = top :: rest)
    (hinit : ∀ e, init = .ptr e → FrameOn (fun _ => True) (NExpression.codeGen cxx e))
    (h : declare cxx slotTy type id (OptExpression.codeGen cxx init) c = .ok (v, c')) :
    v = .inst c.fresh (.ptr (slotTy (typeOf type).1)) ∧
      sameLocals (registered slotTy type id c top rest).blocks c'.blocks ∧
      (∃ new, c'.module.insts = c.module.insts ++
        ⟨c.fresh, .alloca (slotTy (typeOf type).1) id, top.block⟩ :: new) ∧
      c.fresh + 1 ≤ c'.fresh := by
  rw [declare_eq cxx slotTy type id _ top rest c hc] at h
  cases init with
  | null =>
    simp only [OptExpression.codeGen] at h
    cases h
    exact ⟨rfl, sameLocals_refl _, ⟨[], by simp [registered]⟩, by simp [registered]⟩
  | ptr e =>
    simp only [OptExpression.codeGen] at h
    split at h
    · cases h
    · rename_i w c5 h5
      cases h
      have x := tracks_NAssignment cxx id (cxx.indeterminate (c.fresh + 1))
        (tracks_NExpression cxx e) _ _ _ h5
      obtain ⟨-, -, ⟨new, hnew⟩, -, -, hfr⟩ := x
      have hs := frame_NAssignment stable_true cxx id (cxx.indeterminate (c.fresh + 1))
        (hinit e rfl) _ _ _ trivial h5
      refine ⟨rfl, hs, ⟨new, ?_⟩, ?_⟩
      · rw [hnew]
        simp [registered]
      · simpa [registered] using hfr

/-- The store of an argument into the slot the top scope holds for the name. -/
theorem storeArgument_found (function : Function) (bblock : BasicBlock) (i : Nat) (id : String)
    (c : CodeGenContext) (top : CodeGenBlock) (rest : List CodeGenBlock) (slot : Value)
    (hc : c.blocks = top :: rest) (hf : top.locals.find id = some slot) :
    storeArgument function bblock i id c =
      .ok ((), (c.emit bblock
        (.store (.argument function.id i (function.argTys.getD i .null)) slot)).2) := by
  obtain ⟨blocks, module, mainFunction, cerr, fresh⟩ := c
  simp only at hc
  subst hc
  simp [storeArgument, topLocals, StdMap.index, hf, CodeGenContext.emit]

/-- The parameter loop on a list with default values that leave the scopes as
they are, names pairwise distinct and new to the top scope, when it returns. -/
theorem parameters_with_defaults (cxx : Cxx) (function : Function) (bblock : BasicBlock) :
    (vs : VariableList) → ∀ (i : Nat) (c c' : CodeGenContext) (top : CodeGenBlock)
      (rest : List CodeGenBlock), c.blocks = top :: rest →
      (∀ n ∈ vs.names, top.locals.contains n = false) → vs.names.Nodup →
      (∀ e ∈ vs.defaults, FrameOn (fun _ => True) (NExpression.codeGen cxx e)) →
      VariableList.codeGen cxx function bblock i vs c = .ok ((), c') →
      ∃ top' rest', c'.blocks = top' :: rest' ∧ top'.block = top.block ∧
        rest'.length = rest.length ∧
        (∀ n v, top.locals.find n = some v → top'.locals.find n = some v) ∧
        c.fresh ≤ c'.fresh ∧
        ∃ slot store : Nat → Nat, ∀ j, j < vs.names.length →
          c.fresh ≤ slot j ∧ slot j < store j ∧ store j < c'.fresh ∧
          (∀ k, j < k → k < vs.names.length → store j < slot k) ∧
          (⟨slot j, .alloca (typeOf (vs.typeNames.getD j "")).1 (vs.names.getD j ""),
            top.block⟩ : Instruction) ∈ c'.module.insts ∧
          (⟨store j,
            .store (.argument function.id (i + j) (function.argTys.getD (i + j) .null))
              (.inst (slot j) (.ptr (typeOf (vs.typeNames.getD j "")).1)), bblock⟩ :
            Instruction) ∈ c'.module.insts ∧
          top'.locals.find (vs.names.getD j "") =
            some (.inst (slot j) (.ptr (typeOf (vs.typeNames.getD j "")).1))
  | .nil => by
    intro i c c' top rest hc _ _ _ h
    simp only [VariableList.codeGen] at h
    cases h
    exact ⟨top, rest, hc, rfl, rfl, fun _ _ h => h, le_refl _, fun _ => 0, fun _ => 0,
      fun j hj => absurd hj (by simp [VariableList.names])⟩
  | .cons type id init tail => by
    intro i c c' top rest hc hnew hd hframe h
    simp only [VariableList.names, List.nodup_cons, List.mem_cons, forall_eq_or_imp] at hnew hd
    obtain ⟨hid, hnew⟩ := hnew
    obtain ⟨hnotin, hd⟩ := hd
    simp only [VariableList.codeGen] at h
    split at h
    · cases h
    · rename_i u c1 h1
      split at h
      · cases h
      · rename_i u2 c2 h2
        simp only [NVariableDeclaration.codeGen, hc, hid, Bool.false_eq_true, ↓reduceIte] at h1
        have hinit : ∀ e, init = .ptr e →
            FrameOn (fun _ => True) (NExpression.codeGen cxx e) := by
          intro e he
          apply hframe
          subst he
          simp [VariableList.defaults]
        obtain ⟨hv, hs, ⟨new, hnew1⟩, hf1⟩ :=
          declare_framed cxx (fun ty => ty) type id init c u c1 top rest hc hinit h1
        cases hb1 : c1.blocks with
        | nil => rw [hb1] at hs; simp [sameLocals, registered] at hs
        | cons top1 rest1 =>
          rw [hb1] at hs
          simp only [registered] at hs
          obtain ⟨hk, hr⟩ := sameLocals_cons.mp hs
          simp only [CodeGenBlock.key, Prod.mk.injEq] at hk
          obtain ⟨hk1, -, hk3⟩ := hk
          have hfind1 : top1.locals.find id = some (.inst c.fresh (.ptr (typeOf type).1)) := by
            rw [← hk3]
            exact StdMap.find_set_self _ _ _
          rw [storeArgument_found function bblock i id c1 top1 rest1 _ hb1 hfind1] at h2
          cases h2
          have hframe2 : ∀ e ∈ tail.defaults,
              FrameOn (fun _ => True) (NExpression.codeGen cxx e) := by
            intro e he
            apply hframe
            cases init with
            | null => simpa [VariableList.defaults] using he
            | ptr e0 => simp [VariableList.defaults, he]
          have hnew2 : ∀ n ∈ tail.names, top1.locals.contains n = false := by
            intro n hn
            have hne : id ≠ n := fun e => hnotin (e ▸ hn)
            rw [← hk3, StdMap.contains_set_ne _ _ _ _ hne]
            exact hnew n hn
          obtain ⟨top', rest', hb', hblk, hlen, hkeep, hfr, slot, store, hall⟩ :=
            parameters_with_defaults cxx function bblock tail (i + 1) _ c' top1 rest1
              (show (c1.emit bblock _).2.blocks = top1 :: rest1 from hb1) hnew2 hd hframe2 h
          obtain ⟨-, -, ⟨new2, hnew2i⟩, -, -, -⟩ :=
            tracks_VariableList cxx tail function bblock (i + 1) _ _ _ h
          have hf2 : (c1.emit bblock
              (.store (.argument function.id i (function.argTys.getD i .null))
                (.inst c.fresh (.ptr (typeOf type).1)))).2.fresh = c1.fresh + 1 := rfl
          have hi2 : (c1.emit bblock
              (.store (.argument function.id i (function.argTys.getD i .null))
                (.inst c.fresh (.ptr (typeOf type).1)))).2.module.insts =
              c1.module.insts ++ [⟨c1.fresh,
                .store (.argument function.id i (function.argTys.getD i .null))
                  (.inst c.fresh (.ptr (typeOf type).1)), bblock⟩] := rfl
          rw [hf2] at hfr hall
          rw [hi2, hnew1] at hnew2i
          refine ⟨top', rest', hb', hblk.trans hk1.symm, ?_, ?_, by omega,
            fun j => match j with
              | 0 => c.fresh
              | j + 1 => slot j,
            fun j => match j with
              | 0 => c1.fresh
              | j + 1 => store j, ?_⟩
          · rw [hlen, ← sameLocals_length hr]
          · intro n v hn
            apply hkeep
            have hne : id ≠ n := by
              rintro rfl
              simp [StdMap.contains, hn] at hid
            rw [← hk3]
            simpa [StdMap.find_set_ne _ _ _ _ hne] using hn
          · intro j hj
            cases j with
            | zero =>
              have hlast : c1.fresh < c'.fresh := by omega
              refine ⟨le_refl _, by simp only; omega, by simp only; omega, ?_, ?_, ?_, ?_⟩
              · intro k hk hkl
                cases k with
                | zero => exact absurd hk (Nat.lt_irrefl 0)
                | succ k =>
                  have := (hall k (by simpa [VariableList.names] using hkl)).1
                  simp only
                  omega
              · rw [hnew2i]
                simp [VariableList.typeNames, VariableList.names, hk1]
              · rw [hnew2i]
                simp [VariableList.typeNames, VariableList.names]
              · simp only [VariableList.typeNames, VariableList.names, List.getD_cons_zero]
                exact hkeep _ _ hfind1
            | succ j =>
              obtain ⟨a1, a2, a3, a4, a5, a6, a7⟩ :=
                hall j (by simpa [VariableList.names] using hj)
              refine ⟨by simp only; omega, a2, a3, ?_, ?_, ?_, ?_⟩
              · intro k hk hkl
                cases k with
                | zero => exact absurd hk (Nat.not_lt_zero _)
                | succ k =>
                  exact a4 k (by omega) (by simpa [VariableList.names] using hkl)
              · simpa only [VariableList.typeNames, VariableList.names, List.getD_cons_succ,
                  hk1] using a5
              · have e : i + (j + 1) = i + 1 + j := by omega
                simpa only [VariableList.typeNames, VariableList.names, List.getD_cons_succ,
                  e] using a6
              · simpa only [VariableList.typeNames, VariableList.names, List.getD_cons_succ]
                  using a7

/-- C23 (counterexample): two parameter lists lowered in the sample context.
In `int f(int a, int a) { }` the second parameter is refused as already
declared and gets no slot; the store of the second argument goes into the slot
of the first parameter, instruction 4, right after the store of the first
argument. In `int f(int a = { int b; 5; }, int b) { }` the names differ, but
the default value of `a` declares `b` in the scope of the function: the
parameter `b` is refused and gets no slot, and the second argument is stored
into instruction 5, the slot the default value allocated. -/
theorem parameters_with_one_name :
    (NStatement.codeGen firstToLast sampleTwiceA sampleContext).map
      (fun r => (r.2.module.insts.map (fun i => (i.id, i.kind)), r.2.cerr)) =
      .ok ([(4, .alloca .int64 "a"),
            (5, .store (.argument 2 0 .int64) (.inst 4 (.ptr .int64))),
            (6, .store (.argument 2 1 .int64) (.inst 4 (.ptr .int64))),
            (7, .ret .null)],
           [.variableAlreadyDeclared "a"]) ∧
    (NStatement.codeGen firstToLast sampleDeclaringDefault sampleContext).map
      (fun r => (r.2.module.insts.map (fun i => (i.id, i.kind)), r.2.cerr)) =
      .ok ([(4, .alloca .int64 "a"),
            (5, .alloca .int64 "b"),
            (6, .store (.constInt .int64 5) (.inst 4 (.ptr .int64))),
            (7, .store (.argument 2 0 .int64) (.inst 4 (.ptr .int64))),
            (8, .store (.argument 2 1 .int64) (.inst 5 (.ptr .int64))),
            (9, .ret .null)],
           [.variableAlreadyDeclared "b"]) := by
  constructor <;> decide!

/-- C23 (amended): the parameter loop of `NFunctionDeclaration::codeGen`, run
from parameter `i` on, on a stack whose top scope holds none of the parameter
names (for the first parameter this is the scope the function has just pushed
on its entry block `bblock`).

For a list `vs` with or without default values, when the names are pairwise
distinct and the lowering of each default value leaves the scopes as they are
(their blocks and symbol tables), every run of the loop that returns has
created, for each parameter `j`, the allocation `slot j` of its own slot in the
block of the top scope and the store `store j` of argument `i + j` into that
slot in `bblock`, numbered in the order of creation: the slot before its store,
and the store of a parameter before the slot of every later parameter.
Afterwards the top scope is the one lookup returns for the name, and it holds
that slot for it. Every default value without a block expression leaves the
scopes as they are.

For a list `ps` without default values and with pairwise distinct names the
loop returns, and what it appends is exactly the allocation and the store of
each parameter in turn.

A parameter whose name the top scope already holds, as the second of two
parameters with one name, is refused with the "already declared" diagnostic
and gets no slot, and its argument is stored into the slot the name already
has. -/
theorem parameters_registered_and_stored (cxx : Cxx) (function : Function)
    (bblock : BasicBlock) (vs : VariableList) (ps : List (String × String)) (i : Nat)
    (c c' : CodeGenContext) (top : CodeGenBlock) (rest : List CodeGenBlock)
    (hc : c.blocks = top :: rest) :
    ((∀ n ∈ vs.names, top.locals.contains n = false) → vs.names.Nodup →
      (∀ e ∈ vs.defaults, FrameOn (fun _ => True) (NExpression.codeGen cxx e)) →
      VariableList.codeGen cxx function bblock i vs c = .ok ((), c') →
      ∃ top' rest', c'.blocks = top' :: rest' ∧ top'.block = top.block ∧
        rest'.length = rest.length ∧
        ∃ slot store : Nat → Nat, ∀ j, j < vs.names.length →
          c.fresh ≤ slot j ∧ slot j < store j ∧
          (∀ k, j < k → k < vs.names.length → store j < slot k) ∧
          (⟨slot j, .alloca (typeOf (vs.typeNames.getD j "")).1 (vs.names.getD j ""),
            top.block⟩ : Instruction) ∈ c'.module.insts ∧
          (⟨store j,
            .store (.argument function.id (i + j) (function.argTys.getD (i + j) .null))
              (.inst (slot j) (.ptr (typeOf (vs.typeNames.getD j "")).1)), bblock⟩ :
            Instruction) ∈ c'.module.insts ∧
          (findLocals c'.blocks (vs.names.getD j "")).1 = some rest.length ∧
          top'.locals.find (vs.names.getD j "") =
            some (.inst (slot j) (.ptr (typeOf (vs.typeNames.getD j "")).1))) ∧
    (∀ e : NExpression, e.blockFree = true →
      FrameOn (fun _ => True) (NExpression.codeGen cxx e)) ∧
    ((∀ p ∈ ps, top.locals.contains p.2 = false) → (ps.map Prod.snd).Nodup →
      ∃ c' top', VariableList.codeGen cxx function bblock i (parameters ps) c = .ok ((), c') ∧
        c'.blocks = top' :: rest ∧ top'.block = top.block ∧
        c'.module.insts =
          c.module.insts ++ parameterInsts function bblock top.block c.fresh i ps ∧
        ∀ (j : Nat) (hj : j < ps.length),
          (findLocals c'.blocks (ps.get ⟨j, hj⟩).2).1 = some rest.length ∧
          top'.locals.find (ps.get ⟨j, hj⟩).2 =
            some (.inst (c.fresh + 2 * j) (.ptr (typeOf (ps.get ⟨j, hj⟩).1).1)) ∧
          (⟨c.fresh + 2 * j, .alloca (typeOf (ps.get ⟨j, hj⟩).1).1 (ps.get ⟨j, hj⟩).2,
            top.block⟩ : Instruction) ∈ c'.module.insts ∧
          (⟨c.fresh + 2 * j + 1,
            .store (.argument function.id (i + j) (function.argTys.getD (i + j) .null))
              (.inst (c.fresh + 2 * j) (.ptr (typeOf (ps.get ⟨j, hj⟩).1).1)), bblock⟩ :
            Instruction) ∈ c'.module.insts) ∧
    (∀ (type id : String) (assignmentExpr : OptExpression) (tail : VariableList) (slot : Value),
      top.locals.find id = some slot →
      VariableList.codeGen cxx function bblock i (.cons type id assignmentExpr tail) c =
        VariableList.codeGen cxx function bblock (i + 1) tail
          ((c.report (.variableAlreadyDeclared id)).emit bblock
            (.store (.argument function.id i (function.argTys.getD i .null)) slot)).2) := by
  refine ⟨?_, fun e he => frame_NExpression cxx e he, ?_, ?_⟩
  · intro hnew hd hframe h
    obtain ⟨top', rest', hb', hblk, hlen, -, -, slot, store, hall⟩ :=
      parameters_with_defaults cxx function bblock vs i c c' top rest hc hnew hd hframe h
    refine ⟨top', rest', hb', hblk, hlen, slot, store, ?_⟩
    intro j hj
    obtain ⟨a1, a2, -, a4, a5, a6, a7⟩ := hall j hj
    refine ⟨a1, a2, a4, a5, a6, ?_, a7⟩
    have hcont : top'.locals.contains (vs.names.getD j "") = true := by
      rw [StdMap.contains, a7]; rfl
    rw [hb']
    simp only [findLocals, hcont, ↓reduceIte, hlen]
  · intro hnew hd
    obtain ⟨c', top', h, hb, hk, hi, -, -, hfind⟩ :=
      parameters_lowering cxx function bblock rest ps i c top hc hnew hd
    refine ⟨c', top', h, hb, hk, hi, ?_⟩
    intro j hj
    have hf := hfind j hj
    refine ⟨?_, hf, ?_, ?_⟩
    · have hcont : top'.locals.contains (ps.get ⟨j, hj⟩).2 = true := by
        rw [StdMap.contains, hf]; rfl
      rw [hb]
      simp only [findLocals, hcont, ↓reduceIte]
    · rw [hi]
      exact List.mem_append_right _ (parameterInsts_alloca function bblock top.block ps _ i j hj)
    · rw [hi]
      exact List.mem_append_right _ (parameterInsts_store function bblock top.block ps _ i j hj)
  · intro type id assignmentExpr tail slot hslot
    obtain ⟨blocks, module, mainFunction, cerr, fresh⟩ := c
    simp only at hc
    subst hc
    obtain ⟨block, returnValue, locals, ltypes⟩ := top
    simp only at hslot
    have hcont : StdMap.contains locals id = true := by simp [StdMap.contains, hslot]
    simp [VariableList.codeGen, NVariableDeclaration.codeGen, hcont, storeArgument, topLocals,
      CodeGenContext.report, StdMap.index, hslot, CodeGenContext.emit]

/-- C23 (amended), for the function `f` created in the sample context: the
parameters `(int a = 5, int b)`, where the store of the default value lies
between the slot of `a` and the store of its argument, and the parameters
`(int a, int b)`. -/
theorem parameters_registered_and_stored_witness :
    (∀ n ∈ sampleDefaultFive.names, StdMap.contains (β := Value) [] n = false) ∧
    sampleDefaultFive.names.Nodup ∧
    (∀ e ∈ sampleDefaultFive.defaults,
      FrameOn (fun _ => True) (NExpression.codeGen firstToLast e)) ∧
    sampleDefaultFiveRun = .ok ((), contextOf sampleDefaultFiveRun) ∧
    (∃ top' rest', (contextOf sampleDefaultFiveRun).blocks = top' :: rest' ∧
        top'.block = (⟨⟨3, "entry", sampleTwoParameters⟩, .null, [], []⟩ : CodeGenBlock).block ∧
        rest'.length = sampleContext.blocks.length ∧
        ∃ slot store : Nat → Nat, ∀ j, j < sampleDefaultFive.names.length →
          sampleInsideF.fresh ≤ slot j ∧ slot j < store j ∧
          (∀ k, j < k → k < sampleDefaultFive.names.length → store j < slot k) ∧
          (⟨slot j, .alloca (typeOf (sampleDefaultFive.typeNames.getD j "")).1
              (sampleDefaultFive.names.getD j ""),
            (⟨⟨3, "entry", sampleTwoParameters⟩, .null, [], []⟩ : CodeGenBlock).block⟩ :
            Instruction) ∈ (contextOf sampleDefaultFiveRun).module.insts ∧
          (⟨store j,
            .store (.argument sampleTwoParameters.id (0 + j)
                (sampleTwoParameters.argTys.getD (0 + j) .null))
              (.inst (slot j) (.ptr (typeOf (sampleDefaultFive.typeNames.getD j "")).1)),
            ⟨3, "entry", sampleTwoParameters⟩⟩ :
            Instruction) ∈ (contextOf sampleDefaultFiveRun).module.insts ∧
          (findLocals (contextOf sampleDefaultFiveRun).blocks
            (sampleDefaultFive.names.getD j "")).1 = some sampleContext.blocks.length ∧
          top'.locals.find (sampleDefaultFive.names.getD j "") =
            some (.inst (slot j)
              (.ptr (typeOf (sampleDefaultFive.typeNames.getD j "")).1))) ∧
    sampleDefaultFiveRun.map (fun r => r.2.module.insts.map (fun i => (i.id, i.kind))) =
      .ok [(4, .alloca .int64 "a"),
           (5, .store (.constInt .int64 5) (.inst 4 (.ptr .int64))),
           (6, .store (.argument 2 0 .int64) (.inst 4 (.ptr .int64))),
           (7, .alloca .int64 "b"),
           (8, .store (.argument 2 1 .int64) (.inst 7 (.ptr .int64)))] ∧
    sampleInsideF.blocks =
      ⟨⟨3, "entry", sampleTwoParameters⟩, .null, [], []⟩ :: sampleContext.blocks ∧
    (∀ p ∈ [("int", "a"), ("int", "b")], StdMap.contains (β := Value) [] p.2 = false) ∧
    ([("int", "a"), ("int", "b")].map Prod.snd).Nodup ∧
    (∃ c' top', VariableList.codeGen firstToLast sampleTwoParameters
          ⟨3, "entry", sampleTwoParameters⟩ 0 (parameters [("int", "a"), ("int", "b")])
          sampleInsideF = .ok ((), c') ∧
        c'.blocks = top' :: sampleContext.blocks ∧
        top'.block = ⟨3, "entry", sampleTwoParameters⟩ ∧
        c'.module.insts =
          sampleInsideF.module.insts ++
            parameterInsts sampleTwoParameters ⟨3, "entry", sampleTwoParameters⟩
              ⟨3, "entry", sampleTwoParameters⟩ sampleInsideF.fresh 0
              [("int", "a"), ("int", "b")] ∧
        ∀ (j : Nat) (hj : j < [("int", "a"), ("int", "b")].length),
          (findLocals c'.blocks ([("int", "a"), ("int", "b")].get ⟨j, hj⟩).2).1 =
            some sampleContext.blocks.length ∧
          top'.locals.find ([("int", "a"), ("int", "b")].get ⟨j, hj⟩).2 =
            some (.inst (sampleInsideF.fresh + 2 * j)
              (.ptr (typeOf ([("int", "a"), ("int", "b")].get ⟨j, hj⟩).1).1)) ∧
          (⟨sampleInsideF.fresh + 2 * j,
            .alloca (typeOf ([("int", "a"), ("int", "b")].get ⟨j, hj⟩).1).1
              ([("int", "a"), ("int", "b")].get ⟨j, hj⟩).2,
            ⟨3, "entry", sampleTwoParameters⟩⟩ : Instruction) ∈ c'.module.insts ∧
          (⟨sampleInsideF.fresh + 2 * j + 1,
            .store (.argument sampleTwoParameters.id (0 + j)
                (sampleTwoParameters.argTys.getD (0 + j) .null))
              (.inst (sampleInsideF.fresh + 2 * j)
                (.ptr (typeOf ([("int", "a"), ("int", "b")].get ⟨j, hj⟩).1).1)),
            ⟨3, "entry", sampleTwoParameters⟩⟩ : Instruction) ∈ c'.module.insts) ∧
    parameterInsts sampleTwoParameters ⟨3, "entry", sampleTwoParameters⟩
        ⟨3, "entry", sampleTwoParameters⟩ sampleInsideF.fresh 0 [("int", "a"), ("int", "b")] =
      [⟨4, .alloca .int64 "a", ⟨3, "entry", sampleTwoParameters⟩⟩,
       ⟨5, .store (.argument 2 0 .int64) (.inst 4 (.ptr .int64)),
         ⟨3, "entry", sampleTwoParameters⟩⟩,
       ⟨6, .alloca .int64 "b", ⟨3, "entry", sampleTwoParameters⟩⟩,
       ⟨7, .store (.argument 2 1 .int64) (.inst 6 (.ptr .int64)),
         ⟨3, "entry", sampleTwoParameters⟩⟩] :=
  ⟨by decide, by decide,
   fun e he => frame_NExpression firstToLast e (by
     simp only [sampleDefaultFive, VariableList.defaults, List.mem_singleton] at he
     subst he
     rfl),
   by decide!,
   (parameters_registered_and_stored firstToLast sampleTwoParameters
      ⟨3, "entry", sampleTwoParameters⟩ sampleDefaultFive [] 0 sampleInsideF
      (contextOf sampleDefaultFiveRun)
      ⟨⟨3, "entry", sampleTwoParameters⟩, .null, [], []⟩ sampleContext.blocks rfl).1
      (by decide) (by decide)
      (fun e he => frame_NExpression firstToLast e (by
        simp only [sampleDefaultFive, VariableList.defaults, List.mem_singleton] at he
        subst he
        rfl))
      (by decide!),
   by decide!,
   rfl, by decide, by decide,
   (parameters_registered_and_stored firstToLast sampleTwoParameters
      ⟨3, "entry", sampleTwoParameters⟩ .nil [("int", "a"), ("int", "b")] 0 sampleInsideF
      sampleInsideF
      ⟨⟨3, "entry", sampleTwoParameters⟩, .null, [], []⟩ sampleContext.blocks rfl).2.2.1
      (by decide) (by decide),
   by decide⟩

/-! ### Scopes that stay on the stack -/

mutual
theorem blockFree_counts (a b : Nat) :
    (e : NExpression) → e.blockFree = true → e.pushes = 0 ∧ e.count a b = 0
  | .NInteger _, _ => by simp [NExpression.pushes, NExpression.count]
  | .NDouble _, _ => by simp [NExpression.pushes, NExpression.count]
  | .NString _, _ => by simp [NExpression.pushes, NExpression.count]
  | .NBool _, _ => by simp [NExpression.pushes, NExpression.count]
  | .NIdentifier _, _ => by simp [NExpression.pushes, NExpression.count]
  | .NMethodCall _ arguments, hf => by
    simp only [NExpression.blockFree] at hf
    simpa [NExpression.pushes, NExpression.count] using blockFree_list_counts a b arguments hf
  | .NArray items, hf => by
    simp only [NExpression.blockFree] at hf
    simpa [NExpression.pushes, NExpression.count] using blockFree_list_counts a b items hf
  | .NArrayRead _ index, hf => by
    simp only [NExpression.blockFree] at hf
    simpa [NExpression.pushes, NExpression.count] using blockFree_counts a b index hf
  | .NArrayWrite _ index _ assignment, hf => by
    simp only [NExpression.blockFree, Bool.and_eq_true] at hf
    have h1 := blockFree_counts a b index hf.1
    have h2 := blockFree_counts a b assignment hf.2
    simp [NExpression.pushes, NExpression.count, h1, h2]
  | .NBinaryOperator lhs op rhs, hf => by
    simp only [NExpression.blockFree, Bool.and_eq_true] at hf
    have h1 := blockFree_counts a b lhs hf.1
    have h2 := blockFree_counts a b rhs hf.2
    simp [NExpression.pushes, NExpression.count, h1, h2]
  | .NUnaryOperator op expr, hf => by
    simp only [NExpression.blockFree] at hf
    have h1 := blockFree_counts a b expr hf
    simp [NExpression.pushes, NExpression.count, h1]
  | .NAssignment _ _ rhs, hf => by
    simp only [NExpression.blockFree] at hf
    simpa [NExpression.pushes, NExpression.count] using blockFree_counts a b rhs hf
  | .NBlock _, hf => by
    simp [NExpression.blockFree] at hf
theorem blockFree_list_counts (a b : Nat) :
    (es : ExpressionList) → es.blockFree = true → es.pushes = 0 ∧ es.count a b = 0
  | .nil, _ => by simp [ExpressionList.pushes, ExpressionList.count]
  | .cons head tail, hf => by
    simp only [ExpressionList.blockFree, Bool.and_eq_true] at hf
    have h1 := blockFree_counts a b head hf.1
    have h2 := blockFree_list_counts a b tail hf.2
    simp [ExpressionList.pushes, ExpressionList.count, h1, h2]
end

theorem blockFree_initializer_counts (a b : Nat) (o : OptExpression) (h : o.blockFree = true) :
    o.pushes = 0 ∧ o.count a b = 0 := by
  cases o with
  | null => simp [OptExpression.pushes, OptExpression.count]
  | ptr e =>
    simp only [OptExpression.blockFree] at h
    simpa [OptExpression.pushes, OptExpression.count] using blockFree_counts a b e h

mutual
theorem plain_pushes :
    (s : NStatement) → s.plain = true → s.pushes = 3 * s.count 1 0 + 2 * s.count 0 1
  | .NExpressionStatement expression, hp => by
    simp only [NStatement.plain] at hp
    have h0 := blockFree_counts 1 0 expression hp
    have h0' := blockFree_counts 0 1 expression hp
    simp only [NStatement.pushes, NStatement.count]
    omega
  | .NReturnStatement expression, hp => by
    simp only [NStatement.plain] at hp
    have h0 := blockFree_counts 1 0 expression hp
    have h0' := blockFree_counts 0 1 expression hp
    simp only [NStatement.pushes, NStatement.count]
    omega
  | .NVariableDeclaration _ _ assignmentExpr, hp => by
    simp only [NStatement.plain] at hp
    have h0 := blockFree_initializer_counts 1 0 assignmentExpr hp
    have h0' := blockFree_initializer_counts 0 1 assignmentExpr hp
    simp only [NStatement.pushes, NStatement.count]
    omega
  | .NArrayDeclaration _ _ assignmentExpr, hp => by
    simp only [NStatement.plain] at hp
    have h0 := blockFree_initializer_counts 1 0 assignmentExpr hp
    have h0' := blockFree_initializer_counts 0 1 assignmentExpr hp
    simp only [NStatement.pushes, NStatement.count]
    omega
  | .NExternDeclaration _ _ arguments, hp => by
    simp only [NStatement.plain] at hp
    have h := plain_parameters_pushes arguments hp
    simp only [NStatement.pushes, NStatement.count]
    omega
  | .NFunctionDeclaration _ _ arguments block, hp => by
    simp only [NStatement.plain, Bool.and_eq_true] at hp
    have h1 := plain_parameters_pushes arguments hp.1
    have h2 := plain_list_pushes block hp.2
    simp only [NStatement.pushes, NStatement.count]
    omega
  | .NConditional condition thenblock elseblock, hp => by
    simp only [NStatement.plain, Bool.and_eq_true] at hp
    have h0 := blockFree_counts 1 0 condition hp.1.1
    have h0' := blockFree_counts 0 1 condition hp.1.1
    have h1 := plain_list_pushes thenblock hp.1.2
    have h2 := plain_list_pushes elseblock hp.2
    simp only [NStatement.pushes, NStatement.count]
    omega
  | .NLoop condition block, hp => by
    simp only [NStatement.plain, Bool.and_eq_true] at hp
    have h0 := blockFree_counts 1 0 condition hp.1
    have h0' := blockFree_counts 0 1 condition hp.1
    have h1 := plain_list_pushes block hp.2
    simp only [NStatement.pushes, NStatement.count]
    omega
theorem plain_list_pushes :
    (ss : StatementList) → ss.plain = true → ss.pushes = 3 * ss.count 1 0 + 2 * ss.count 0 1
  | .nil, _ => by simp [StatementList.pushes, StatementList.count]
  | .cons head tail, hp => by
    simp only [StatementList.plain, Bool.and_eq_true] at hp
    have h1 := plain_pushes head hp.1
    have h2 := plain_list_pushes tail hp.2
    simp only [StatementList.pushes, StatementList.count]
    omega
theorem plain_parameters_pushes :
    (vs : VariableList) → vs.plain = true →
      vs.pushes = 0 ∧ vs.count 1 0 = 0 ∧ vs.count 0 1 = 0
  | .nil, _ => by simp [VariableList.pushes, VariableList.count]
  | .cons _ _ assignmentExpr tail, hp => by
    simp only [VariableList.plain, Bool.and_eq_true] at hp
    have h0 := blockFree_initializer_counts 1 0 assignmentExpr hp.1
    have h0' := blockFree_initializer_counts 0 1 assignmentExpr hp.1
    have h1 := plain_parameters_pushes tail hp.2
    simp only [VariableList.pushes, VariableList.count]
    omega
end

theorem scopeAt_of_mem (bs : List CodeGenBlock) (s : CodeGenBlock) (h : s ∈ bs) :
    ∃ p, scopeAt bs p = some s := by
  induction bs with
  | nil => simp at h
  | cons b rest ih =>
    rcases List.mem_cons.mp h with h | h
    · exact ⟨rest.length, by simp [scopeAt, h]⟩
    · obtain ⟨p, hp⟩ := ih h
      exact ⟨p, scopeAt_cons_of_some rest b p s hp⟩

theorem mem_of_scopeAt (bs : List CodeGenBlock) (p : ScopeRef) (s : CodeGenBlock)
    (h : scopeAt bs p = some s) : s ∈ bs := by
  induction bs with
  | nil => simp [scopeAt] at h
  | cons b rest ih =>
    by_cases hp : rest.length = p
    · simp only [scopeAt, hp, ↓reduceIte, Option.some.injEq] at h
      simp [h]
    · simp only [scopeAt, hp, ↓reduceIte] at h
      exact List.mem_cons_of_mem _ (ih h)

/-- A name that lookup finds before a run of the lowering is found after it. -/
theorem extends_findLocals {k : Nat} {c c' : CodeGenContext} (h : Extends k c c')
    (name : String) (hf : (findLocals c.blocks name).1 ≠ none) :
    (findLocals c'.blocks name).1 ≠ none := by
  intro hn
  apply hf
  rw [findLocals_none_iff] at hn ⊢
  intro s hs
  obtain ⟨p, hp⟩ := scopeAt_of_mem c.blocks s hs
  obtain ⟨s', hs', -, hg⟩ := h.2.1 p s hp
  have hc' := hn s' (mem_of_scopeAt c'.blocks p s' hs')
  cases hfind : s.locals.find name with
  | none => simp [StdMap.contains, hfind]
  | some w =>
    have := hg name w hfind
    simp [StdMap.contains, this] at hc'

/-- C24 (counterexample): `int h() { if (1 == 1) { int t; } else { } int z; }`
lowered in the sample context, with nothing reported. The conditional pushes
the scopes of `then`, `else` and `continue`; `z` is declared in the scope of
`continue`, where its slot is allocated. The one pop of the function lowerer
removes that scope: afterwards the stack holds the scopes of `else`, of `then`,
of the entry block of `h` and of the entry block of `main`, lookup finds `t`
and does not find `z`. -/
theorem continue_scope_popped_by_function :
    (NStatement.codeGen firstToLast sampleDeclaredAfterIf sampleContext).map
      (fun r => (r.2.blocks.map (fun s => (s.block.name, s.block.parent.name)), r.2.cerr)) =
      .ok ([("else", "h"), ("then", "h"), ("entry", "h"), ("entry", "main")], []) ∧
    (NStatement.codeGen firstToLast sampleDeclaredAfterIf sampleContext).map
      (fun r => r.2.blocks.map (fun s => s.locals)) =
      .ok [[], [("t", .inst 9 (.ptr .int64))], [], []] ∧
    (NStatement.codeGen firstToLast sampleDeclaredAfterIf sampleContext).map
      (fun r => ((r.2.module.insts.filter (fun i => i.kind = .alloca .int64 "z")).map
          (fun i => i.parent.name),
        (findLocals r.2.blocks "t").1, (findLocals r.2.blocks "z").1)) =
      .ok (["continue"], some 2, none) :=
  ⟨by decide!, by decide!, by decide!⟩

/-- C24 (amended): a statement whose lowering returns leaves every scope that
was on the stack where it was, on its block and with every entry of its symbol
table, so a name lookup found before the statement is found after it. When
nothing was reported the stack has grown by `pushes` scopes, which is three
times the number of If nodes plus two times the number of Loop nodes of the
statement when none of its expressions contains a block. The statement may be
a function declaration: its one pop removes the scope that is on top by then,
which need not be the scope the function pushed, and never a scope that was on
the stack before the declaration. -/
theorem statement_keeps_scopes (cxx : Cxx) (s : NStatement) (c : CodeGenContext) (v : Value)
    (c' : CodeGenContext) (h : NStatement.codeGen cxx s c = .ok (v, c')) :
    (c'.cerr = c.cerr → c'.blocks.length = c.blocks.length + s.pushes) ∧
    (s.plain = true → s.pushes = 3 * s.conditionals + 2 * s.loops) ∧
    (∀ p t, scopeAt c.blocks p = some t →
      ∃ t', scopeAt c'.blocks p = some t' ∧ t'.block = t.block ∧
        ∀ n w, t.locals.find n = some w → t'.locals.find n = some w) ∧
    (∀ name, (findLocals c.blocks name).1 ≠ none → (findLocals c'.blocks name).1 ≠ none) := by
  have e := tracks_NStatement cxx s c v c' h
  obtain ⟨⟨j, hl, -, hx⟩, hs, -⟩ := e
  refine ⟨fun he => by rw [hl, hx he], plain_pushes s, hs,
    fun name => extends_findLocals (tracks_NStatement cxx s c v c' h) name⟩

theorem statement_keeps_scopes_witness :
    ((contextOf (NStatement.codeGen firstToLast sampleIfDeclaring sampleDeclaredX)).cerr =
        sampleDeclaredX.cerr →
      (contextOf (NStatement.codeGen firstToLast sampleIfDeclaring sampleDeclaredX)).blocks.length =
        sampleDeclaredX.blocks.length + sampleIfDeclaring.pushes) ∧
    (sampleIfDeclaring.plain = true →
      sampleIfDeclaring.pushes = 3 * sampleIfDeclaring.conditionals + 2 * sampleIfDeclaring.loops) ∧
    (∀ p t, scopeAt sampleDeclaredX.blocks p = some t →
      ∃ t', scopeAt
          (contextOf (NStatement.codeGen firstToLast sampleIfDeclaring sampleDeclaredX)).blocks p =
          some t' ∧ t'.block = t.block ∧
        ∀ n w, t.locals.find n = some w → t'.locals.find n = some w) ∧
    (∀ name, (findLocals sampleDeclaredX.blocks name).1 ≠ none →
      (findLocals (contextOf (NStatement.codeGen firstToLast sampleIfDeclaring
        sampleDeclaredX)).blocks name).1 ≠ none) ∧
    sampleIfDeclaring.plain = true ∧ sampleIfDeclaring.pushes = 3 ∧
    sampleIfDeclaring.conditionals = 1 ∧ sampleIfDeclaring.loops = 0 ∧
    (contextOf (NStatement.codeGen firstToLast sampleIfDeclaring sampleDeclaredX)).blocks.map
        (fun s => (s.block.name, s.locals)) =
      [("continue", []), ("else", []), ("then", [("t", .inst 9 (.ptr .int64))]),
       ("entry", [("x", .inst 2 (.ptr .int64))])] :=
  have w := statement_keeps_scopes firstToLast sampleIfDeclaring sampleDeclaredX .null
    (contextOf (NStatement.codeGen firstToLast sampleIfDeclaring sampleDeclaredX)) (by decide!)
  ⟨w.1, w.2.1, w.2.2.1, w.2.2.2, by decide, by decide, by decide, by decide, by decide!⟩

/-! ### Loops and conditionals on a condition that pushes no scope -/

/-- After a run that pushes no scope the top scope is on the same block. -/
theorem top_after_unpushed {c c1 : CodeGenContext} (h : Extends 0 c c1)
    (top : CodeGenBlock) (rest : List CodeGenBlock) (hc : c.blocks = top :: rest) :
    ∃ top1 rest1, c1.blocks = top1 :: rest1 ∧ top1.block = top.block ∧
      rest1.length = rest.length := by
  obtain ⟨⟨j, hlen, hj, -⟩, hsc, -⟩ := h
  have hj0 : j = 0 := Nat.le_zero.mp hj
  subst hj0
  rw [hc] at hlen hsc
  obtain ⟨s1, hs1, hg⟩ := hsc rest.length top (by simp [scopeAt])
  cases hb : c1.blocks with
  | nil => rw [hb] at hlen; simp at hlen
  | cons t1 r1 =>
    rw [hb] at hlen hs1
    have hr : r1.length = rest.length := by simpa using hlen
    simp only [scopeAt, hr, ↓reduceIte, Option.some.injEq] at hs1
    subst hs1
    exact ⟨t1, r1, rfl, hg.1, hr⟩

/-- C20, counterexample: `if ({ if (1 == 1) {} else {}; 1 == 2; }) {} else {}`
lowered in the entry block of `main`. The blocks `then`, `else`, `continue` of
the outer conditional are numbers 2, 3, 4, those of the inner one 5, 6, 7. The
entry block ends with the branch of the inner conditional (instruction 9); the
branch of the outer conditional on the value of its condition (instruction 13)
is appended to the inner `continue` block when arguments are evaluated first
to last, and to the entry block, behind instruction 9, when they are evaluated
last to first. With the condition `{ while (1 == 2) {}; 1 == 2; }`, evaluated
first to last, the branch of the conditional (instruction 12) is appended to
the `continue` block of the inner loop. -/
theorem conditional_on_block_condition :
    (NStatement.codeGen firstToLast (.NConditional sampleBlockCondition .nil .nil)
        sampleContext).map (fun r => conditionalBranches r.2.module.insts) =
      .ok [⟨9, .condBr ⟨5, "then", sampleMain⟩ ⟨6, "else", sampleMain⟩ (.inst 8 .int1),
             sampleEntry⟩,
           ⟨13, .condBr ⟨2, "then", sampleMain⟩ ⟨3, "else", sampleMain⟩ (.inst 12 .int1),
             ⟨7, "continue", sampleMain⟩⟩] ∧
    (NStatement.codeGen lastToFirst (.NConditional sampleBlockCondition .nil .nil)
        sampleContext).map (fun r => conditionalBranches r.2.module.insts) =
      .ok [⟨9, .condBr ⟨5, "then", sampleMain⟩ ⟨6, "else", sampleMain⟩ (.inst 8 .int1),
             sampleEntry⟩,
           ⟨13, .condBr ⟨2, "then", sampleMain⟩ ⟨3, "else", sampleMain⟩ (.inst 12 .int1),
             sampleEntry⟩] ∧
    (NStatement.codeGen firstToLast (.NConditional sampleLoopCondition .nil .nil)
        sampleContext).map (fun r => conditionalBranches r.2.module.insts) =
      .ok [⟨8, .condBr ⟨5, "loop", sampleMain⟩ ⟨6, "continue", sampleMain⟩ (.inst 7 .int1),
             sampleEntry⟩,
           ⟨10, .condBr ⟨5, "loop", sampleMain⟩ ⟨6, "continue", sampleMain⟩ (.inst 9 .int1),
             ⟨5, "loop", sampleMain⟩⟩,
           ⟨12, .condBr ⟨2, "then", sampleMain⟩ ⟨3, "else", sampleMain⟩ (.inst 11 .int1),
             ⟨6, "continue", sampleMain⟩⟩] := by
  refine ⟨?_, ?_, ?_⟩ <;> decide!

/-- C19, counterexample: `while ({ if (1 == 1) {} else {}; 1 == 2; }) {}`
lowered in the entry block of `main`. The blocks `loop` and `continue` of the
loop are numbers 2 and 3. The condition is lowered twice, and each time its
instructions span the blocks of its inner conditional: the entry block ends
with the inner branch (instruction 8) and `loop` with the inner branch
(instruction 17). The two branches of the loop (instructions 12 and 21) are
appended to the inner `continue` blocks 6 and 15 when arguments are evaluated
first to last; when they are evaluated last to first they are appended to the
entry block and to `loop`, behind the inner branches. With the condition
`{ while (1 == 2) {}; 1 == 2; }`, evaluated first to last, the two branches of
the outer loop (instructions 11 and 19) are appended to the `continue` blocks
5 and 13 of the inner loops. -/
theorem loop_on_block_condition :
    (NStatement.codeGen firstToLast (.NLoop sampleBlockCondition .nil)
        sampleContext).map (fun r => conditionalBranches r.2.module.insts) =
      .ok [⟨8, .condBr ⟨4, "then", sampleMain⟩ ⟨5, "else", sampleMain⟩ (.inst 7 .int1),
             sampleEntry⟩,
           ⟨12, .condBr ⟨2, "loop", sampleMain⟩ ⟨3, "continue", sampleMain⟩ (.inst 11 .int1),
             ⟨6, "continue", sampleMain⟩⟩,
           ⟨17, .condBr ⟨13, "then", sampleMain⟩ ⟨14, "else", sampleMain⟩ (.inst 16 .int1),
             ⟨2, "loop", sampleMain⟩⟩,
           ⟨21, .condBr ⟨2, "loop", sampleMain⟩ ⟨3, "continue", sampleMain⟩ (.inst 20 .int1),
             ⟨15, "continue", sampleMain⟩⟩] ∧
    (NStatement.codeGen lastToFirst (.NLoop sampleBlockCondition .nil)
        sampleContext).map (fun r => conditionalBranches r.2.module.insts) =
      .ok [⟨8, .condBr ⟨4, "then", sampleMain⟩ ⟨5, "else", sampleMain⟩ (.inst 7 .int1),
             sampleEntry⟩,
           ⟨12, .condBr ⟨2, "loop", sampleMain⟩ ⟨3, "continue", sampleMain⟩ (.inst 11 .int1),
             sampleEntry⟩,
           ⟨17, .condBr ⟨13, "then", sampleMain⟩ ⟨14, "else", sampleMain⟩ (.inst 16 .int1),
             ⟨2, "loop", sampleMain⟩⟩,
           ⟨21, .condBr ⟨2, "loop", sampleMain⟩ ⟨3, "continue", sampleMain⟩ (.inst 20 .int1),
             ⟨2, "loop", sampleMain⟩⟩] ∧
    (NStatement.codeGen firstToLast (.NLoop sampleLoopCondition .nil)
        sampleContext).map (fun r => conditionalBranches r.2.module.insts) =
      .ok [⟨7, .condBr ⟨4, "loop", sampleMain⟩ ⟨5, "continue", sampleMain⟩ (.inst 6 .int1),
             sampleEntry⟩,
           ⟨9, .condBr ⟨4, "loop", sampleMain⟩ ⟨5, "continue", sampleMain⟩ (.inst 8 .int1),
             ⟨4, "loop", sampleMain⟩⟩,
           ⟨11, .condBr ⟨2, "loop", sampleMain⟩ ⟨3, "continue", sampleMain⟩ (.inst 10 .int1),
             ⟨5, "continue", sampleMain⟩⟩,
           ⟨15, .condBr ⟨12, "loop", sampleMain⟩ ⟨13, "continue", sampleMain⟩ (.inst 14 .int1),
             ⟨2, "loop", sampleMain⟩⟩,
           ⟨17, .condBr ⟨12, "loop", sampleMain⟩ ⟨13, "continue", sampleMain⟩ (.inst 16 .int1),
             ⟨12, "loop", sampleMain⟩⟩,
           ⟨19, .condBr ⟨2, "loop", sampleMain⟩ ⟨3, "continue", sampleMain⟩ (.inst 18 .int1),
             ⟨13, "continue", sampleMain⟩⟩] := by
  refine ⟨?_, ?_, ?_⟩ <;> decide!

/-- A conditional branch on any condition: the branch is created on the value of
the condition, in the block that is current after the condition has been
lowered when the arguments are evaluated first to last, and in the block that
was current before when they are evaluated last to first. -/
theorem branchOn_any (cxx : Cxx) (condition : Gen Value) (c c1 : CodeGenContext)
    (b b1 : BasicBlock) (v : Value)
    (hb : CodeGenContext.currentBlock c = .ok (b, c))
    (h : condition c = .ok (v, c1))
    (hb1 : CodeGenContext.currentBlock c1 = .ok (b1, c1)) (ifTrue ifFalse : BasicBlock) :
    branchOn cxx ifTrue ifFalse condition c =
      .ok ((), (c1.emit (if cxx.rightToLeft then b else b1) (.condBr ifTrue ifFalse v)).2) := by
  cases hrl : cxx.rightToLeft <;> simp [branchOn, Cxx.args2, hrl, hb, hb1, h]

theorem currentBlock_top (c : CodeGenContext) (top : CodeGenBlock) (rest : List CodeGenBlock)
    (hc : c.blocks = top :: rest) : CodeGenContext.currentBlock c = .ok (top.block, c) := by
  simp [CodeGenContext.currentBlock, hc]

theorem top_of_currentBlock (c : CodeGenContext) (b : BasicBlock)
    (h : CodeGenContext.currentBlock c = .ok (b, c)) :
    ∃ top rest, c.blocks = top :: rest ∧ top.block = b := by
  cases hc : c.blocks with
  | nil => simp [CodeGenContext.currentBlock, hc] at h
  | cons top rest =>
    simp only [CodeGenContext.currentBlock, hc, Except.ok.injEq, Prod.mk.injEq] at h
    exact ⟨top, rest, rfl, h.1⟩

/-- After a run that pushes no scope the current block is the one before. -/
theorem currentBlock_unpushed {c c1 : CodeGenContext} (h : Extends 0 c c1) (b b1 : BasicBlock)
    (hb : CodeGenContext.currentBlock c = .ok (b, c))
    (hb1 : CodeGenContext.currentBlock c1 = .ok (b1, c1)) : b1 = b := by
  obtain ⟨top, rest, hc, rfl⟩ := top_of_currentBlock c b hb
  obtain ⟨top1, rest1, hc1, ht1, -⟩ := top_after_unpushed h top rest hc
  rw [currentBlock_top c1 top1 rest1 hc1] at hb1
  simp only [Except.ok.injEq, Prod.mk.injEq] at hb1
  rw [← hb1.1, ht1]

/-- C19 (amended): a loop with any condition and any body, lowered on a stack
with top scope `top`. Two blocks, `loop` and `continue`, are created in the
function of the current block, and nothing else before the condition is
lowered. The condition is lowered a first time; `b3` is the block that is
current afterwards. The conditional branch to `loop` (true) and `continue`
(false) on its value is appended next: to `b3` when the arguments of the branch
constructor are evaluated first to last, and to the block that was current on
entry when they are evaluated last to first. The body is lowered in a new scope
on `loop`; `b4` is the block that is current afterwards. The condition is
lowered a second time, with `b5` current afterwards, and the same conditional
branch on the second value is appended next, to `b5` or to `b4` in the same
way. Then `continue` is moved behind `b5` and pushed, so it is the current
block of the result. When the condition lowers no conditional and no loop
(`pushes` is zero), `b3` is the block that was current on entry and `b5` is
`b4`, so that in either order the first branch ends the block current on entry
and the second the block current after the body. -/
theorem loop_lowering (cxx : Cxx) (condition : NExpression) (block : StatementList)
    (context : CodeGenContext) (top : CodeGenBlock) (rest : List CodeGenBlock)
    (v1 v2 w : Value) (c3 c4 c5 : CodeGenContext) (b3 b4 b5 : BasicBlock)
    (hctx : context.blocks = top :: rest)
    (h1 : NExpression.codeGen cxx condition
        ((context.createBlock "loop" top.block.parent).2.createBlock "continue"
          top.block.parent).2 = .ok (v1, c3))
    (hb3 : CodeGenContext.currentBlock c3 = .ok (b3, c3))
    (hbody : StatementList.codeGen cxx .null block
        ((c3.emit (if cxx.rightToLeft then top.block else b3)
          (.condBr ⟨context.fresh, "loop", top.block.parent⟩
            ⟨context.fresh + 1, "continue", top.block.parent⟩ v1)).2.pushBlock
          ⟨context.fresh, "loop", top.block.parent⟩) = .ok (w, c4))
    (hb4 : CodeGenContext.currentBlock c4 = .ok (b4, c4))
    (h2 : NExpression.codeGen cxx condition c4 = .ok (v2, c5))
    (hb5 : CodeGenContext.currentBlock c5 = .ok (b5, c5)) :
    NStatement.codeGen cxx (.NLoop condition block) context =
      .ok (.null,
        (moveAfter
          (c5.emit (if cxx.rightToLeft then b4 else b5)
            (.condBr ⟨context.fresh, "loop", top.block.parent⟩
              ⟨context.fresh + 1, "continue", top.block.parent⟩ v2)).2
          ⟨context.fresh + 1, "continue", top.block.parent⟩ b5).pushBlock
          ⟨context.fresh + 1, "continue", top.block.parent⟩) ∧
    ((context.createBlock "loop" top.block.parent).2.createBlock "continue"
        top.block.parent).2.module.layout =
      context.module.layout ++ [⟨context.fresh, "loop", top.block.parent⟩,
        ⟨context.fresh + 1, "continue", top.block.parent⟩] ∧
    (condition.pushes = 0 → b3 = top.block ∧ b5 = b4) := by
  have hc2 : ((context.createBlock "loop" top.block.parent).2.createBlock "continue"
      top.block.parent).2.blocks = top :: rest := hctx
  have b1 := branchOn_any cxx (NExpression.codeGen cxx condition) _ c3 top.block b3 v1
    (currentBlock_top _ top rest hc2) h1 hb3
    ⟨context.fresh, "loop", top.block.parent⟩ ⟨context.fresh + 1, "continue", top.block.parent⟩
  have b2 := branchOn_any cxx (NExpression.codeGen cxx condition) c4 c5 b4 b5 v2 hb4 h2 hb5
    ⟨context.fresh, "loop", top.block.parent⟩ ⟨context.fresh + 1, "continue", top.block.parent⟩
  have e1 := createBlockHere_top "loop" context top rest hctx
  have e2 := createBlockHere_top "continue" (context.createBlock "loop" top.block.parent).2
    top rest hctx
  obtain ⟨top5, rest5, hc5, ht5⟩ := top_of_currentBlock c5 b5 hb5
  have m := moveAndPush_top ⟨context.fresh + 1, "continue", top.block.parent⟩
    (c5.emit (if cxx.rightToLeft then b4 else b5)
      (.condBr ⟨context.fresh, "loop", top.block.parent⟩
        ⟨context.fresh + 1, "continue", top.block.parent⟩ v2)).2 top5 rest5 hc5
  refine ⟨?_, ?_, ?_⟩
  · simp only [NStatement.codeGen, NLoop.codeGen, e1, e2]
    have hl : (context.createBlock "loop" top.block.parent).1 =
        ⟨context.fresh, "loop", top.block.parent⟩ := rfl
    have hcn : ((context.createBlock "loop" top.block.parent).2.createBlock "continue"
        top.block.parent).1 = ⟨context.fresh + 1, "continue", top.block.parent⟩ := rfl
    simp only [hl, hcn, b1, hbody, b2, m, ht5]
  · simp [CodeGenContext.createBlock]
  · intro hpush
    have x1 := tracks_NExpression cxx condition _ v1 c3 h1
    have x2 := tracks_NExpression cxx condition c4 v2 c5 h2
    rw [hpush] at x1 x2
    exact ⟨currentBlock_unpushed x1 top.block b3 (currentBlock_top _ top rest hc2) hb3,
      currentBlock_unpushed x2 b4 b5 hb4 hb5⟩

/-- C19 (amended), on `while (x < 3) { x = x + 1; }` after `int x = 1;`: the blocks `loop`
and `continue` are added, the condition is lowered in the entry block and again
at the end of `loop`, each time followed by the conditional branch, and
`continue` is the current block afterwards. And on
`while ({ if (1 == 1) {} else {}; 1 == 2; }) {}` in the sample context, with
arguments evaluated first to last: the block current after the condition is
the `continue` block of its inner conditional, block 6 the first time and
block 15 the second time, and that is where the branches of the loop go. -/
theorem loop_lowering_witness :
    sampleCondition.pushes = 0 ∧
    sampleLoopFirst = .ok (valueOf sampleLoopFirst, contextOf sampleLoopFirst) ∧
    CodeGenContext.currentBlock (contextOf sampleLoopFirst) =
      .ok (sampleEntry, contextOf sampleLoopFirst) ∧
    sampleLoopBody = .ok (valueOf sampleLoopBody, contextOf sampleLoopBody) ∧
    CodeGenContext.currentBlock (contextOf sampleLoopBody) =
      .ok (sampleLoop, contextOf sampleLoopBody) ∧
    sampleLoopSecond = .ok (valueOf sampleLoopSecond, contextOf sampleLoopSecond) ∧
    CodeGenContext.currentBlock (contextOf sampleLoopSecond) =
      .ok (sampleLoop, contextOf sampleLoopSecond) ∧
    (∃ c, NStatement.codeGen firstToLast (.NLoop sampleCondition sampleBody) sampleDeclaredX =
      .ok (.null, c)) ∧
    (sampleEntry = (⟨sampleEntry, .null, [("x", .inst 2 (.ptr .int64))],
        [("x", .int64)]⟩ : CodeGenBlock).block ∧ sampleLoop = sampleLoop) ∧
    (NStatement.codeGen firstToLast (.NLoop sampleCondition sampleBody) sampleDeclaredX).map
      (fun r => (r.2.module.layout, r.2.blocks.map (fun s => s.block),
        (r.2.module.insts.drop 2).map (fun i => (i.parent, i.kind)))) =
      .ok ([sampleEntry, sampleLoop, sampleLoopContinue],
        [sampleLoopContinue, sampleLoop, sampleEntry],
        [(sampleEntry, .load .int64 (.inst 2 (.ptr .int64)) "x"),
         (sampleEntry, .icmp .ICMP_SLT (.inst 6 .int64) (.constInt .int64 3)),
         (sampleEntry, .condBr sampleLoop sampleLoopContinue (.inst 7 .int1)),
         (sampleLoop, .load .int64 (.inst 2 (.ptr .int64)) "x"),
         (sampleLoop, .binop .Add (.inst 9 .int64) (.constInt .int64 1)),
         (sampleLoop, .store (.inst 10 .int64) (.inst 2 (.ptr .int64))),
         (sampleLoop, .load .int64 (.inst 2 (.ptr .int64)) "x"),
         (sampleLoop, .icmp .ICMP_SLT (.inst 12 .int64) (.constInt .int64 3)),
         (sampleLoop, .condBr sampleLoop sampleLoopContinue (.inst 13 .int1))]) ∧
    CodeGenContext.currentBlock (contextOf sampleBlockLoopFirst) =
      .ok (⟨6, "continue", sampleMain⟩, contextOf sampleBlockLoopFirst) ∧
    CodeGenContext.currentBlock (contextOf sampleBlockLoopBody) =
      .ok (⟨2, "loop", sampleMain⟩, contextOf sampleBlockLoopBody) ∧
    CodeGenContext.currentBlock (contextOf sampleBlockLoopSecond) =
      .ok (⟨15, "continue", sampleMain⟩, contextOf sampleBlockLoopSecond) ∧
    NStatement.codeGen firstToLast (.NLoop sampleBlockCondition .nil) sampleContext =
      .ok (.null,
        (moveAfter
          ((contextOf sampleBlockLoopSecond).emit
            (if firstToLast.rightToLeft then ⟨2, "loop", sampleMain⟩
              else ⟨15, "continue", sampleMain⟩)
            (.condBr ⟨sampleContext.fresh, "loop", sampleEntry.parent⟩
              ⟨sampleContext.fresh + 1, "continue", sampleEntry.parent⟩
              (valueOf sampleBlockLoopSecond))).2
          ⟨sampleContext.fresh + 1, "continue", sampleEntry.parent⟩
          ⟨15, "continue", sampleMain⟩).pushBlock
          ⟨sampleContext.fresh + 1, "continue", sampleEntry.parent⟩) :=
  have g := loop_lowering firstToLast sampleBlockCondition .nil sampleContext
    ⟨sampleEntry, .null, [], []⟩ []
    (valueOf sampleBlockLoopFirst) (valueOf sampleBlockLoopSecond) (valueOf sampleBlockLoopBody)
    (contextOf sampleBlockLoopFirst) (contextOf sampleBlockLoopBody)
    (contextOf sampleBlockLoopSecond)
    ⟨6, "continue", sampleMain⟩ ⟨2, "loop", sampleMain⟩ ⟨15, "continue", sampleMain⟩
    (by decide!) (by decide!) (by decide!) (by decide!) (by decide!) (by decide!) (by decide!)
  have h := loop_lowering firstToLast sampleCondition sampleBody sampleDeclaredX
    ⟨sampleEntry, .null, [("x", .inst 2 (.ptr .int64))], [("x", .int64)]⟩ []
    (valueOf sampleLoopFirst) (valueOf sampleLoopSecond) (valueOf sampleLoopBody)
    (contextOf sampleLoopFirst) (contextOf sampleLoopBody) (contextOf sampleLoopSecond)
    sampleEntry sampleLoop sampleLoop
    (by decide!) (by decide!) (by decide!) (by decide!) (by decide!) (by decide!) (by decide!)
  ⟨by decide!, by decide!, by decide!, by decide!, by decide!, by decide!, by decide!,
   ⟨_, h.1⟩, h.2.2 (by decide!), by decide!, by decide!, by decide!, by decide!, g.1⟩

/-- C20 (amended): a conditional with any condition, lowered on a stack with top
scope `top`; the branches are any statement lists, empty ones and ones ending
in a conditional or a loop included. Three blocks `then`, `else`, `continue`
are created in the function of the current block, and nothing else before the
condition is lowered. The condition is lowered; `b4` is the block that is
current afterwards. The conditional branch to `then` (true) and `else` (false)
on its value is appended next: to `b4` when the arguments of the branch
constructor are evaluated first to last, and to the block that was current on
entry when they are evaluated last to first. The then-branch is lowered in a
new scope on `then`, and a branch to `continue` is appended to the block `topT`
that is current after it. `else` is moved behind that block, the else-branch is
lowered in a new scope on `else`, and a branch to `continue` is appended to the
block `topE` that is current after it. Then `continue` is moved behind that
block and pushed, so it is the current block of the result. When the condition
lowers no conditional and no loop (`pushes` is zero), `b4` is the block that
was current on entry, so that in either order the conditional branch ends the
block current on entry. -/
theorem conditional_lowering (cxx : Cxx) (condition : NExpression)
    (thenblock elseblock : StatementList) (context : CodeGenContext) (top : CodeGenBlock)
    (rest : List CodeGenBlock) (v w1 w2 : Value) (c4 c5 c8 : CodeGenContext) (b4 : BasicBlock)
    (topT topE : CodeGenBlock) (restT restE : List CodeGenBlock)
    (hctx : context.blocks = top :: rest)
    (h1 : NExpression.codeGen cxx condition
        (((context.createBlock "then" top.block.parent).2.createBlock "else"
          top.block.parent).2.createBlock "continue" top.block.parent).2 = .ok (v, c4))
    (hb4 : CodeGenContext.currentBlock c4 = .ok (b4, c4))
    (hthen : StatementList.codeGen cxx .null thenblock
        ((c4.emit (if cxx.rightToLeft then top.block else b4)
          (.condBr ⟨context.fresh, "then", top.block.parent⟩
            ⟨context.fresh + 1, "else", top.block.parent⟩ v)).2.pushBlock
          ⟨context.fresh, "then", top.block.parent⟩) = .ok (w1, c5))
    (htopT : c5.blocks = topT :: restT)
    (helse : StatementList.codeGen cxx .null elseblock
        ((moveAfter
          (c5.emit topT.block (.br ⟨context.fresh + 2, "continue", top.block.parent⟩)).2
          ⟨context.fresh + 1, "else", top.block.parent⟩ topT.block).pushBlock
          ⟨context.fresh + 1, "else", top.block.parent⟩) = .ok (w2, c8))
    (htopE : c8.blocks = topE :: restE) :
    NStatement.codeGen cxx (.NConditional condition thenblock elseblock) context =
      .ok (.null,
        (moveAfter
          (c8.emit topE.block (.br ⟨context.fresh + 2, "continue", top.block.parent⟩)).2
          ⟨context.fresh + 2, "continue", top.block.parent⟩ topE.block).pushBlock
          ⟨context.fresh + 2, "continue", top.block.parent⟩) ∧
    (((context.createBlock "then" top.block.parent).2.createBlock "else"
        top.block.parent).2.createBlock "continue" top.block.parent).2.module.layout =
      context.module.layout ++ [⟨context.fresh, "then", top.block.parent⟩,
        ⟨context.fresh + 1, "else", top.block.parent⟩,
        ⟨context.fresh + 2, "continue", top.block.parent⟩] ∧
    (condition.pushes = 0 → b4 = top.block) := by
  have hc3 : (((context.createBlock "then" top.block.parent).2.createBlock "else"
      top.block.parent).2.createBlock "continue" top.block.parent).2.blocks = top :: rest := hctx
  have b1 := branchOn_any cxx (NExpression.codeGen cxx condition) _ c4 top.block b4 v
    (currentBlock_top _ top rest hc3) h1 hb4
    ⟨context.fresh, "then", top.block.parent⟩ ⟨context.fresh + 1, "else", top.block.parent⟩
  have e1 := createBlockHere_top "then" context top rest hctx
  have e2 := createBlockHere_top "else" (context.createBlock "then" top.block.parent).2
    top rest hctx
  have e3 := createBlockHere_top "continue"
    ((context.createBlock "then" top.block.parent).2.createBlock "else" top.block.parent).2
    top rest hctx
  have bt := branchTo_top ⟨context.fresh + 2, "continue", top.block.parent⟩ c5 topT restT htopT
  have mt := moveAndPush_top ⟨context.fresh + 1, "else", top.block.parent⟩
    (c5.emit topT.block (.br ⟨context.fresh + 2, "continue", top.block.parent⟩)).2
    topT restT htopT
  have be := branchTo_top ⟨context.fresh + 2, "continue", top.block.parent⟩ c8 topE restE htopE
  have me := moveAndPush_top ⟨context.fresh + 2, "continue", top.block.parent⟩
    (c8.emit topE.block (.br ⟨context.fresh + 2, "continue", top.block.parent⟩)).2
    topE restE htopE
  refine ⟨?_, ?_, ?_⟩
  · simp only [NStatement.codeGen, NConditional.codeGen, e1, e2, e3]
    have n1 : (context.createBlock "then" top.block.parent).1 =
        ⟨context.fresh, "then", top.block.parent⟩ := rfl
    have n2 : ((context.createBlock "then" top.block.parent).2.createBlock "else"
        top.block.parent).1 = ⟨context.fresh + 1, "else", top.block.parent⟩ := rfl
    have n3 : (((context.createBlock "then" top.block.parent).2.createBlock "else"
        top.block.parent).2.createBlock "continue" top.block.parent).1 =
        ⟨context.fresh + 2, "continue", top.block.parent⟩ := rfl
    simp only [n1, n2, n3, b1, hthen, bt, mt, helse, be, me]
  · simp [CodeGenContext.createBlock]
  · intro hpush
    have x1 := tracks_NExpression cxx condition _ v c4 h1
    rw [hpush] at x1
    exact currentBlock_unpushed x1 top.block b4 (currentBlock_top _ top rest hc3) hb4

/-- C20 (amended), on `if (x < 3) { x = x + 1; } else { }` after `int x = 1;`: the three
blocks are added, the entry block ends in the conditional branch, `then` and
the empty `else` each end in a branch to `continue`, and `continue` is the
current block afterwards. And on
`if ({ if (1 == 1) {} else {}; 1 == 2; }) {} else {}` in the sample context,
with arguments evaluated first to last: the block current after the condition
is the `continue` block 7 of its inner conditional, and that is where the
branch to `then` and `else` goes. -/
theorem conditional_lowering_witness :
    sampleCondition.pushes = 0 ∧
    sampleIfCondition = .ok (valueOf sampleIfCondition, contextOf sampleIfCondition) ∧
    CodeGenContext.currentBlock (contextOf sampleIfCondition) =
      .ok (sampleEntry, contextOf sampleIfCondition) ∧
    sampleIfThen = .ok (valueOf sampleIfThen, contextOf sampleIfThen) ∧
    sampleIfElse = .ok (valueOf sampleIfElse, contextOf sampleIfElse) ∧
    (∃ c, NStatement.codeGen firstToLast (.NConditional sampleCondition sampleBody .nil)
      sampleDeclaredX = .ok (.null, c)) ∧
    sampleEntry = (⟨sampleEntry, .null, [("x", .inst 2 (.ptr .int64))],
        [("x", .int64)]⟩ : CodeGenBlock).block ∧
    (NStatement.codeGen firstToLast (.NConditional sampleCondition sampleBody .nil)
        sampleDeclaredX).map
      (fun r => (r.2.module.layout, r.2.blocks.map (fun s => s.block),
        (r.2.module.insts.drop 2).map (fun i => (i.parent, i.kind)))) =
      .ok ([sampleEntry, sampleThen, sampleElse, sampleContinue],
        [sampleContinue, sampleElse, sampleThen, sampleEntry],
        [(sampleEntry, .load .int64 (.inst 2 (.ptr .int64)) "x"),
         (sampleEntry, .icmp .ICMP_SLT (.inst 7 .int64) (.constInt .int64 3)),
         (sampleEntry, .condBr sampleThen sampleElse (.inst 8 .int1)),
         (sampleThen, .load .int64 (.inst 2 (.ptr .int64)) "x"),
         (sampleThen, .binop .Add (.inst 10 .int64) (.constInt .int64 1)),
         (sampleThen, .store (.inst 11 .int64) (.inst 2 (.ptr .int64))),
         (sampleThen, .br sampleContinue),
         (sampleElse, .br sampleContinue)]) ∧
    CodeGenContext.currentBlock (contextOf sampleBlockIfCondition) =
      .ok (⟨7, "continue", sampleMain⟩, contextOf sampleBlockIfCondition) ∧
    sampleBlockIfThen = .ok (valueOf sampleBlockIfThen, contextOf sampleBlockIfThen) ∧
    NStatement.codeGen firstToLast (.NConditional sampleBlockCondition .nil .nil)
        sampleContext =
      .ok (.null,
        (moveAfter
          ((contextOf sampleBlockIfElse).emit
            (⟨⟨3, "else", sampleMain⟩, .null, [], []⟩ : CodeGenBlock).block
            (.br ⟨sampleContext.fresh + 2, "continue", sampleEntry.parent⟩)).2
          ⟨sampleContext.fresh + 2, "continue", sampleEntry.parent⟩
          (⟨⟨3, "else", sampleMain⟩, .null, [], []⟩ : CodeGenBlock).block).pushBlock
          ⟨sampleContext.fresh + 2, "continue", sampleEntry.parent⟩) :=
  have g := conditional_lowering firstToLast sampleBlockCondition .nil .nil sampleContext
    ⟨sampleEntry, .null, [], []⟩ []
    (valueOf sampleBlockIfCondition) (valueOf sampleBlockIfThen) (valueOf sampleBlockIfElse)
    (contextOf sampleBlockIfCondition) (contextOf sampleBlockIfThen) (contextOf sampleBlockIfElse)
    ⟨7, "continue", sampleMain⟩
    ⟨⟨2, "then", sampleMain⟩, .null, [], []⟩ ⟨⟨3, "else", sampleMain⟩, .null, [], []⟩
    (contextOf sampleBlockIfCondition).blocks
    (contextOf sampleBlockIfThen).blocks
    (by decide!) (by decide!) (by decide!) (by decide!) (by decide!) (by decide!)
    (by decide!)
  have h := conditional_lowering firstToLast sampleCondition sampleBody .nil sampleDeclaredX
    ⟨sampleEntry, .null, [("x", .inst 2 (.ptr .int64))], [("x", .int64)]⟩ []
    (valueOf sampleIfCondition) (valueOf sampleIfThen) (valueOf sampleIfElse)
    (contextOf sampleIfCondition) (contextOf sampleIfThen) (contextOf sampleIfElse)
    sampleEntry
    ⟨sampleThen, .null, [], []⟩ ⟨sampleElse, .null, [], []⟩
    sampleDeclaredX.blocks (⟨sampleThen, .null, [], []⟩ :: sampleDeclaredX.blocks)
    (by decide!) (by decide!) (by decide!) (by decide!) (by decide!) (by decide!)
    (by decide!)
  ⟨by decide!, by decide!, by decide!, by decide!, by decide!,
   ⟨_, h.1⟩, h.2.2 (by decide!), by decide!, by decide!, by decide!, g.1⟩

/-! ### Declarations that name an unknown type -/

/-- The handle and the diagnostics of a declaration that returns. -/
theorem declare_reported (cxx : Cxx) (slotTy : IRType → IRType) (type id : String)
    (init : OptExpression) (c : CodeGenContext) (v : Value) (c' : CodeGenContext)
    (top : CodeGenBlock) (rest : List CodeGenBlock) (hc : c.blocks = top :: rest)
    (h : declare cxx slotTy type id (OptExpression.codeGen cxx init) c = .ok (v, c')) :
    v = .inst c.fresh (.ptr (slotTy (typeOf type).1)) ∧
      ∃ ds, c'.cerr = c.cerr ++ (typeOf type).2 ++ ds := by
  rw [declare_eq cxx slotTy type id _ top rest c hc] at h
  cases init with
  | null =>
    simp only [OptExpression.codeGen] at h
    cases h
    exact ⟨rfl, [], by simp [registered]⟩
  | ptr e =>
    simp only [OptExpression.codeGen] at h
    split at h
    · cases h
    · rename_i w c5 h5
      cases h
      have x := tracks_NAssignment cxx id (cxx.indeterminate (c.fresh + 1))
        (tracks_NExpression cxx e) _ _ _ h5
      obtain ⟨-, -, -, ⟨ds, hds⟩, -, -⟩ := x
      exact ⟨rfl, ds, by rw [hds]; simp [registered]⟩

/-- The function and the diagnostics of a function declaration that returns. -/
theorem functionDeclaration_declared (cxx : Cxx) (type id : String) (arguments : VariableList)
    (block : StatementList) (c : CodeGenContext) (v : Value) (c' : CodeGenContext)
    (h : NStatement.codeGen cxx (.NFunctionDeclaration type id arguments block) c =
      .ok (v, c')) :
    v = .function ⟨c.fresh, id, (typeOf type).1, (argTypesOf arguments.typeNames).1,
          .InternalLinkage⟩ ∧
      (⟨c.fresh, id, (typeOf type).1, (argTypesOf arguments.typeNames).1, .InternalLinkage⟩ :
        Function) ∈ c'.module.functions ∧
      ∃ ds, c'.cerr = c.cerr ++ (argTypesOf arguments.typeNames).2 ++ (typeOf type).2 ++ ds := by
  simp only [NStatement.codeGen] at h
  have e3 := tracks_body _ (tracks_VariableList cxx arguments _ _ 0)
    (tracks_StatementList cxx block .null) _ _ c' v h
  obtain ⟨-, -, -, ⟨ds, hds⟩, ⟨fs, hfs⟩, -⟩ := e3
  refine ⟨?_, ?_, ds, ?_⟩
  · simp only [NFunctionDeclaration.codeGen] at h
    split at h
    · cases h
    · split at h
      · cases h
      · split at h
        · cases h
        · split at h
          · cases h
          · cases h
            rfl
  · rw [hfs]
    simp [CodeGenContext.createFunction, CodeGenContext.createBlock]
  · rw [hds]
    simp [CodeGenContext.createFunction, CodeGenContext.createBlock]

/-- The parameter types the loops map: each type name through `typeOf`, with the
diagnostic of every unknown one. -/
theorem argTypesOf_unknown (name : String) (h : name ∉ typeNames) :
    ∀ ts : List String, (argTypesOf ts).1 = ts.map (fun t => (typeOf t).1) ∧
      (name ∈ ts → .void ∈ (argTypesOf ts).1 ∧ .nonexistentType name ∈ (argTypesOf ts).2) := by
  intro ts
  induction ts with
  | nil => simp [argTypesOf]
  | cons t rest ih =>
    refine ⟨by simp [argTypesOf, ih.1], ?_⟩
    intro hm
    rcases List.mem_cons.mp hm with rfl | hm
    · simp [argTypesOf, typeOf_unknown name h]
    · have := ih.2 hm
      simp [argTypesOf, this]
/-- C2 (amended): for a type name that is none of the five, the type mapper
writes the diagnostic "nonexistent type" for it and yields `void`, and the
lowering goes on. A variable or array declaration of a name not yet in the top
scope records the type `void` for the name, calls the allocation constructor
with `void` (the array declaration with pointer to `void`) in the current
block and records the handle, which is the context `registered`; without
initializer that is the result, and with an initializer the assignment is
lowered in that context and the handle is returned whenever the assignment
returns. Whenever such a declaration returns, with any initializer, its value
is that handle, the allocation is in the instruction stream, the scope still
holds the handle for the name, and the diagnostic is in the error stream. An
extern declaration with this return type, with any parameters, creates the
function with return type `void`. A function declaration with this return
type, with any parameters and any body, creates the function with return type
`void` before parameters and body are lowered: whenever it returns, its value
is that function, the function is in the function table and the diagnostic is
in the error stream; without parameters and with an empty body it returns the
context shown. When the unknown name is the type of a parameter of an extern or
function declaration with any return type `ret`, the function is created with
`void` as the type of that parameter, and the diagnostic is in the error
stream: always for the extern declaration, and whenever the function
declaration returns. -/
theorem unknown_type_reported_then_void (cxx : Cxx) (name id ret : String) (e : NExpression)
    (init : OptExpression) (arguments : VariableList) (block : StatementList)
    (top : CodeGenBlock) (rest : List CodeGenBlock)
    (context : CodeGenContext) (hname : name ∉ typeNames)
    (hctx : context.blocks = top :: rest) (hid : top.locals.contains id = false) :
    typeOf name = (.void, [.nonexistentType name]) ∧
    (∀ slotTy : IRType → IRType, registered slotTy name id context top rest =
      { context with
        blocks := { top with
                    ltypes := top.ltypes.set id .void
                    locals := top.locals.set id
                      (.inst context.fresh (.ptr (slotTy .void))) } :: rest
        module := { context.module with
                    insts := context.module.insts ++
                      [⟨context.fresh, .alloca (slotTy .void) id, top.block⟩] }
        cerr := context.cerr ++ [.nonexistentType name]
        fresh := context.fresh + 1 }) ∧
    NStatement.codeGen cxx (.NVariableDeclaration name id .null) context =
      .ok (.inst context.fresh (.ptr .void),
        registered (fun ty => ty) name id context top rest) ∧
    NStatement.codeGen cxx (.NVariableDeclaration name id (.ptr e)) context =
      (NAssignment.codeGen cxx id (cxx.indeterminate (context.fresh + 1))
        (NExpression.codeGen cxx e) (registered (fun ty => ty) name id context top rest)).map
        (fun r => (.inst context.fresh (.ptr .void), r.2)) ∧
    (∀ v c', NStatement.codeGen cxx (.NVariableDeclaration name id init) context = .ok (v, c') →
      v = .inst context.fresh (.ptr .void) ∧
      Allocated c' rest.length top.block id context.fresh .void ∧
      .nonexistentType name ∈ c'.cerr) ∧
    NStatement.codeGen cxx (.NArrayDeclaration name id .null) context =
      .ok (.inst context.fresh (.ptr (.ptr .void)),
        registered (fun ty => .ptr ty) name id context top rest) ∧
    NStatement.codeGen cxx (.NArrayDeclaration name id (.ptr e)) context =
      (NAssignment.codeGen cxx id (cxx.indeterminate (context.fresh + 1))
        (NExpression.codeGen cxx e)
        (registered (fun ty => .ptr ty) name id context top rest)).map
        (fun r => (.inst context.fresh (.ptr (.ptr .void)), r.2)) ∧
    (∀ v c', NStatement.codeGen cxx (.NArrayDeclaration name id init) context = .ok (v, c') →
      v = .inst context.fresh (.ptr (.ptr .void)) ∧
      Allocated c' rest.length top.block id context.fresh (.ptr .void) ∧
      .nonexistentType name ∈ c'.cerr) ∧
    NStatement.codeGen cxx (.NExternDeclaration name id arguments) context =
      .ok (.function
            ⟨context.fresh, id, .void, (argTypesOf arguments.typeNames).1, .ExternalLinkage⟩,
        { context with
          module := { context.module with
                      functions := context.module.functions ++
                        [⟨context.fresh, id, .void, (argTypesOf arguments.typeNames).1,
                          .ExternalLinkage⟩] }
          cerr := context.cerr ++ (argTypesOf arguments.typeNames).2 ++
            [.nonexistentType name]
          fresh := context.fresh + 1 }) ∧
    (∀ v c', NStatement.codeGen cxx (.NFunctionDeclaration name id arguments block) context =
        .ok (v, c') →
      v = .function
          ⟨context.fresh, id, .void, (argTypesOf arguments.typeNames).1, .InternalLinkage⟩ ∧
      (⟨context.fresh, id, .void, (argTypesOf arguments.typeNames).1, .InternalLinkage⟩ :
        Function) ∈ c'.module.functions ∧
      .nonexistentType name ∈ c'.cerr) ∧
    NStatement.codeGen cxx (.NFunctionDeclaration name id .nil .nil) context =
      .ok (.function ⟨context.fresh, id, .void, [], .InternalLinkage⟩,
        { context with
          module := { context.module with
                      functions := context.module.functions ++
                        [⟨context.fresh, id, .void, [], .InternalLinkage⟩]
                      layout := context.module.layout ++
                        [⟨context.fresh + 1, "entry",
                          ⟨context.fresh, id, .void, [], .InternalLinkage⟩⟩]
                      insts := context.module.insts ++
                        [⟨context.fresh + 2, .ret .null,
                          ⟨context.fresh + 1, "entry",
                            ⟨context.fresh, id, .void, [], .InternalLinkage⟩⟩⟩] }
          cerr := context.cerr ++ [.nonexistentType name]
          fresh := context.fresh + 3 }) ∧
    (name ∈ arguments.typeNames →
      ∃ c', NStatement.codeGen cxx (.NExternDeclaration ret id arguments) context =
          .ok (.function ⟨context.fresh, id, (typeOf ret).1,
            arguments.typeNames.map (fun t => (typeOf t).1), .ExternalLinkage⟩, c') ∧
        (⟨context.fresh, id, (typeOf ret).1,
            arguments.typeNames.map (fun t => (typeOf t).1), .ExternalLinkage⟩ : Function) ∈
          c'.module.functions ∧
        .void ∈ arguments.typeNames.map (fun t => (typeOf t).1) ∧
        .nonexistentType name ∈ c'.cerr) ∧
    (name ∈ arguments.typeNames →
      ∀ v c', NStatement.codeGen cxx (.NFunctionDeclaration ret id arguments block) context =
          .ok (v, c') →
        v = .function ⟨context.fresh, id, (typeOf ret).1,
            arguments.typeNames.map (fun t => (typeOf t).1), .InternalLinkage⟩ ∧
        (⟨context.fresh, id, (typeOf ret).1,
            arguments.typeNames.map (fun t => (typeOf t).1), .InternalLinkage⟩ : Function) ∈
          c'.module.functions ∧
        .void ∈ arguments.typeNames.map (fun t => (typeOf t).1) ∧
        .nonexistentType name ∈ c'.cerr) := by
  have ht := typeOf_unknown name hname
  have hargs := argTypesOf_unknown name hname arguments.typeNames
  have hdecl : ∀ (slotTy : IRType → IRType) (v : Value) (c' : CodeGenContext),
      declare cxx slotTy name id (OptExpression.codeGen cxx init) context = .ok (v, c') →
      v = .inst context.fresh (.ptr (slotTy .void)) ∧
      Allocated c' rest.length top.block id context.fresh (slotTy .void) ∧
      .nonexistentType name ∈ c'.cerr := by
    intro slotTy v c' h
    obtain ⟨hv, ds, hds⟩ := declare_reported cxx slotTy name id init context v c' top rest hctx h
    have ha := (allocated_of_declare cxx slotTy name id init context v c' top rest hctx hid h).2
    rw [ht] at hv ha hds
    exact ⟨hv, ha, by rw [hds]; simp⟩
  have hmap : ∀ (slotTy : IRType → IRType),
      declare cxx slotTy name id (OptExpression.codeGen cxx (.ptr e)) context =
      (NAssignment.codeGen cxx id (cxx.indeterminate (context.fresh + 1))
        (NExpression.codeGen cxx e) (registered slotTy name id context top rest)).map
        (fun r => (.inst context.fresh (.ptr (slotTy .void)), r.2)) := by
    intro slotTy
    rw [declare_eq cxx slotTy name id _ top rest context hctx]
    simp only [OptExpression.codeGen, ht]
    cases NAssignment.codeGen cxx id (cxx.indeterminate (context.fresh + 1))
      (NExpression.codeGen cxx e) (registered slotTy name id context top rest) with
    | error f => rfl
    | ok r => rfl
  have hnull : ∀ (slotTy : IRType → IRType),
      declare cxx slotTy name id (OptExpression.codeGen cxx .null) context =
      .ok (.inst context.fresh (.ptr (slotTy .void)),
        registered slotTy name id context top rest) := by
    intro slotTy
    rw [declare_eq cxx slotTy name id _ top rest context hctx]
    simp only [OptExpression.codeGen, ht]
  refine ⟨ht, ?_, ?_, ?_, ?_, ?_, ?_, ?_, ?_, ?_, ?_, ?_, ?_⟩
  · intro slotTy
    simp only [registered, ht]
  · simp only [NStatement.codeGen, NVariableDeclaration.codeGen, hctx, hid]
    exact hnull (fun ty => ty)
  · simp only [NStatement.codeGen, NVariableDeclaration.codeGen, hctx, hid]
    exact hmap (fun ty => ty)
  · intro v c' h
    simp only [NStatement.codeGen, NVariableDeclaration.codeGen, hctx, hid] at h
    exact hdecl (fun ty => ty) v c' h
  · simp only [NStatement.codeGen, NArrayDeclaration.codeGen, hctx, hid]
    exact hnull (fun ty => .ptr ty)
  · simp only [NStatement.codeGen, NArrayDeclaration.codeGen, hctx, hid]
    exact hmap (fun ty => .ptr ty)
  · intro v c' h
    simp only [NStatement.codeGen, NArrayDeclaration.codeGen, hctx, hid] at h
    exact hdecl (fun ty => .ptr ty) v c' h
  · simp [NStatement.codeGen, NExternDeclaration.codeGen, ht, CodeGenContext.createFunction]
  · intro v c' h
    obtain ⟨hv, hf, ds, hds⟩ := functionDeclaration_declared cxx name id arguments block
      context v c' h
    rw [ht] at hv hf hds
    exact ⟨hv, hf, by rw [hds]; simp⟩
  · simp [NStatement.codeGen, NFunctionDeclaration.codeGen, VariableList.typeNames,
      VariableList.codeGen, StatementList.codeGen, argTypesOf, ht,
      CodeGenContext.createFunction, CodeGenContext.createBlock, CodeGenContext.pushBlock,
      CodeGenContext.getCurrentReturnValue, CodeGenContext.popBlock, CodeGenContext.emit,
      InstKind.resultType, hctx]
  · intro hm
    obtain ⟨hv, hd⟩ := hargs.2 hm
    rw [hargs.1] at hv
    refine ⟨(({ context with
        cerr := context.cerr ++ (argTypesOf arguments.typeNames).2 ++ (typeOf ret).2 } :
        CodeGenContext).createFunction (typeOf ret).1
          (arguments.typeNames.map (fun t => (typeOf t).1)) .ExternalLinkage id).2,
      ?_, ?_, hv, ?_⟩
    · simp only [NStatement.codeGen, NExternDeclaration.codeGen, hargs.1]
      rfl
    · simp [CodeGenContext.createFunction]
    · simp [CodeGenContext.createFunction, hd]
  · intro hm v c' h
    obtain ⟨hv, hd⟩ := hargs.2 hm
    obtain ⟨h1, h2, ds, hds⟩ := functionDeclaration_declared cxx ret id arguments block
      context v c' h
    rw [hargs.1] at h1 h2 hv
    exact ⟨h1, h2, hv, by rw [hds]; simp [hd]⟩

/-- C2 (amended), in the sample context: `float x = 1 + 2;` records `void` for
`x`, allocates the slot with that type and stores the sum into it;
`float g(int a, int b = 2) { int t = a; return t; }` puts `g` with return type
`void` into the function table and lowers parameters and body; and
`extern int p(float z)` declares `p` with a parameter of type `void`. -/
theorem unknown_type_reported_then_void_witness :
    "float" ∉ typeNames ∧ sampleContext.blocks = [⟨sampleEntry, .null, [], []⟩] ∧
    StdMap.contains (β := Value) [] "x" = false ∧
    typeOf "float" = (.void, [.nonexistentType "float"]) ∧
    NStatement.codeGen firstToLast sampleFloatX sampleContext =
      .ok (.inst 2 (.ptr .void),
        { blocks := [⟨sampleEntry, .null, [("x", .inst 2 (.ptr .void))], [("x", .void)]⟩]
          module := ⟨[sampleMain], [sampleEntry],
            [⟨2, .alloca .void "x", sampleEntry⟩,
             ⟨3, .binop .Add (.constInt .int64 1) (.constInt .int64 2), sampleEntry⟩,
             ⟨4, .store (.inst 3 .int64) (.inst 2 (.ptr .void)), sampleEntry⟩], []⟩
          mainFunction := some sampleMain
          cerr := [.nonexistentType "float"]
          fresh := 5 }) ∧
    (valueOf (NStatement.codeGen firstToLast sampleFloatX sampleContext) =
        .inst sampleContext.fresh (.ptr .void) ∧
      Allocated (contextOf (NStatement.codeGen firstToLast sampleFloatX sampleContext))
        ([] : List CodeGenBlock).length sampleEntry "x" sampleContext.fresh .void ∧
      .nonexistentType "float" ∈
        (contextOf (NStatement.codeGen firstToLast sampleFloatX sampleContext)).cerr) ∧
    (valueOf (NStatement.codeGen firstToLast sampleFloatArray sampleContext) =
        .inst sampleContext.fresh (.ptr (.ptr .void)) ∧
      Allocated (contextOf (NStatement.codeGen firstToLast sampleFloatArray sampleContext))
        ([] : List CodeGenBlock).length sampleEntry "v" sampleContext.fresh (.ptr .void) ∧
      .nonexistentType "float" ∈
        (contextOf (NStatement.codeGen firstToLast sampleFloatArray sampleContext)).cerr) ∧
    (valueOf (NStatement.codeGen firstToLast sampleFloatFunction sampleContext) =
        .function ⟨sampleContext.fresh, "g", .void,
          (argTypesOf (VariableList.typeNames
            (.cons "int" "a" .null (.cons "int" "b" (.ptr (.NInteger 2)) .nil)))).1,
          .InternalLinkage⟩ ∧
      (⟨sampleContext.fresh, "g", .void,
          (argTypesOf (VariableList.typeNames
            (.cons "int" "a" .null (.cons "int" "b" (.ptr (.NInteger 2)) .nil)))).1,
          .InternalLinkage⟩ : Function) ∈
        (contextOf (NStatement.codeGen firstToLast sampleFloatFunction
          sampleContext)).module.functions ∧
      .nonexistentType "float" ∈
        (contextOf (NStatement.codeGen firstToLast sampleFloatFunction sampleContext)).cerr) ∧
    (NStatement.codeGen firstToLast sampleFloatFunction sampleContext).map
        (fun r => (r.2.module.functions, r.2.cerr)) =
      .ok ([sampleMain, ⟨2, "g", .void, [.int64, .int64], .InternalLinkage⟩],
        [.nonexistentType "float"]) ∧
    "float" ∈ VariableList.typeNames (.cons "float" "z" .null .nil) ∧
    (∃ c', NStatement.codeGen firstToLast
          (.NExternDeclaration "int" "p" (.cons "float" "z" .null .nil)) sampleContext =
          .ok (.function ⟨sampleContext.fresh, "p", (typeOf "int").1,
            (VariableList.typeNames (.cons "float" "z" .null .nil)).map
              (fun t => (typeOf t).1), .ExternalLinkage⟩, c') ∧
        (⟨sampleContext.fresh, "p", (typeOf "int").1,
            (VariableList.typeNames (.cons "float" "z" .null .nil)).map
              (fun t => (typeOf t).1), .ExternalLinkage⟩ : Function) ∈
          c'.module.functions ∧
        .void ∈ (VariableList.typeNames (.cons "float" "z" .null .nil)).map
          (fun t => (typeOf t).1) ∧
        .nonexistentType "float" ∈ c'.cerr) ∧
    (NStatement.codeGen firstToLast
        (.NExternDeclaration "int" "p" (.cons "float" "z" .null .nil)) sampleContext).map
        (fun r => (r.2.module.functions, r.2.cerr)) =
      .ok ([sampleMain, ⟨2, "p", .int64, [.void], .ExternalLinkage⟩],
        [.nonexistentType "float"]) :=
  have hx := unknown_type_reported_then_void firstToLast "float" "x" "int" (.NInteger 0)
    (.ptr (.NBinaryOperator (.NInteger 1) .PLUS (.NInteger 2))) .nil .nil
    ⟨sampleEntry, .null, [], []⟩ [] sampleContext (by decide) rfl rfl
  have hv := unknown_type_reported_then_void firstToLast "float" "v" "int" (.NInteger 0)
    (.ptr (.NArray (.cons (.NInteger 1) (.cons (.NInteger 2) .nil)))) .nil .nil
    ⟨sampleEntry, .null, [], []⟩ [] sampleContext (by decide) rfl rfl
  have hg := unknown_type_reported_then_void firstToLast "float" "g" "int" (.NInteger 0) .null
    (.cons "int" "a" .null (.cons "int" "b" (.ptr (.NInteger 2)) .nil))
    (.cons (.NVariableDeclaration "int" "t" (.ptr (.NIdentifier "a")))
      (.cons (.NReturnStatement (.NIdentifier "t")) .nil))
    ⟨sampleEntry, .null, [], []⟩ [] sampleContext (by decide) rfl rfl
  have hp := unknown_type_reported_then_void firstToLast "float" "p" "int" (.NInteger 0) .null
    (.cons "float" "z" .null .nil) .nil
    ⟨sampleEntry, .null, [], []⟩ [] sampleContext (by decide) rfl rfl
  ⟨by decide, rfl, rfl, hx.1, by decide!,
   hx.2.2.2.2.1 _ _ (by decide!), hv.2.2.2.2.2.2.2.1 _ _ (by decide!),
   hg.2.2.2.2.2.2.2.2.2.1 _ _ (by decide!), by decide!, by decide,
   hp.2.2.2.2.2.2.2.2.2.2.2.1 (by decide), by decide!⟩

end BEE
